import Mathlib

/-!
Verification development for the Tents-and-Trees solver (src/main.rs).

The Rust program is shallowly embedded: the board is a flat `List Cell`
indexed by `x + y * dim`, the `u8` remaining-tent counters are `Nat`
values with the u8 wrap-around written out as `% 256` where the source
mutates them, and the mutable `Backtrack` search state is passed
explicitly.  The `HashSet<usize>` frontier is embedded as a duplicate-free
`List Nat`; since the iteration order of a Rust `HashSet` is arbitrary
(its hasher is seeded randomly per process), the search loop takes a
`chooser` argument that selects which frontier element
`self.todo.iter().next()` yields at each step, and the loop itself is
fuel-indexed (`outOfFuel` plays the role of non-termination).
-/

namespace TT

/-- The four cell kinds of the Rust `enum Cell`. -/
inductive Cell
  | Tree
  | Tent
  | Grass
  | Empty
deriving DecidableEq, Repr

/-- The Rust `struct State`: a square board of side `dim` stored as a flat
sequence indexed by `x + y * dim`, plus the remaining-tent counters per
column and per row (u8 in the source, here `Nat` kept below 256). -/
@[ext]
structure State where
  dim : Nat
  cells : List Cell
  col_tents : List Nat
  row_tents : List Nat
deriving DecidableEq, Repr

/-- `State::get_cell`.  An out-of-range read (a panic in Rust) returns
`Empty`; all theorems below that depend on reads carry the well-formedness
hypotheses making every read in range. -/
def State.get_cell (s : State) (x y : Nat) : Cell :=
  s.cells.getD (x + y * s.dim) Cell.Empty

/-- `State::set_cell` (an out-of-range write is a no-op in this model). -/
def State.set_cell (s : State) (x y : Nat) (v : Cell) : State :=
  { s with cells := s.cells.set (x + y * s.dim) v }

/-- `State::index_to_xy`. -/
def State.index_to_xy (s : State) (index : Nat) : Nat × Nat :=
  (index % s.dim, index / s.dim)

/-- The guard of the first `fill_green` loop: the cell `(x, y)` has a
`Tree` in one of its four orthogonal neighbours (each neighbour access
guarded by the same bounds tests as the source). -/
def treeNear (s : State) (x y : Nat) : Bool :=
  (decide (0 < x) && decide (s.get_cell (x - 1) y = Cell.Tree)) ||
  (decide (0 < y) && decide (s.get_cell x (y - 1) = Cell.Tree)) ||
  (decide (x + 1 < s.dim) && decide (s.get_cell (x + 1) y = Cell.Tree)) ||
  (decide (y + 1 < s.dim) && decide (s.get_cell x (y + 1) = Cell.Tree))

/-- The body of the first `fill_green` loop at one cell: skip unless the
cell is `Empty` and no orthogonal neighbour is a `Tree`, else set `Grass`. -/
def grassStep (s : State) (x y : Nat) : State :=
  if s.get_cell x y ≠ Cell.Empty ∨ treeNear s x y then s
  else s.set_cell x y Cell.Grass

/-- The first loop of `State::fill_green` (rows outside, columns inside). -/
def State.fill_pass1 (s : State) : State :=
  let n := s.dim
  (List.range n).foldl (fun s1 y => (List.range n).foldl (fun s2 x => grassStep s2 x y) s1) s

/-- The body of the column sweep of `fill_green`: every still-`Empty` cell
of column `x` becomes `Grass`. -/
def colSweep (s : State) (x : Nat) : State :=
  (List.range s.dim).foldl
    (fun s2 y => if s2.get_cell x y = Cell.Empty then s2.set_cell x y Cell.Grass else s2) s

/-- The row sweep of `fill_green`. -/
def rowSweep (s : State) (y : Nat) : State :=
  (List.range s.dim).foldl
    (fun s2 x => if s2.get_cell x y = Cell.Empty then s2.set_cell x y Cell.Grass else s2) s

/-- The second loop of `State::fill_green`: columns whose remaining count
is zero are swept to `Grass`. -/
def State.fill_pass2 (s : State) : State :=
  (List.range s.dim).foldl (fun s1 x => if s1.col_tents.getD x 0 = 0 then colSweep s1 x else s1) s

/-- The third loop of `State::fill_green`: rows whose remaining count is
zero are swept to `Grass`. -/
def State.fill_pass3 (s : State) : State :=
  (List.range s.dim).foldl (fun s1 y => if s1.row_tents.getD y 0 = 0 then rowSweep s1 y else s1) s

/-- `State::fill_green`: the three loops of the source, in order. -/
def State.fill_green (s : State) : State :=
  s.fill_pass1.fill_pass2.fill_pass3

/-- The Rust `struct Backtrack`.  `todo` is the `HashSet<usize>` frontier
(as a duplicate-free list), `cords_stack` the decision trail (bottom
first, as the Rust `Vec`), `backtrack_stack` the choice-point offsets. -/
@[ext]
structure Backtrack where
  state : State
  tree_count : Nat
  tent_count : Nat
  todo : List Nat
  cords_stack : List Nat
  backtrack_stack : List Nat
deriving DecidableEq, Repr

/-- `Backtrack::mark_green`: if the cell is still on the frontier, remove
it, record it on the trail and set it to `Grass`; otherwise do nothing. -/
def Backtrack.mark_green (b : Backtrack) (x y : Nat) : Backtrack :=
  let new_cord := x + y * b.state.dim
  if new_cord ∈ b.todo then
    { b with
      todo := b.todo.erase new_cord
      cords_stack := b.cords_stack ++ [new_cord]
      state := { b.state with cells := b.state.cells.set new_cord Cell.Grass } }
  else b

/-- Folding `mark_green` over a list of coordinates (the shape of every
marking loop in `Backtrack::run`). -/
def Backtrack.markList (b : Backtrack) (l : List (Nat × Nat)) : Backtrack :=
  l.foldl (fun b1 p => b1.mark_green p.1 p.2) b

/-- The delta pairs of the neighbour-marking double loop of
`Backtrack::run`, in iteration order (`dx` outside, `dy` inside, the
`dx == 0 && dy == 0` pair skipped). -/
def deltas : List (Int × Int) :=
  [(-1, -1), (-1, 0), (-1, 1), (0, -1), (0, 1), (1, -1), (1, 0), (1, 1)]

/-- The king-move neighbours of `(x, y)` actually visited by the marking
loop.  The source computes `x.wrapping_add(dx)` on `usize` and skips when
the result is `dim` or `usize::MAX`; on the integers this is `x + dx`
skipped when it equals `dim` or `-1` (identical for every `x < dim`). -/
def neighborList (n x y : Nat) : List (Nat × Nat) :=
  deltas.filterMap (fun d =>
    let nx : Int := (x : Int) + d.1
    let ny : Int := (y : Int) + d.2
    if nx = (n : Int) ∨ nx = -1 ∨ ny = (n : Int) ∨ ny = -1 then none
    else some (nx.toNat, ny.toNat))

/-- The bookkeeping prefix of the inner `while` body of `Backtrack::run`:
take `cord` off the frontier, push it on the trail, record the choice
point offset (the trail length after the push), set the cell to `Tent`
and bump `tent_count`. -/
def Backtrack.pickStep (b : Backtrack) (cord : Nat) : Backtrack :=
  { b with
    todo := b.todo.erase cord
    cords_stack := b.cords_stack ++ [cord]
    backtrack_stack := b.backtrack_stack ++ [b.cords_stack.length + 1]
    state := { b.state with cells := b.state.cells.set cord Cell.Tent }
    tent_count := b.tent_count + 1 }

/-- The decrement `col_tents[x] -= 1` of the inner `while` body, with the
u8 wrap-around written out. -/
def Backtrack.colDec (b : Backtrack) (x : Nat) : Backtrack :=
  { b with state := { b.state with
      col_tents := b.state.col_tents.set x ((b.state.col_tents.getD x 0 + 255) % 256) } }

/-- The column part of the inner `while` body: decrement, and if the
counter hit zero, mark the whole column `Grass`. -/
def Backtrack.colPhase (b : Backtrack) (x : Nat) : Backtrack :=
  if (b.colDec x).state.col_tents.getD x 0 = 0 then
    (b.colDec x).markList ((List.range (b.colDec x).state.dim).map (fun y2 => (x, y2)))
  else b.colDec x

/-- The decrement `row_tents[y] -= 1` of the inner `while` body. -/
def Backtrack.rowDec (b : Backtrack) (y : Nat) : Backtrack :=
  { b with state := { b.state with
      row_tents := b.state.row_tents.set y ((b.state.row_tents.getD y 0 + 255) % 256) } }

/-- The row part of the inner `while` body, mirroring `colPhase`. -/
def Backtrack.rowPhase (b : Backtrack) (y : Nat) : Backtrack :=
  if (b.rowDec y).state.row_tents.getD y 0 = 0 then
    (b.rowDec y).markList ((List.range (b.rowDec y).state.dim).map (fun x2 => (x2, y)))
  else b.rowDec y

/-- The body of the inner `while` of `Backtrack::run`, for the frontier
cell `cord`: record the choice point, place the tentative tent, decrement
the two counters (sweeping either one that hit zero), and mark the eight
neighbours. -/
def Backtrack.place (b : Backtrack) (cord : Nat) : Backtrack :=
  let x := (b.state.index_to_xy cord).1
  let y := (b.state.index_to_xy cord).2
  (((b.pickStep cord).colPhase x).rowPhase y).markList (neighborList b.state.dim x y)

/-- The backtracking branch of `Backtrack::run`, popping the choice point
offset `i`: every trail entry from position `i` on is reverted to `Empty`
and re-inserted into the frontier, the choice-point cell (the last kept
trail entry) becomes `Grass`, its two counters are incremented (u8
wrap-around written out) and `tent_count` is decremented. -/
def Backtrack.pop (b : Backtrack) (i : Nat) : Backtrack :=
  let drained := b.cords_stack.drop i
  let kept := b.cords_stack.take i
  let reverted := drained.foldl
    (fun (p : List Cell × List Nat) c =>
      (p.1.set c Cell.Empty, if c ∈ p.2 then p.2 else c :: p.2))
    (b.state.cells, b.todo)
  let cord := kept.getLastD 0
  let x := (b.state.index_to_xy cord).1
  let y := (b.state.index_to_xy cord).2
  { b with
    state := { b.state with
      cells := reverted.1.set cord Cell.Grass
      col_tents := b.state.col_tents.set x ((b.state.col_tents.getD x 0 + 1) % 256)
      row_tents := b.state.row_tents.set y ((b.state.row_tents.getD y 0 + 1) % 256) }
    todo := reverted.2
    cords_stack := kept
    backtrack_stack := b.backtrack_stack.dropLast
    tent_count := b.tent_count - 1 }

/-- The element of the frontier yielded by `self.todo.iter().next()`: the
chooser models the arbitrary `HashSet` iteration order. -/
def pickIdx (ch : Nat → Nat) (t : Nat) (l : List Nat) : Nat :=
  l.getD (ch t % l.length) 0

/-- Outcome of `Backtrack::run`: normal return with the final search
state, the `panic!("No solution")`, or fuel exhaustion. -/
inductive RunResult
  | solved (b : Backtrack)
  | noSolution
  | outOfFuel
deriving DecidableEq, Repr

/-- `Backtrack::run`, fuel-indexed.  One fuel unit is one round of the
outer `loop`: either one inner `while` iteration (a placement) or, with
the frontier empty, the return / backtrack / panic decision. -/
def Backtrack.runAux (ch : Nat → Nat) : Nat → Nat → Backtrack → RunResult
  | 0, _, _ => .outOfFuel
  | fuel + 1, t, b =>
    match b.todo with
    | _ :: _ => Backtrack.runAux ch fuel (t + 1) (b.place (pickIdx ch t b.todo))
    | [] =>
      if b.tent_count = b.tree_count then .solved b
      else
        match b.backtrack_stack.getLast? with
        | some i => Backtrack.runAux ch fuel (t + 1) (b.pop i)
        | none => .noSolution

/-- The construction part of `Backtrack::apply`: frontier = the `Empty`
cell indices, the two census counters, empty trail and stacks. -/
def Backtrack.init (s : State) : Backtrack :=
  { state := s
    tree_count := s.cells.countP (fun c => decide (c = Cell.Tree))
    tent_count := s.cells.countP (fun c => decide (c = Cell.Tent))
    todo := (List.range s.cells.length).filter
      (fun i => decide (s.cells.getD i Cell.Empty = Cell.Empty))
    cords_stack := []
    backtrack_stack := [] }

/-- `Backtrack::apply` (fuel-indexed). -/
def Backtrack.applyFuel (ch : Nat → Nat) (fuel : Nat) (s : State) : RunResult :=
  Backtrack.runAux ch fuel 0 (Backtrack.init s)

/-- `State::solve` (fuel-indexed): `fill_green` then the backtracking
search. -/
def State.solveFuel (ch : Nat → Nat) (fuel : Nat) (s : State) : RunResult :=
  Backtrack.applyFuel ch fuel s.fill_green

/-- The search states `Backtrack::run` can pass through, starting from
`b0`: each step is either one placement of a frontier cell (any frontier
cell, covering every `HashSet` iteration order) or one backtrack pop. -/
inductive Reach : Backtrack → Backtrack → Prop
  | refl (b : Backtrack) : Reach b b
  | place {b0 b : Backtrack} (c : Nat) :
      Reach b0 b → c ∈ b.todo → Reach b0 (b.place c)
  | pop {b0 b : Backtrack} (i : Nat) :
      Reach b0 b → b.todo = [] → b.tent_count ≠ b.tree_count →
      b.backtrack_stack.getLast? = some i → Reach b0 (b.pop i)

/-- Well-formed puzzle states: the ones the parser can produce (square
cell block, one u8 counter per column and per row). -/
def Wf (s : State) : Prop :=
  s.cells.length = s.dim * s.dim ∧
  s.col_tents.length = s.dim ∧
  s.row_tents.length = s.dim ∧
  (∀ c ∈ s.col_tents, c < 256) ∧
  (∀ c ∈ s.row_tents, c < 256)

instance : DecidablePred Wf := fun s => by unfold Wf; infer_instance

/-- Number of cells holding value `v`. -/
def cellCount (l : List Cell) (v : Cell) : Nat :=
  l.countP (fun c => decide (c = v))

/-- Total of the per-row required counts. -/
def rowTotal (s : State) : Nat := s.row_tents.sum

/-- Total of the per-column required counts. -/
def colTotal (s : State) : Nat := s.col_tents.sum

/-- True exactly on a normal (solved) return. -/
def RunResult.isSolved : RunResult → Prop
  | .solved _ => True
  | _ => False

instance : DecidablePred RunResult.isSolved := fun r => by
  cases r <;> simp [RunResult.isSolved] <;> infer_instance

/-- The final board of a run, when it returned normally. -/
def RunResult.cellsOf : RunResult → List Cell
  | .solved b => b.state.cells
  | _ => []

/-- Fixed choosers used for concrete evaluations: always take the first,
respectively the second, element the frontier offers. -/
def ch0 : Nat → Nat := fun _ => 0

def ch1 : Nat → Nat := fun _ => 1

section ListHelpers

variable {α : Type _}

theorem getD_set_self (l : List α) (i : Nat) (v d : α) (h : i < l.length) :
    (l.set i v).getD i d = v := by
  simp [List.getD_eq_getElem?_getD, List.getElem?_set_self h]

theorem getD_set_ne (l : List α) {i j : Nat} (h : i ≠ j) (v d : α) :
    (l.set i v).getD j d = l.getD j d := by
  simp [List.getD_eq_getElem?_getD, List.getElem?_set_ne h]

theorem getD_set (l : List α) (i j : Nat) (v d : α) :
    (l.set i v).getD j d =
      if i = j ∧ i < l.length then v else l.getD j d := by
  simp only [List.getD_eq_getElem?_getD, List.getElem?_set]
  rcases eq_or_ne i j with rfl | hne
  · by_cases h : i < l.length
    · simp [h]
    · simp [h, List.getElem?_eq_none (le_of_not_lt h)]
  · simp [hne]

/-- Setting a cell to the `getD` default: the default leaks back out of
range, so the description needs no bound. -/
theorem getD_set_default (l : List α) (i j : Nat) (d : α) :
    (l.set i d).getD j d = if i = j then d else l.getD j d := by
  rw [getD_set]
  rcases eq_or_ne i j with rfl | hne
  · by_cases h : i < l.length
    · simp [h]
    · simp [h, List.getD_eq_getElem?_getD, List.getElem?_eq_none (le_of_not_lt h)]
  · simp [hne]

theorem getD_append_left {l l' : List α} {i : Nat} (h : i < l.length) (d : α) :
    (l ++ l').getD i d = l.getD i d := by
  simp [List.getD_eq_getElem?_getD, List.getElem?_append_left h]

theorem getD_append_self (l : List α) (v d : α) :
    (l ++ [v]).getD l.length d = v := by
  simp [List.getD_eq_getElem?_getD]

theorem getD_take {l : List α} {i j : Nat} (h : i < j) (d : α) :
    (l.take j).getD i d = l.getD i d := by
  simp only [List.getD_eq_getElem?_getD, List.getElem?_take_of_lt h]

theorem mem_guardInsert (a c : Nat) (l : List Nat) :
    c ∈ (if a ∈ l then l else a :: l) ↔ c = a ∨ c ∈ l := by
  by_cases h : a ∈ l
  · simp only [if_pos h, List.mem_cons]
    constructor
    · exact Or.inr
    · rintro (rfl | hc) <;> [exact h; exact hc]
  · simp [if_neg h]

theorem nodup_guardInsert (a : Nat) {l : List Nat} (h : l.Nodup) :
    (if a ∈ l then l else a :: l).Nodup := by
  by_cases ha : a ∈ l
  · simpa [ha]
  · simpa [ha] using h

end ListHelpers

section PopCharacterization

/-- The cells component of the drain fold of `Backtrack::pop`, pointwise:
every drained index reads `Empty` afterwards, everything else is
untouched.  (Out of range both sides read the `Empty` default.) -/
theorem revFold_fst_getD (l : List Nat) (p : List Cell × List Nat) (c : Nat) :
    (l.foldl (fun (p : List Cell × List Nat) c =>
        (p.1.set c Cell.Empty, if c ∈ p.2 then p.2 else c :: p.2)) p).1.getD c Cell.Empty =
      if c ∈ l then Cell.Empty else p.1.getD c Cell.Empty := by
  induction l generalizing p with
  | nil => simp
  | cons a l ih =>
    rw [List.foldl_cons, ih]
    by_cases hc : c ∈ l
    · simp [hc]
    · rw [if_neg hc, getD_set_default]
      rcases eq_or_ne c a with rfl | hne
      · simp
      · rw [if_neg (Ne.symm hne)]
        simp [hne, hc]

theorem revFold_fst_length (l : List Nat) (p : List Cell × List Nat) :
    (l.foldl (fun (p : List Cell × List Nat) c =>
        (p.1.set c Cell.Empty, if c ∈ p.2 then p.2 else c :: p.2)) p).1.length =
      p.1.length := by
  induction l generalizing p with
  | nil => rfl
  | cons a l ih => simp [ih]

theorem revFold_snd_mem (l : List Nat) (p : List Cell × List Nat) (c : Nat) :
    (c ∈ (l.foldl (fun (p : List Cell × List Nat) c =>
        (p.1.set c Cell.Empty, if c ∈ p.2 then p.2 else c :: p.2)) p).2) ↔
      c ∈ l ∨ c ∈ p.2 := by
  induction l generalizing p with
  | nil => simp
  | cons a l ih =>
    simp only [List.foldl_cons, ih, mem_guardInsert, List.mem_cons]
    tauto

theorem revFold_snd_nodup (l : List Nat) (p : List Cell × List Nat) (h : p.2.Nodup) :
    (l.foldl (fun (p : List Cell × List Nat) c =>
        (p.1.set c Cell.Empty, if c ∈ p.2 then p.2 else c :: p.2)) p).2.Nodup := by
  induction l generalizing p with
  | nil => exact h
  | cons a l ih => exact ih _ (nodup_guardInsert a h)

theorem pop_cords (b : Backtrack) (i : Nat) :
    (b.pop i).cords_stack = b.cords_stack.take i := rfl

theorem pop_backtrack_stack (b : Backtrack) (i : Nat) :
    (b.pop i).backtrack_stack = b.backtrack_stack.dropLast := rfl

theorem pop_tent_count (b : Backtrack) (i : Nat) :
    (b.pop i).tent_count = b.tent_count - 1 := rfl

theorem pop_tree_count (b : Backtrack) (i : Nat) :
    (b.pop i).tree_count = b.tree_count := rfl

theorem pop_dim (b : Backtrack) (i : Nat) :
    (b.pop i).state.dim = b.state.dim := rfl

theorem pop_col_tents (b : Backtrack) (i : Nat) :
    (b.pop i).state.col_tents =
      b.state.col_tents.set ((b.cords_stack.take i).getLastD 0 % b.state.dim)
        ((b.state.col_tents.getD ((b.cords_stack.take i).getLastD 0 % b.state.dim) 0 + 1) % 256) :=
  rfl

theorem pop_row_tents (b : Backtrack) (i : Nat) :
    (b.pop i).state.row_tents =
      b.state.row_tents.set ((b.cords_stack.take i).getLastD 0 / b.state.dim)
        ((b.state.row_tents.getD ((b.cords_stack.take i).getLastD 0 / b.state.dim) 0 + 1) % 256) :=
  rfl

theorem pop_cells_getD (b : Backtrack) (i c : Nat) :
    (b.pop i).state.cells.getD c Cell.Empty =
      if c = (b.cords_stack.take i).getLastD 0 ∧ c < b.state.cells.length then Cell.Grass
      else if c ∈ b.cords_stack.drop i then Cell.Empty
      else b.state.cells.getD c Cell.Empty := by
  show ((List.foldl _ (b.state.cells, b.todo) _).1.set _ Cell.Grass).getD c Cell.Empty = _
  rw [getD_set, revFold_fst_length]
  by_cases hl : (b.cords_stack.take i).getLastD 0 = c
  · by_cases hlen : (b.cords_stack.take i).getLastD 0 < b.state.cells.length
    · rw [if_pos ⟨hl, hlen⟩, if_pos ⟨hl.symm, hl ▸ hlen⟩]
    · rw [if_neg (fun hh => hlen hh.2), if_neg (fun hh => hlen (hl ▸ hh.2)),
        revFold_fst_getD]
  · rw [if_neg (fun hh => hl hh.1), if_neg (fun hh => hl hh.1.symm), revFold_fst_getD]

theorem pop_todo_mem (b : Backtrack) (i c : Nat) :
    c ∈ (b.pop i).todo ↔ c ∈ b.cords_stack.drop i ∨ c ∈ b.todo := by
  show c ∈ (List.foldl _ (b.state.cells, b.todo) _).2 ↔ _
  exact revFold_snd_mem _ _ c

theorem runAux_pop_step (ch : Nat → Nat) (fuel t : Nat) (b : Backtrack) (i : Nat)
    (h1 : b.todo = []) (h2 : b.tent_count ≠ b.tree_count)
    (h3 : b.backtrack_stack.getLast? = some i) :
    Backtrack.runAux ch (fuel + 1) t b = Backtrack.runAux ch fuel (t + 1) (b.pop i) := by
  simp [Backtrack.runAux, h1, h2, h3]

theorem runAux_place_step (ch : Nat → Nat) (fuel t : Nat) (b : Backtrack)
    (h1 : b.todo ≠ []) :
    Backtrack.runAux ch (fuel + 1) t b =
      Backtrack.runAux ch fuel (t + 1) (b.place (pickIdx ch t b.todo)) := by
  rcases b with ⟨bs, btc, bnc, todo, cs, bks⟩
  cases todo with
  | nil => exact absurd rfl h1
  | cons a l => rfl

theorem runAux_solved_step (ch : Nat → Nat) (fuel t : Nat) (b : Backtrack)
    (h1 : b.todo = []) (h2 : b.tent_count = b.tree_count) :
    Backtrack.runAux ch (fuel + 1) t b = RunResult.solved b := by
  simp [Backtrack.runAux, h1, h2]

end PopCharacterization

section ClaimC7

/-- C7: whenever the frontier is empty, `tent_count` differs from
`tree_count`, and the backtrack stack has no choice point left to pop,
`Backtrack::run` stops with the fatal `panic!("No solution")` (the
`noSolution` outcome) instead of looping or returning a board. -/
theorem C7_exhausted_is_fatal (ch : Nat → Nat) (fuel t : Nat) (b : Backtrack)
    (h1 : b.todo = []) (h2 : b.tent_count ≠ b.tree_count)
    (h3 : b.backtrack_stack = []) :
    Backtrack.runAux ch (fuel + 1) t b = RunResult.noSolution := by
  simp [Backtrack.runAux, h1, h2, h3]

/-- A concrete search state exercising the C7 theorem: empty frontier,
one tree but no tent, nothing left to pop. -/
def bC7 : Backtrack :=
  { state := { dim := 1, cells := [Cell.Tree], col_tents := [1], row_tents := [1] }
    tree_count := 1
    tent_count := 0
    todo := []
    cords_stack := []
    backtrack_stack := [] }

theorem C7_exhausted_is_fatal_witness :
    (bC7.todo = [] ∧ bC7.tent_count ≠ bC7.tree_count ∧ bC7.backtrack_stack = []) ∧
      Backtrack.runAux ch0 1 0 bC7 = RunResult.noSolution :=
  ⟨by decide, C7_exhausted_is_fatal ch0 0 0 bC7 (by decide) (by decide) (by decide)⟩

end ClaimC7

section ClaimC6

/-- C6: with the frontier empty, the counts unequal, and a choice point
available, one round of `Backtrack::run` pops the most recent checkpoint
offset `i` and produces exactly the state described by the claim: every
trail cell at or after the checkpoint reverts to `Empty` and rejoins the
frontier, except the tentative tent cell of the choice point (the last
kept trail entry), which becomes `Grass`; that cell's column and row
remaining counts each grow by one, `tent_count` shrinks by one, and
every other cell and counter is unchanged. -/
theorem C6_backtrack_step (ch : Nat → Nat) (fuel t : Nat) (b : Backtrack) (i : Nat)
    (htodo : b.todo = [])
    (hcnt : b.tent_count ≠ b.tree_count)
    (hlast : b.backtrack_stack.getLast? = some i)
    (htc : 1 ≤ b.tent_count)
    (hx : (b.cords_stack.take i).getLastD 0 % b.state.dim < b.state.col_tents.length)
    (hy : (b.cords_stack.take i).getLastD 0 / b.state.dim < b.state.row_tents.length)
    (hcb : b.state.col_tents.getD ((b.cords_stack.take i).getLastD 0 % b.state.dim) 0 < 255)
    (hrb : b.state.row_tents.getD ((b.cords_stack.take i).getLastD 0 / b.state.dim) 0 < 255) :
    Backtrack.runAux ch (fuel + 1) t b = Backtrack.runAux ch fuel (t + 1) (b.pop i) ∧
    (∀ c, (b.pop i).state.cells.getD c Cell.Empty =
        if c = (b.cords_stack.take i).getLastD 0 ∧ c < b.state.cells.length then Cell.Grass
        else if c ∈ b.cords_stack.drop i then Cell.Empty
        else b.state.cells.getD c Cell.Empty) ∧
    (∀ c, c ∈ (b.pop i).todo ↔ c ∈ b.cords_stack.drop i ∨ c ∈ b.todo) ∧
    (b.pop i).cords_stack = b.cords_stack.take i ∧
    (b.pop i).backtrack_stack = b.backtrack_stack.dropLast ∧
    (b.pop i).state.col_tents.getD ((b.cords_stack.take i).getLastD 0 % b.state.dim) 0 =
      b.state.col_tents.getD ((b.cords_stack.take i).getLastD 0 % b.state.dim) 0 + 1 ∧
    (∀ x, x ≠ (b.cords_stack.take i).getLastD 0 % b.state.dim →
      (b.pop i).state.col_tents.getD x 0 = b.state.col_tents.getD x 0) ∧
    (b.pop i).state.row_tents.getD ((b.cords_stack.take i).getLastD 0 / b.state.dim) 0 =
      b.state.row_tents.getD ((b.cords_stack.take i).getLastD 0 / b.state.dim) 0 + 1 ∧
    (∀ y, y ≠ (b.cords_stack.take i).getLastD 0 / b.state.dim →
      (b.pop i).state.row_tents.getD y 0 = b.state.row_tents.getD y 0) ∧
    (b.pop i).tent_count + 1 = b.tent_count := by
  refine ⟨runAux_pop_step ch fuel t b i htodo hcnt hlast,
    fun c => pop_cells_getD b i c, fun c => pop_todo_mem b i c,
    pop_cords b i, pop_backtrack_stack b i, ?_, ?_, ?_, ?_, ?_⟩
  · rw [pop_col_tents, getD_set_self _ _ _ _ hx, Nat.mod_eq_of_lt (by omega)]
  · intro x hxne
    rw [pop_col_tents, getD_set_ne _ (Ne.symm hxne)]
  · rw [pop_row_tents, getD_set_self _ _ _ _ hy, Nat.mod_eq_of_lt (by omega)]
  · intro y hyne
    rw [pop_row_tents, getD_set_ne _ (Ne.symm hyne)]
  · rw [pop_tent_count]
    omega

/-- A concrete search state exercising the C6 theorem: one tentative tent
placed on a one-cell board, no tree, so the run must backtrack. -/
def bC6 : Backtrack :=
  { state := { dim := 1, cells := [Cell.Tent], col_tents := [5], row_tents := [5] }
    tree_count := 0
    tent_count := 1
    todo := []
    cords_stack := [0]
    backtrack_stack := [1] }

theorem C6_backtrack_step_witness :
    (bC6.todo = [] ∧ bC6.tent_count ≠ bC6.tree_count ∧
      bC6.backtrack_stack.getLast? = some 1 ∧ 1 ≤ bC6.tent_count ∧
      (bC6.cords_stack.take 1).getLastD 0 % bC6.state.dim < bC6.state.col_tents.length ∧
      (bC6.cords_stack.take 1).getLastD 0 / bC6.state.dim < bC6.state.row_tents.length ∧
      bC6.state.col_tents.getD ((bC6.cords_stack.take 1).getLastD 0 % bC6.state.dim) 0 < 255 ∧
      bC6.state.row_tents.getD ((bC6.cords_stack.take 1).getLastD 0 / bC6.state.dim) 0 < 255) ∧
    (Backtrack.runAux ch0 (3 + 1) 0 bC6 = Backtrack.runAux ch0 3 (0 + 1) (bC6.pop 1) ∧
    (∀ c, (bC6.pop 1).state.cells.getD c Cell.Empty =
        if c = (bC6.cords_stack.take 1).getLastD 0 ∧ c < bC6.state.cells.length then Cell.Grass
        else if c ∈ bC6.cords_stack.drop 1 then Cell.Empty
        else bC6.state.cells.getD c Cell.Empty) ∧
    (∀ c, c ∈ (bC6.pop 1).todo ↔ c ∈ bC6.cords_stack.drop 1 ∨ c ∈ bC6.todo) ∧
    (bC6.pop 1).cords_stack = bC6.cords_stack.take 1 ∧
    (bC6.pop 1).backtrack_stack = bC6.backtrack_stack.dropLast ∧
    (bC6.pop 1).state.col_tents.getD ((bC6.cords_stack.take 1).getLastD 0 % bC6.state.dim) 0 =
      bC6.state.col_tents.getD ((bC6.cords_stack.take 1).getLastD 0 % bC6.state.dim) 0 + 1 ∧
    (∀ x, x ≠ (bC6.cords_stack.take 1).getLastD 0 % bC6.state.dim →
      (bC6.pop 1).state.col_tents.getD x 0 = bC6.state.col_tents.getD x 0) ∧
    (bC6.pop 1).state.row_tents.getD ((bC6.cords_stack.take 1).getLastD 0 / bC6.state.dim) 0 =
      bC6.state.row_tents.getD ((bC6.cords_stack.take 1).getLastD 0 / bC6.state.dim) 0 + 1 ∧
    (∀ y, y ≠ (bC6.cords_stack.take 1).getLastD 0 / bC6.state.dim →
      (bC6.pop 1).state.row_tents.getD y 0 = bC6.state.row_tents.getD y 0) ∧
    (bC6.pop 1).tent_count + 1 = bC6.tent_count) :=
  ⟨by decide,
    C6_backtrack_step ch0 3 0 bC6 1 (by decide) (by decide) (by decide) (by decide)
      (by decide) (by decide) (by decide) (by decide)⟩

end ClaimC6

section ClaimC1Counterexample

/-- A one-cell puzzle whose counter totals disagree with its tree count:
row total 9, column total 9, tree count 0. -/
def cexC1 : State :=
  { dim := 1, cells := [Cell.Empty], col_tents := [9], row_tents := [9] }

/-- C1 counterexample: this input has inconsistent sums (row total and
column total are 9, the tree count is 0), yet `solve`/`run` returns
normally with a board instead of reporting the fatal unsolvable
condition, because the only termination test is
`tent_count == tree_count`. -/
theorem C1_counterexample :
    rowTotal cexC1 = 9 ∧ colTotal cexC1 = 9 ∧ cellCount cexC1.cells Cell.Tree = 0 ∧
      State.solveFuel ch0 2 cexC1 =
        RunResult.solved
          { state := { dim := 1, cells := [Cell.Grass], col_tents := [9], row_tents := [9] }
            tree_count := 0
            tent_count := 0
            todo := []
            cords_stack := []
            backtrack_stack := [] } := by
  decide

end ClaimC1Counterexample

section ClaimC2

/-- A puzzle on which the frontier iteration order decides the outcome:
one tree with two candidate tent cells, either of which satisfies the
count-based termination test. -/
def cexC2 : State :=
  { dim := 2
    cells := [Cell.Tree, Cell.Empty, Cell.Empty, Cell.Grass]
    col_tents := [1, 1]
    row_tents := [1, 1] }

/-- C2: the engine is not deterministic across frontier iteration orders.
Running the same input with the chooser that always takes the first
offered frontier cell and with the one that always takes the second
yields two different normally-returned final boards, so the sequence of
decisions (and even the solution) depends on the `HashSet` iteration
order, which Rust randomizes per process. -/
theorem C2_order_dependence :
    State.solveFuel ch0 3 cexC2 ≠ State.solveFuel ch1 3 cexC2 ∧
      (State.solveFuel ch0 3 cexC2).isSolved ∧
      (State.solveFuel ch1 3 cexC2).isSolved := by
  decide

end ClaimC2

section ClaimC3Counterexample

/-- A board arriving with two pre-placed adjacent tents (`X` cells are
legal in the input format) and two trees: the frontier is empty and the
counts agree, so the solver returns it unchanged. -/
def cexC3 : State :=
  { dim := 2
    cells := [Cell.Tent, Cell.Tent, Cell.Tree, Cell.Tree]
    col_tents := [1, 1]
    row_tents := [2, 0] }

/-- C3 counterexample: `run` returns normally on this input, yet the
final board holds `Tent` cells at `(0,0)` and `(1,0)`, which are mutually
adjacent under the king-move neighbourhood the marking loop uses.  The
no-adjacent-tents rule is enforced only for tents the engine itself
places, never re-checked for pre-placed ones. -/
theorem C3_counterexample :
    (State.solveFuel ch0 1 cexC3).isSolved ∧
      (State.solveFuel ch0 1 cexC3).cellsOf.getD 0 Cell.Empty = Cell.Tent ∧
      (State.solveFuel ch0 1 cexC3).cellsOf.getD 1 Cell.Empty = Cell.Tent ∧
      (1, 0) ∈ neighborList cexC3.dim 0 0 := by
  decide

end ClaimC3Counterexample

section IndexArith

theorem idx_mod {n : Nat} (x y : Nat) (hx : x < n) : (x + y * n) % n = x := by
  rw [Nat.add_mul_mod_self_right, Nat.mod_eq_of_lt hx]

theorem idx_div {n : Nat} (x y : Nat) (hx : x < n) : (x + y * n) / n = y := by
  rw [Nat.add_mul_div_right _ _ (lt_of_le_of_lt (Nat.zero_le x) hx),
    Nat.div_eq_of_lt hx, Nat.zero_add]

theorem idx_lt {n : Nat} (x y : Nat) (hx : x < n) (hy : y < n) : x + y * n < n * n :=
  calc x + y * n < n + y * n := by omega
    _ = (y + 1) * n := by ring
    _ ≤ n * n := Nat.mul_le_mul_right n (by omega)

theorem idx_recompose (n i : Nat) : i % n + i / n * n = i := Nat.mod_add_div' i n

theorem div_lt_of_lt_sq {n i : Nat} (h : i < n * n) : i / n < n := by
  rcases Nat.eq_zero_or_pos n with rfl | hn
  · omega
  · exact (Nat.div_lt_iff_lt_mul hn).2 h

theorem lt_sq_of_div_lt {n i : Nat} (hn : 0 < n) (h : i / n < n) : i < n * n := by
  exact (Nat.div_lt_iff_lt_mul hn).1 h

end IndexArith

section FillGreen

/-- Generic transport of a projection through a fold. -/
theorem foldl_preserve {α β γ : Type _} (f : β → α → β) (g : β → γ) (l : List α) (b : β)
    (h : ∀ t a, g (f t a) = g t) : g (l.foldl f b) = g b := by
  induction l generalizing b with
  | nil => rfl
  | cons a l ih => rw [List.foldl_cons, ih, h]

theorem grassStep_dim (s : State) (x y : Nat) : (grassStep s x y).dim = s.dim := by
  unfold grassStep State.set_cell; split <;> rfl

theorem grassStep_col_tents (s : State) (x y : Nat) :
    (grassStep s x y).col_tents = s.col_tents := by
  unfold grassStep State.set_cell; split <;> rfl

theorem grassStep_row_tents (s : State) (x y : Nat) :
    (grassStep s x y).row_tents = s.row_tents := by
  unfold grassStep State.set_cell; split <;> rfl

theorem grassStep_length (s : State) (x y : Nat) :
    (grassStep s x y).cells.length = s.cells.length := by
  unfold grassStep State.set_cell; split <;> simp

theorem grassStep_getD_ne (s : State) {x y i : Nat} (h : i ≠ x + y * s.dim) :
    (grassStep s x y).cells.getD i Cell.Empty = s.cells.getD i Cell.Empty := by
  unfold grassStep State.set_cell
  split
  · rfl
  · exact getD_set_ne _ (Ne.symm h) _ _

theorem grassStep_getD_self (s : State) {x y : Nat} (h : x + y * s.dim < s.cells.length) :
    (grassStep s x y).cells.getD (x + y * s.dim) Cell.Empty =
      if s.cells.getD (x + y * s.dim) Cell.Empty = Cell.Empty ∧ treeNear s x y = false
      then Cell.Grass else s.cells.getD (x + y * s.dim) Cell.Empty := by
  unfold grassStep State.set_cell
  have hc : s.get_cell x y = s.cells.getD (x + y * s.dim) Cell.Empty := rfl
  split
  · rename_i hcond
    rw [if_neg]
    intro ⟨h1, h2⟩
    rcases hcond with hne | htn
    · exact hne (hc.trans h1)
    · rw [htn] at h2; cases h2
  · rename_i hcond
    push_neg at hcond
    rw [if_pos ⟨hc ▸ hcond.1, by simpa using hcond.2⟩]
    exact getD_set_self _ _ _ _ h

/-- Equality of the `Tree` predicate on two boards transports the
orthogonal-tree test. -/
theorem treeNear_congr {s t : State} (hdim : t.dim = s.dim)
    (h : ∀ i, (t.cells.getD i Cell.Empty = Cell.Tree) ↔ (s.cells.getD i Cell.Empty = Cell.Tree))
    (x y : Nat) : treeNear t x y = treeNear s x y := by
  have hb : ∀ j, decide (t.cells.getD j Cell.Empty = Cell.Tree) =
      decide (s.cells.getD j Cell.Empty = Cell.Tree) := fun j => decide_eq_decide.mpr (h j)
  unfold treeNear State.get_cell
  simp only [hdim, hb]

/-- The value the first `fill_green` loop leaves at flat index `i`. -/
def p1val (s : State) (i : Nat) : Cell :=
  if s.cells.getD i Cell.Empty = Cell.Empty ∧ treeNear s (i % s.dim) (i / s.dim) = false
  then Cell.Grass else s.cells.getD i Cell.Empty

theorem p1val_tree (s : State) (i : Nat) :
    (p1val s i = Cell.Tree) ↔ (s.cells.getD i Cell.Empty = Cell.Tree) := by
  unfold p1val
  split
  · rename_i hcond
    constructor
    · intro hg; cases hg
    · intro ht; rw [hcond.1] at ht; cases ht
  · exact Iff.rfl

/-- Row-by-row prefix of the first `fill_green` loop, flattened. -/
def pass1Upto (s : State) (k : Nat) : State :=
  (List.range k).foldl (fun t i => grassStep t (i % s.dim) (i / s.dim)) s

theorem pass1Upto_succ (s : State) (k : Nat) :
    pass1Upto s (k + 1) = grassStep (pass1Upto s k) (k % s.dim) (k / s.dim) := by
  rw [pass1Upto, List.range_succ, List.foldl_append, List.foldl_cons, List.foldl_nil]
  rfl

theorem pass1Upto_add (s : State) (a b : Nat) :
    pass1Upto s (a + b) = (List.range b).foldl
      (fun t j => grassStep t ((a + j) % s.dim) ((a + j) / s.dim)) (pass1Upto s a) := by
  unfold pass1Upto
  rw [List.range_add, List.foldl_append, List.foldl_map]

/-- The nested loops of the first pass visit the flat indices in order. -/
theorem fill_pass1_flat (s : State) : s.fill_pass1 = pass1Upto s (s.dim * s.dim) := by
  show (List.range s.dim).foldl _ s = _
  have h : ∀ k, (List.range k).foldl
      (fun s1 y => (List.range s.dim).foldl (fun s2 x => grassStep s2 x y) s1) s =
      pass1Upto s (s.dim * k) := by
    intro k
    induction k with
    | zero => simp [pass1Upto]
    | succ k ih =>
      rw [List.range_succ, List.foldl_append, ih, List.foldl_cons, List.foldl_nil,
        Nat.mul_succ, pass1Upto_add]
      apply List.foldl_ext
      intro t j hj
      rw [List.mem_range] at hj
      have hn : 0 < s.dim := lt_of_le_of_lt (Nat.zero_le _) hj
      rw [Nat.mul_add_mod, Nat.mod_eq_of_lt hj, Nat.mul_add_div hn, Nat.div_eq_of_lt hj,
        Nat.add_zero]
  have := h s.dim
  exact this

theorem pass1Upto_spec (s : State) (hlen : s.cells.length = s.dim * s.dim) (k : Nat)
    (hk : k ≤ s.dim * s.dim) :
    (pass1Upto s k).dim = s.dim ∧
    (pass1Upto s k).col_tents = s.col_tents ∧
    (pass1Upto s k).row_tents = s.row_tents ∧
    (pass1Upto s k).cells.length = s.cells.length ∧
    (∀ i, k ≤ i → (pass1Upto s k).cells.getD i Cell.Empty = s.cells.getD i Cell.Empty) ∧
    (∀ i, i < k → (pass1Upto s k).cells.getD i Cell.Empty = p1val s i) := by
  induction k with
  | zero =>
    refine ⟨rfl, rfl, rfl, rfl, fun i _ => rfl, fun i hi => absurd hi (Nat.not_lt_zero i)⟩
  | succ k ih =>
    obtain ⟨hdim, hcol, hrow, hln, hup, hdone⟩ := ih (le_of_lt (Nat.lt_of_succ_le hk))
    have hkk : k < s.dim * s.dim := Nat.lt_of_succ_le hk
    have hidx : k % s.dim + k / s.dim * s.dim = k := idx_recompose s.dim k
    have htree : treeNear (pass1Upto s k) (k % s.dim) (k / s.dim) = treeNear s (k % s.dim) (k / s.dim) := by
      apply treeNear_congr hdim
      intro j
      by_cases hj : j < k
      · rw [hdone j hj]; exact p1val_tree s j
      · rw [hup j (le_of_not_lt hj)]
    refine ⟨?_, ?_, ?_, ?_, ?_, ?_⟩
    · rw [pass1Upto_succ, grassStep_dim, hdim]
    · rw [pass1Upto_succ, grassStep_col_tents, hcol]
    · rw [pass1Upto_succ, grassStep_row_tents, hrow]
    · rw [pass1Upto_succ, grassStep_length, hln]
    · intro i hi
      rw [pass1Upto_succ, grassStep_getD_ne, hup i (by omega)]
      rw [hdim, hidx]; omega
    · intro i hi
      rcases Nat.lt_or_ge i k with hik | hik
      · rw [pass1Upto_succ, grassStep_getD_ne, hdone i hik]
        rw [hdim, hidx]; omega
      · have hik' : i = k := by omega
        rw [hik', pass1Upto_succ]
        have hb : k % s.dim + k / s.dim * (pass1Upto s k).dim < (pass1Upto s k).cells.length := by
          rw [hdim, hln, hlen, idx_recompose]; exact hkk
        have hself := grassStep_getD_self (pass1Upto s k) (x := k % s.dim) (y := k / s.dim) hb
        rw [hdim, hidx] at hself
        rw [hself, hup k le_rfl, htree]
        rfl

/-- Pointwise description of the first pass. -/
theorem fill_pass1_getD (s : State) (hlen : s.cells.length = s.dim * s.dim) (i : Nat) :
    s.fill_pass1.cells.getD i Cell.Empty =
      if i < s.dim * s.dim then p1val s i else s.cells.getD i Cell.Empty := by
  obtain ⟨_, _, _, _, hup, hdone⟩ := pass1Upto_spec s hlen (s.dim * s.dim) le_rfl
  rw [fill_pass1_flat]
  by_cases hi : i < s.dim * s.dim
  · rw [if_pos hi, hdone i hi]
  · rw [if_neg hi, hup i (le_of_not_lt hi)]

theorem fill_pass1_dim (s : State) : s.fill_pass1.dim = s.dim := by
  unfold State.fill_pass1
  refine foldl_preserve _ State.dim _ s fun t y => ?_
  exact foldl_preserve _ State.dim _ t fun t' x => grassStep_dim t' x y

theorem fill_pass1_col_tents (s : State) : s.fill_pass1.col_tents = s.col_tents := by
  unfold State.fill_pass1
  refine foldl_preserve _ State.col_tents _ s fun t y => ?_
  exact foldl_preserve _ State.col_tents _ t fun t' x => grassStep_col_tents t' x y

theorem fill_pass1_row_tents (s : State) : s.fill_pass1.row_tents = s.row_tents := by
  unfold State.fill_pass1
  refine foldl_preserve _ State.row_tents _ s fun t y => ?_
  exact foldl_preserve _ State.row_tents _ t fun t' x => grassStep_row_tents t' x y

theorem fill_pass1_length (s : State) : s.fill_pass1.cells.length = s.cells.length := by
  unfold State.fill_pass1
  refine foldl_preserve _ (fun t => t.cells.length) _ s fun t y => ?_
  exact foldl_preserve _ (fun t => t.cells.length) _ t fun t' x => grassStep_length t' x y

theorem condSet_dim (t : State) (x y : Nat) :
    (if t.get_cell x y = Cell.Empty then t.set_cell x y Cell.Grass else t).dim = t.dim := by
  unfold State.set_cell; split <;> rfl

theorem condSet_col_tents (t : State) (x y : Nat) :
    (if t.get_cell x y = Cell.Empty then t.set_cell x y Cell.Grass else t).col_tents =
      t.col_tents := by
  unfold State.set_cell; split <;> rfl

theorem condSet_row_tents (t : State) (x y : Nat) :
    (if t.get_cell x y = Cell.Empty then t.set_cell x y Cell.Grass else t).row_tents =
      t.row_tents := by
  unfold State.set_cell; split <;> rfl

theorem condSet_length (t : State) (x y : Nat) :
    (if t.get_cell x y = Cell.Empty then t.set_cell x y Cell.Grass else t).cells.length =
      t.cells.length := by
  unfold State.set_cell; split <;> simp

theorem condSet_getD_ne (t : State) {x y i : Nat} (h : i ≠ x + y * t.dim) :
    (if t.get_cell x y = Cell.Empty then t.set_cell x y Cell.Grass else t).cells.getD i
        Cell.Empty = t.cells.getD i Cell.Empty := by
  unfold State.set_cell
  split
  · exact getD_set_ne _ (Ne.symm h) _ _
  · rfl

theorem condSet_getD_self (t : State) {x y : Nat} (h : x + y * t.dim < t.cells.length) :
    (if t.get_cell x y = Cell.Empty then t.set_cell x y Cell.Grass else t).cells.getD
        (x + y * t.dim) Cell.Empty =
      if t.cells.getD (x + y * t.dim) Cell.Empty = Cell.Empty then Cell.Grass
      else t.cells.getD (x + y * t.dim) Cell.Empty := by
  have hc : t.get_cell x y = t.cells.getD (x + y * t.dim) Cell.Empty := rfl
  unfold State.set_cell
  split
  · rename_i hcond
    rw [if_pos (hc ▸ hcond), getD_set_self _ _ _ _ h]
  · rename_i hcond
    rw [if_neg (fun hh => hcond (hc.trans hh))]

/-- Column-sweep prefix: the first `k` cells of column `x`. -/
def colSweepUpto (s : State) (x k : Nat) : State :=
  (List.range k).foldl
    (fun s2 y => if s2.get_cell x y = Cell.Empty then s2.set_cell x y Cell.Grass else s2) s

theorem colSweep_eq_upto (s : State) (x : Nat) : colSweep s x = colSweepUpto s x s.dim := rfl

theorem colSweepUpto_succ (s : State) (x k : Nat) :
    colSweepUpto s x (k + 1) =
      if (colSweepUpto s x k).get_cell x k = Cell.Empty
      then (colSweepUpto s x k).set_cell x k Cell.Grass else colSweepUpto s x k := by
  rw [colSweepUpto, List.range_succ, List.foldl_append, List.foldl_cons, List.foldl_nil]
  rfl

theorem colSweepUpto_spec (s : State) (x : Nat) (hx : x < s.dim)
    (hlen : s.cells.length = s.dim * s.dim) (k : Nat) (hk : k ≤ s.dim) :
    (colSweepUpto s x k).dim = s.dim ∧
    (colSweepUpto s x k).col_tents = s.col_tents ∧
    (colSweepUpto s x k).row_tents = s.row_tents ∧
    (colSweepUpto s x k).cells.length = s.cells.length ∧
    (∀ i, (colSweepUpto s x k).cells.getD i Cell.Empty =
      if i % s.dim = x ∧ i / s.dim < k ∧ s.cells.getD i Cell.Empty = Cell.Empty
      then Cell.Grass else s.cells.getD i Cell.Empty) := by
  induction k with
  | zero =>
    refine ⟨rfl, rfl, rfl, rfl, fun i => ?_⟩
    rw [if_neg (fun h => Nat.not_lt_zero _ h.2.1)]
    rfl
  | succ k ih =>
    obtain ⟨hdim, hcol, hrow, hln, hptw⟩ := ih (by omega)
    have hkd : k < s.dim := by omega
    have hj : (x + k * s.dim) % s.dim = x := idx_mod x k hx
    have hj' : (x + k * s.dim) / s.dim = k := idx_div x k hx
    refine ⟨?_, ?_, ?_, ?_, ?_⟩
    · rw [colSweepUpto_succ, condSet_dim, hdim]
    · rw [colSweepUpto_succ, condSet_col_tents, hcol]
    · rw [colSweepUpto_succ, condSet_row_tents, hrow]
    · rw [colSweepUpto_succ, condSet_length, hln]
    · intro i
      rw [colSweepUpto_succ]
      by_cases hi : i = x + k * s.dim
      · have hb : x + k * (colSweepUpto s x k).dim < (colSweepUpto s x k).cells.length := by
          rw [hdim, hln, hlen]; exact idx_lt x k hx hkd
        have hself := condSet_getD_self (colSweepUpto s x k) hb
        rw [hdim] at hself
        have hTj : (colSweepUpto s x k).cells.getD (x + k * s.dim) Cell.Empty =
            s.cells.getD (x + k * s.dim) Cell.Empty := by
          rw [hptw, if_neg]
          rintro ⟨-, h, -⟩
          rw [hj'] at h
          omega
        rw [hi, hself, hTj]
        by_cases he : s.cells.getD (x + k * s.dim) Cell.Empty = Cell.Empty
        · rw [if_pos he, if_pos ⟨hj, by rw [hj']; omega, he⟩]
        · rw [if_neg he, if_neg (fun h => he h.2.2)]
      · have hne : i ≠ x + k * (colSweepUpto s x k).dim := by rw [hdim]; exact hi
        rw [condSet_getD_ne _ hne, hptw]
        by_cases hc : i % s.dim = x ∧ i / s.dim < k ∧ s.cells.getD i Cell.Empty = Cell.Empty
        · rw [if_pos hc, if_pos ⟨hc.1, by omega, hc.2.2⟩]
        · rw [if_neg hc, if_neg ?_]
          rintro ⟨h1, h2, h3⟩
          rcases Nat.lt_or_ge (i / s.dim) k with hlt | hge
          · exact hc ⟨h1, hlt, h3⟩
          · have hdk : i / s.dim = k := by omega
            exact hi (by rw [← h1, ← hdk, idx_recompose])

/-- Row-sweep prefix: the first `k` cells of row `y`. -/
def rowSweepUpto (s : State) (y k : Nat) : State :=
  (List.range k).foldl
    (fun s2 x => if s2.get_cell x y = Cell.Empty then s2.set_cell x y Cell.Grass else s2) s

theorem rowSweep_eq_upto (s : State) (y : Nat) : rowSweep s y = rowSweepUpto s y s.dim := rfl

theorem rowSweepUpto_succ (s : State) (y k : Nat) :
    rowSweepUpto s y (k + 1) =
      if (rowSweepUpto s y k).get_cell k y = Cell.Empty
      then (rowSweepUpto s y k).set_cell k y Cell.Grass else rowSweepUpto s y k := by
  rw [rowSweepUpto, List.range_succ, List.foldl_append, List.foldl_cons, List.foldl_nil]
  rfl

theorem rowSweepUpto_spec (s : State) (y : Nat) (hy : y < s.dim)
    (hlen : s.cells.length = s.dim * s.dim) (k : Nat) (hk : k ≤ s.dim) :
    (rowSweepUpto s y k).dim = s.dim ∧
    (rowSweepUpto s y k).col_tents = s.col_tents ∧
    (rowSweepUpto s y k).row_tents = s.row_tents ∧
    (rowSweepUpto s y k).cells.length = s.cells.length ∧
    (∀ i, (rowSweepUpto s y k).cells.getD i Cell.Empty =
      if i / s.dim = y ∧ i % s.dim < k ∧ s.cells.getD i Cell.Empty = Cell.Empty
      then Cell.Grass else s.cells.getD i Cell.Empty) := by
  induction k with
  | zero =>
    refine ⟨rfl, rfl, rfl, rfl, fun i => ?_⟩
    rw [if_neg (fun h => Nat.not_lt_zero _ h.2.1)]
    rfl
  | succ k ih =>
    obtain ⟨hdim, hcol, hrow, hln, hptw⟩ := ih (by omega)
    have hkd : k < s.dim := by omega
    have hj : (k + y * s.dim) % s.dim = k := idx_mod k y hkd
    have hj' : (k + y * s.dim) / s.dim = y := idx_div k y hkd
    refine ⟨?_, ?_, ?_, ?_, ?_⟩
    · rw [rowSweepUpto_succ, condSet_dim, hdim]
    · rw [rowSweepUpto_succ, condSet_col_tents, hcol]
    · rw [rowSweepUpto_succ, condSet_row_tents, hrow]
    · rw [rowSweepUpto_succ, condSet_length, hln]
    · intro i
      rw [rowSweepUpto_succ]
      by_cases hi : i = k + y * s.dim
      · have hb : k + y * (rowSweepUpto s y k).dim < (rowSweepUpto s y k).cells.length := by
          rw [hdim, hln, hlen]; exact idx_lt k y hkd hy
        have hself := condSet_getD_self (rowSweepUpto s y k) hb
        rw [hdim] at hself
        have hTj : (rowSweepUpto s y k).cells.getD (k + y * s.dim) Cell.Empty =
            s.cells.getD (k + y * s.dim) Cell.Empty := by
          rw [hptw, if_neg]
          rintro ⟨-, h, -⟩
          rw [hj] at h
          omega
        rw [hi, hself, hTj]
        by_cases he : s.cells.getD (k + y * s.dim) Cell.Empty = Cell.Empty
        · rw [if_pos he, if_pos ⟨hj', by rw [hj]; omega, he⟩]
        · rw [if_neg he, if_neg (fun h => he h.2.2)]
      · have hne : i ≠ k + y * (rowSweepUpto s y k).dim := by rw [hdim]; exact hi
        rw [condSet_getD_ne _ hne, hptw]
        by_cases hc : i / s.dim = y ∧ i % s.dim < k ∧ s.cells.getD i Cell.Empty = Cell.Empty
        · rw [if_pos hc, if_pos ⟨hc.1, by omega, hc.2.2⟩]
        · rw [if_neg hc, if_neg ?_]
          rintro ⟨h1, h2, h3⟩
          rcases Nat.lt_or_ge (i % s.dim) k with hlt | hge
          · exact hc ⟨h1, hlt, h3⟩
          · have hmk : i % s.dim = k := by omega
            exact hi (by rw [← hmk, ← h1, idx_recompose])

/-- Column-loop prefix of the second pass. -/
def pass2Upto (s : State) (k : Nat) : State :=
  (List.range k).foldl
    (fun s1 x => if s1.col_tents.getD x 0 = 0 then colSweep s1 x else s1) s

theorem fill_pass2_eq_upto (s : State) : s.fill_pass2 = pass2Upto s s.dim := rfl

theorem pass2Upto_succ (s : State) (k : Nat) :
    pass2Upto s (k + 1) =
      if (pass2Upto s k).col_tents.getD k 0 = 0
      then colSweep (pass2Upto s k) k else pass2Upto s k := by
  rw [pass2Upto, List.range_succ, List.foldl_append, List.foldl_cons, List.foldl_nil]
  rfl

theorem pass2Upto_spec (s : State) (hlen : s.cells.length = s.dim * s.dim) (k : Nat)
    (hk : k ≤ s.dim) :
    (pass2Upto s k).dim = s.dim ∧
    (pass2Upto s k).col_tents = s.col_tents ∧
    (pass2Upto s k).row_tents = s.row_tents ∧
    (pass2Upto s k).cells.length = s.cells.length ∧
    (∀ i, (pass2Upto s k).cells.getD i Cell.Empty =
      if i % s.dim < k ∧ s.col_tents.getD (i % s.dim) 0 = 0 ∧ i / s.dim < s.dim ∧
          s.cells.getD i Cell.Empty = Cell.Empty
      then Cell.Grass else s.cells.getD i Cell.Empty) := by
  induction k with
  | zero =>
    refine ⟨rfl, rfl, rfl, rfl, fun i => ?_⟩
    rw [if_neg (fun h => Nat.not_lt_zero _ h.1)]
    rfl
  | succ k ih =>
    obtain ⟨hdim, hcol, hrow, hln, hptw⟩ := ih (by omega)
    have hkd : k < s.dim := by omega
    refine ⟨?_, ?_, ?_, ?_, ?_⟩
    all_goals rw [pass2Upto_succ]
    · by_cases hz : (pass2Upto s k).col_tents.getD k 0 = 0
      · rw [if_pos hz, colSweep_eq_upto]
        have := (colSweepUpto_spec (pass2Upto s k) k (by omega) (by rw [hln, hlen, hdim])
          (pass2Upto s k).dim le_rfl).1
        rw [this, hdim]
      · rw [if_neg hz, hdim]
    · by_cases hz : (pass2Upto s k).col_tents.getD k 0 = 0
      · rw [if_pos hz, colSweep_eq_upto]
        have := (colSweepUpto_spec (pass2Upto s k) k (by omega) (by rw [hln, hlen, hdim])
          (pass2Upto s k).dim le_rfl).2.1
        rw [this, hcol]
      · rw [if_neg hz, hcol]
    · by_cases hz : (pass2Upto s k).col_tents.getD k 0 = 0
      · rw [if_pos hz, colSweep_eq_upto]
        have := (colSweepUpto_spec (pass2Upto s k) k (by omega) (by rw [hln, hlen, hdim])
          (pass2Upto s k).dim le_rfl).2.2.1
        rw [this, hrow]
      · rw [if_neg hz, hrow]
    · by_cases hz : (pass2Upto s k).col_tents.getD k 0 = 0
      · rw [if_pos hz, colSweep_eq_upto]
        have := (colSweepUpto_spec (pass2Upto s k) k (by omega) (by rw [hln, hlen, hdim])
          (pass2Upto s k).dim le_rfl).2.2.2.1
        rw [this, hln]
      · rw [if_neg hz, hln]
    · intro i
      by_cases hz : (pass2Upto s k).col_tents.getD k 0 = 0
      · rw [if_pos hz, colSweep_eq_upto, hdim]
        have hsw := (colSweepUpto_spec (pass2Upto s k) k (by omega) (by rw [hln, hlen, hdim])
          (pass2Upto s k).dim le_rfl).2.2.2.2 i
        rw [hdim] at hsw
        rw [hsw, hptw]
        have hzk : s.col_tents.getD k 0 = 0 := by rw [← hcol]; exact hz
        by_cases hik : i % s.dim = k
        · have hCk : ¬ (i % s.dim < k ∧ s.col_tents.getD (i % s.dim) 0 = 0 ∧
              i / s.dim < s.dim ∧ s.cells.getD i Cell.Empty = Cell.Empty) := by
            rintro ⟨h, -⟩; omega
          rw [if_neg hCk]
          by_cases hrest : i / s.dim < s.dim ∧ s.cells.getD i Cell.Empty = Cell.Empty
          · rw [if_pos ⟨hik, hrest.1, hrest.2⟩,
              if_pos ⟨by omega, by rw [hik]; exact hzk, hrest.1, hrest.2⟩]
          · rw [if_neg (fun h => hrest ⟨h.2.1, h.2.2⟩),
              if_neg (fun h => hrest ⟨h.2.2.1, h.2.2.2⟩)]
        · have hout : ¬ (i % s.dim = k ∧ i / s.dim < s.dim ∧
              (if i % s.dim < k ∧ s.col_tents.getD (i % s.dim) 0 = 0 ∧
                  i / s.dim < s.dim ∧ s.cells.getD i Cell.Empty = Cell.Empty
               then Cell.Grass else s.cells.getD i Cell.Empty) = Cell.Empty) :=
            fun h => hik h.1
          rw [if_neg hout]
          by_cases hc : i % s.dim < k ∧ s.col_tents.getD (i % s.dim) 0 = 0 ∧
              i / s.dim < s.dim ∧ s.cells.getD i Cell.Empty = Cell.Empty
          · rw [if_pos hc, if_pos ⟨by omega, hc.2.1, hc.2.2.1, hc.2.2.2⟩]
          · rw [if_neg hc, if_neg ?_]
            rintro ⟨h1, h2, h3, h4⟩
            exact hc ⟨by omega, h2, h3, h4⟩
      · rw [if_neg hz, hptw]
        have hzk : ¬ s.col_tents.getD k 0 = 0 := by rw [← hcol]; exact hz
        by_cases hc : i % s.dim < k ∧ s.col_tents.getD (i % s.dim) 0 = 0 ∧
            i / s.dim < s.dim ∧ s.cells.getD i Cell.Empty = Cell.Empty
        · rw [if_pos hc, if_pos ⟨by omega, hc.2.1, hc.2.2.1, hc.2.2.2⟩]
        · rw [if_neg hc, if_neg ?_]
          rintro ⟨h1, h2, h3, h4⟩
          rcases Nat.lt_or_ge (i % s.dim) k with hlt | hge
          · exact hc ⟨hlt, h2, h3, h4⟩
          · have hik : i % s.dim = k := by omega
            rw [hik] at h2
            exact hzk h2

/-- Row-loop prefix of the third pass. -/
def pass3Upto (s : State) (k : Nat) : State :=
  (List.range k).foldl
    (fun s1 y => if s1.row_tents.getD y 0 = 0 then rowSweep s1 y else s1) s

theorem fill_pass3_eq_upto (s : State) : s.fill_pass3 = pass3Upto s s.dim := rfl

theorem pass3Upto_succ (s : State) (k : Nat) :
    pass3Upto s (k + 1) =
      if (pass3Upto s k).row_tents.getD k 0 = 0
      then rowSweep (pass3Upto s k) k else pass3Upto s k := by
  rw [pass3Upto, List.range_succ, List.foldl_append, List.foldl_cons, List.foldl_nil]
  rfl

theorem pass3Upto_spec (s : State) (hlen : s.cells.length = s.dim * s.dim) (k : Nat)
    (hk : k ≤ s.dim) :
    (pass3Upto s k).dim = s.dim ∧
    (pass3Upto s k).col_tents = s.col_tents ∧
    (pass3Upto s k).row_tents = s.row_tents ∧
    (pass3Upto s k).cells.length = s.cells.length ∧
    (∀ i, (pass3Upto s k).cells.getD i Cell.Empty =
      if i / s.dim < k ∧ s.row_tents.getD (i / s.dim) 0 = 0 ∧ i % s.dim < s.dim ∧
          s.cells.getD i Cell.Empty = Cell.Empty
      then Cell.Grass else s.cells.getD i Cell.Empty) := by
  induction k with
  | zero =>
    refine ⟨rfl, rfl, rfl, rfl, fun i => ?_⟩
    rw [if_neg (fun h => Nat.not_lt_zero _ h.1)]
    rfl
  | succ k ih =>
    obtain ⟨hdim, hcol, hrow, hln, hptw⟩ := ih (by omega)
    have hkd : k < s.dim := by omega
    refine ⟨?_, ?_, ?_, ?_, ?_⟩
    all_goals rw [pass3Upto_succ]
    · by_cases hz : (pass3Upto s k).row_tents.getD k 0 = 0
      · rw [if_pos hz, rowSweep_eq_upto]
        have := (rowSweepUpto_spec (pass3Upto s k) k (by omega) (by rw [hln, hlen, hdim])
          (pass3Upto s k).dim le_rfl).1
        rw [this, hdim]
      · rw [if_neg hz, hdim]
    · by_cases hz : (pass3Upto s k).row_tents.getD k 0 = 0
      · rw [if_pos hz, rowSweep_eq_upto]
        have := (rowSweepUpto_spec (pass3Upto s k) k (by omega) (by rw [hln, hlen, hdim])
          (pass3Upto s k).dim le_rfl).2.1
        rw [this, hcol]
      · rw [if_neg hz, hcol]
    · by_cases hz : (pass3Upto s k).row_tents.getD k 0 = 0
      · rw [if_pos hz, rowSweep_eq_upto]
        have := (rowSweepUpto_spec (pass3Upto s k) k (by omega) (by rw [hln, hlen, hdim])
          (pass3Upto s k).dim le_rfl).2.2.1
        rw [this, hrow]
      · rw [if_neg hz, hrow]
    · by_cases hz : (pass3Upto s k).row_tents.getD k 0 = 0
      · rw [if_pos hz, rowSweep_eq_upto]
        have := (rowSweepUpto_spec (pass3Upto s k) k (by omega) (by rw [hln, hlen, hdim])
          (pass3Upto s k).dim le_rfl).2.2.2.1
        rw [this, hln]
      · rw [if_neg hz, hln]
    · intro i
      by_cases hz : (pass3Upto s k).row_tents.getD k 0 = 0
      · rw [if_pos hz, rowSweep_eq_upto, hdim]
        have hsw := (rowSweepUpto_spec (pass3Upto s k) k (by omega) (by rw [hln, hlen, hdim])
          (pass3Upto s k).dim le_rfl).2.2.2.2 i
        rw [hdim] at hsw
        rw [hsw, hptw]
        have hzk : s.row_tents.getD k 0 = 0 := by rw [← hrow]; exact hz
        by_cases hik : i / s.dim = k
        · have hCk : ¬ (i / s.dim < k ∧ s.row_tents.getD (i / s.dim) 0 = 0 ∧
              i % s.dim < s.dim ∧ s.cells.getD i Cell.Empty = Cell.Empty) := by
            rintro ⟨h, -⟩; omega
          rw [if_neg hCk]
          by_cases hrest : i % s.dim < s.dim ∧ s.cells.getD i Cell.Empty = Cell.Empty
          · rw [if_pos ⟨hik, hrest.1, hrest.2⟩,
              if_pos ⟨by omega, by rw [hik]; exact hzk, hrest.1, hrest.2⟩]
          · rw [if_neg (fun h => hrest ⟨h.2.1, h.2.2⟩),
              if_neg (fun h => hrest ⟨h.2.2.1, h.2.2.2⟩)]
        · have hout : ¬ (i / s.dim = k ∧ i % s.dim < s.dim ∧
              (if i / s.dim < k ∧ s.row_tents.getD (i / s.dim) 0 = 0 ∧
                  i % s.dim < s.dim ∧ s.cells.getD i Cell.Empty = Cell.Empty
               then Cell.Grass else s.cells.getD i Cell.Empty) = Cell.Empty) :=
            fun h => hik h.1
          rw [if_neg hout]
          by_cases hc : i / s.dim < k ∧ s.row_tents.getD (i / s.dim) 0 = 0 ∧
              i % s.dim < s.dim ∧ s.cells.getD i Cell.Empty = Cell.Empty
          · rw [if_pos hc, if_pos ⟨by omega, hc.2.1, hc.2.2.1, hc.2.2.2⟩]
          · rw [if_neg hc, if_neg ?_]
            rintro ⟨h1, h2, h3, h4⟩
            exact hc ⟨by omega, h2, h3, h4⟩
      · rw [if_neg hz, hptw]
        have hzk : ¬ s.row_tents.getD k 0 = 0 := by rw [← hrow]; exact hz
        by_cases hc : i / s.dim < k ∧ s.row_tents.getD (i / s.dim) 0 = 0 ∧
            i % s.dim < s.dim ∧ s.cells.getD i Cell.Empty = Cell.Empty
        · rw [if_pos hc, if_pos ⟨by omega, hc.2.1, hc.2.2.1, hc.2.2.2⟩]
        · rw [if_neg hc, if_neg ?_]
          rintro ⟨h1, h2, h3, h4⟩
          rcases Nat.lt_or_ge (i / s.dim) k with hlt | hge
          · exact hc ⟨hlt, h2, h3, h4⟩
          · have hik : i / s.dim = k := by omega
            rw [hik] at h2
            exact hzk h2

theorem colSweep_pres (s : State) (x : Nat) :
    (colSweep s x).dim = s.dim ∧ (colSweep s x).col_tents = s.col_tents ∧
    (colSweep s x).row_tents = s.row_tents ∧ (colSweep s x).cells.length = s.cells.length := by
  unfold colSweep
  refine ⟨?_, ?_, ?_, ?_⟩
  · exact foldl_preserve _ State.dim _ s fun t y => condSet_dim t x y
  · exact foldl_preserve _ State.col_tents _ s fun t y => condSet_col_tents t x y
  · exact foldl_preserve _ State.row_tents _ s fun t y => condSet_row_tents t x y
  · exact foldl_preserve _ (fun t => t.cells.length) _ s fun t y => condSet_length t x y

theorem rowSweep_pres (s : State) (y : Nat) :
    (rowSweep s y).dim = s.dim ∧ (rowSweep s y).col_tents = s.col_tents ∧
    (rowSweep s y).row_tents = s.row_tents ∧ (rowSweep s y).cells.length = s.cells.length := by
  unfold rowSweep
  refine ⟨?_, ?_, ?_, ?_⟩
  · exact foldl_preserve _ State.dim _ s fun t x => condSet_dim t x y
  · exact foldl_preserve _ State.col_tents _ s fun t x => condSet_col_tents t x y
  · exact foldl_preserve _ State.row_tents _ s fun t x => condSet_row_tents t x y
  · exact foldl_preserve _ (fun t => t.cells.length) _ s fun t x => condSet_length t x y

theorem fill_pass2_pres (s : State) :
    (s.fill_pass2).dim = s.dim ∧ (s.fill_pass2).col_tents = s.col_tents ∧
    (s.fill_pass2).row_tents = s.row_tents ∧ (s.fill_pass2).cells.length = s.cells.length := by
  unfold State.fill_pass2
  refine ⟨?_, ?_, ?_, ?_⟩
  · refine foldl_preserve _ State.dim _ s fun t x => ?_
    split
    · exact (colSweep_pres t x).1
    · rfl
  · refine foldl_preserve _ State.col_tents _ s fun t x => ?_
    split
    · exact (colSweep_pres t x).2.1
    · rfl
  · refine foldl_preserve _ State.row_tents _ s fun t x => ?_
    split
    · exact (colSweep_pres t x).2.2.1
    · rfl
  · refine foldl_preserve _ (fun t => t.cells.length) _ s fun t x => ?_
    split
    · exact (colSweep_pres t x).2.2.2
    · rfl

theorem fill_pass3_pres (s : State) :
    (s.fill_pass3).dim = s.dim ∧ (s.fill_pass3).col_tents = s.col_tents ∧
    (s.fill_pass3).row_tents = s.row_tents ∧ (s.fill_pass3).cells.length = s.cells.length := by
  unfold State.fill_pass3
  refine ⟨?_, ?_, ?_, ?_⟩
  · refine foldl_preserve _ State.dim _ s fun t y => ?_
    split
    · exact (rowSweep_pres t y).1
    · rfl
  · refine foldl_preserve _ State.col_tents _ s fun t y => ?_
    split
    · exact (rowSweep_pres t y).2.1
    · rfl
  · refine foldl_preserve _ State.row_tents _ s fun t y => ?_
    split
    · exact (rowSweep_pres t y).2.2.1
    · rfl
  · refine foldl_preserve _ (fun t => t.cells.length) _ s fun t y => ?_
    split
    · exact (rowSweep_pres t y).2.2.2
    · rfl

theorem fill_green_dim (s : State) : s.fill_green.dim = s.dim := by
  unfold State.fill_green
  rw [(fill_pass3_pres _).1, (fill_pass2_pres _).1, fill_pass1_dim]

theorem fill_green_col_tents (s : State) : s.fill_green.col_tents = s.col_tents := by
  unfold State.fill_green
  rw [(fill_pass3_pres _).2.1, (fill_pass2_pres _).2.1, fill_pass1_col_tents]

theorem fill_green_row_tents (s : State) : s.fill_green.row_tents = s.row_tents := by
  unfold State.fill_green
  rw [(fill_pass3_pres _).2.2.1, (fill_pass2_pres _).2.2.1, fill_pass1_row_tents]

theorem fill_green_length (s : State) : s.fill_green.cells.length = s.cells.length := by
  unfold State.fill_green
  rw [(fill_pass3_pres _).2.2.2, (fill_pass2_pres _).2.2.2, fill_pass1_length]

/-- Pointwise description of the whole of `fill_green` in terms of the
input state, at flat index `i`. -/
theorem fill_green_getD (s : State) (hlen : s.cells.length = s.dim * s.dim) (i : Nat) :
    s.fill_green.cells.getD i Cell.Empty =
      if s.cells.getD i Cell.Empty = Cell.Empty ∧ i % s.dim < s.dim ∧ i / s.dim < s.dim ∧
         (treeNear s (i % s.dim) (i / s.dim) = false ∨
          s.col_tents.getD (i % s.dim) 0 = 0 ∨ s.row_tents.getD (i / s.dim) 0 = 0)
      then Cell.Grass else s.cells.getD i Cell.Empty := by
  have hlen1 : s.fill_pass1.cells.length = s.fill_pass1.dim * s.fill_pass1.dim := by
    rw [fill_pass1_length, fill_pass1_dim, hlen]
  have hp1 := fill_pass1_getD s hlen i
  have hp2 : s.fill_pass1.fill_pass2.cells.getD i Cell.Empty =
      if i % s.dim < s.dim ∧ s.col_tents.getD (i % s.dim) 0 = 0 ∧ i / s.dim < s.dim ∧
          s.fill_pass1.cells.getD i Cell.Empty = Cell.Empty
      then Cell.Grass else s.fill_pass1.cells.getD i Cell.Empty := by
    have h := (pass2Upto_spec s.fill_pass1 hlen1 s.fill_pass1.dim le_rfl).2.2.2.2 i
    rw [← fill_pass2_eq_upto, fill_pass1_dim, fill_pass1_col_tents] at h
    exact h
  have hd2 : s.fill_pass1.fill_pass2.dim = s.dim := by
    rw [(fill_pass2_pres _).1, fill_pass1_dim]
  have hr2 : s.fill_pass1.fill_pass2.row_tents = s.row_tents := by
    rw [(fill_pass2_pres _).2.2.1, fill_pass1_row_tents]
  have hlen2 : s.fill_pass1.fill_pass2.cells.length =
      s.fill_pass1.fill_pass2.dim * s.fill_pass1.fill_pass2.dim := by
    rw [(fill_pass2_pres _).2.2.2, fill_pass1_length, hd2, hlen]
  have hp3 : s.fill_green.cells.getD i Cell.Empty =
      if i / s.dim < s.dim ∧ s.row_tents.getD (i / s.dim) 0 = 0 ∧ i % s.dim < s.dim ∧
          s.fill_pass1.fill_pass2.cells.getD i Cell.Empty = Cell.Empty
      then Cell.Grass else s.fill_pass1.fill_pass2.cells.getD i Cell.Empty := by
    have h := (pass3Upto_spec s.fill_pass1.fill_pass2 hlen2
      s.fill_pass1.fill_pass2.dim le_rfl).2.2.2.2 i
    rw [← fill_pass3_eq_upto, hd2, hr2] at h
    exact h
  rw [hp3, hp2, hp1]
  rcases Nat.lt_or_ge i (s.dim * s.dim) with hin | hout
  · have hn : 0 < s.dim := by
      rcases Nat.eq_zero_or_pos s.dim with h0 | h0
      · rw [h0] at hin; omega
      · exact h0
    have hm : i % s.dim < s.dim := Nat.mod_lt _ hn
    have hd : i / s.dim < s.dim := div_lt_of_lt_sq hin
    rw [if_pos hin]
    by_cases he : s.cells.getD i Cell.Empty = Cell.Empty
    · by_cases htn : treeNear s (i % s.dim) (i / s.dim) = false
      · have hpv : p1val s i = Cell.Grass := by rw [p1val, if_pos ⟨he, htn⟩]
        have hne2 : ¬ (i % s.dim < s.dim ∧ s.col_tents.getD (i % s.dim) 0 = 0 ∧
            i / s.dim < s.dim ∧ Cell.Grass = Cell.Empty) := fun h => Cell.noConfusion h.2.2.2
        have hne3 : ¬ (i / s.dim < s.dim ∧ s.row_tents.getD (i / s.dim) 0 = 0 ∧
            i % s.dim < s.dim ∧ Cell.Grass = Cell.Empty) := fun h => Cell.noConfusion h.2.2.2
        rw [hpv, if_neg hne2, if_neg hne3, if_pos ⟨he, hm, hd, Or.inl htn⟩]
      · have hpv : p1val s i = s.cells.getD i Cell.Empty := by
          rw [p1val, if_neg (fun h => htn h.2)]
        rw [hpv]
        by_cases hcz : s.col_tents.getD (i % s.dim) 0 = 0
        · have hne3 : ¬ (i / s.dim < s.dim ∧ s.row_tents.getD (i / s.dim) 0 = 0 ∧
              i % s.dim < s.dim ∧ Cell.Grass = Cell.Empty) := fun h => Cell.noConfusion h.2.2.2
          have hpos2 : i % s.dim < s.dim ∧ s.col_tents.getD (i % s.dim) 0 = 0 ∧
              i / s.dim < s.dim ∧ s.cells.getD i Cell.Empty = Cell.Empty := ⟨hm, hcz, hd, he⟩
          rw [if_pos hpos2, if_neg hne3, if_pos ⟨he, hm, hd, Or.inr (Or.inl hcz)⟩]
        · have hne2 : ¬ (i % s.dim < s.dim ∧ s.col_tents.getD (i % s.dim) 0 = 0 ∧
              i / s.dim < s.dim ∧ s.cells.getD i Cell.Empty = Cell.Empty) :=
            fun h => hcz h.2.1
          rw [if_neg hne2]
          by_cases hrz : s.row_tents.getD (i / s.dim) 0 = 0
          · have hpos3 : i / s.dim < s.dim ∧ s.row_tents.getD (i / s.dim) 0 = 0 ∧
                i % s.dim < s.dim ∧ s.cells.getD i Cell.Empty = Cell.Empty := ⟨hd, hrz, hm, he⟩
            rw [if_pos hpos3, if_pos ⟨he, hm, hd, Or.inr (Or.inr hrz)⟩]
          · have hne3 : ¬ (i / s.dim < s.dim ∧ s.row_tents.getD (i / s.dim) 0 = 0 ∧
                i % s.dim < s.dim ∧ s.cells.getD i Cell.Empty = Cell.Empty) :=
              fun h => hrz h.2.1
            rw [if_neg hne3,
              if_neg (by rintro ⟨-, -, -, (h | h | h)⟩; exacts [htn h, hcz h, hrz h])]
    · have hpv : p1val s i = s.cells.getD i Cell.Empty := by
        rw [p1val, if_neg (fun h => he h.1)]
      have hne2 : ¬ (i % s.dim < s.dim ∧ s.col_tents.getD (i % s.dim) 0 = 0 ∧
          i / s.dim < s.dim ∧ s.cells.getD i Cell.Empty = Cell.Empty) := fun h => he h.2.2.2
      have hne3 : ¬ (i / s.dim < s.dim ∧ s.row_tents.getD (i / s.dim) 0 = 0 ∧
          i % s.dim < s.dim ∧ s.cells.getD i Cell.Empty = Cell.Empty) := fun h => he h.2.2.2
      rw [hpv, if_neg hne2, if_neg hne3, if_neg (fun h => he h.1)]
  · have hne1 : ¬ (i < s.dim * s.dim) := by omega
    rw [if_neg hne1]
    have h2 : ¬ (i % s.dim < s.dim ∧ s.col_tents.getD (i % s.dim) 0 = 0 ∧ i / s.dim < s.dim ∧
        s.cells.getD i Cell.Empty = Cell.Empty) := by
      rintro ⟨h1, -, h3, -⟩
      have := lt_sq_of_div_lt (lt_of_le_of_lt (Nat.zero_le _) h1) h3
      omega
    have h3 : ¬ (i / s.dim < s.dim ∧ s.row_tents.getD (i / s.dim) 0 = 0 ∧ i % s.dim < s.dim ∧
        s.cells.getD i Cell.Empty = Cell.Empty) := by
      rintro ⟨h1, -, h3, -⟩
      have := lt_sq_of_div_lt (lt_of_le_of_lt (Nat.zero_le _) h3) h1
      omega
    have h4 : ¬ (s.cells.getD i Cell.Empty = Cell.Empty ∧ i % s.dim < s.dim ∧
        i / s.dim < s.dim ∧ (treeNear s (i % s.dim) (i / s.dim) = false ∨
          s.col_tents.getD (i % s.dim) 0 = 0 ∨ s.row_tents.getD (i / s.dim) 0 = 0)) := by
      rintro ⟨-, h1, h3, -⟩
      have := lt_sq_of_div_lt (lt_of_le_of_lt (Nat.zero_le _) h1) h3
      omega
    rw [if_neg h2, if_neg h3, if_neg h4]

/-- `fill_green` does not create or destroy trees. -/
theorem fill_green_tree (s : State) (hlen : s.cells.length = s.dim * s.dim) (i : Nat) :
    (s.fill_green.cells.getD i Cell.Empty = Cell.Tree) ↔
      (s.cells.getD i Cell.Empty = Cell.Tree) := by
  rw [fill_green_getD s hlen i]
  split
  · rename_i hcond
    constructor
    · intro hg; cases hg
    · intro ht; rw [hcond.1] at ht; cases ht
  · exact Iff.rfl

end FillGreen

section ClaimC5

/-- C5: postcondition of the forced-grass pass.  After `fill_green` a
grid cell is `Grass` exactly when it already was `Grass`, or it was
`Empty` and not orthogonally adjacent to any `Tree`, or it was `Empty`
and its column's or row's remaining tent count is zero; every other cell
is unchanged (the `else` branch returns the old value verbatim). -/
theorem C5_forced_grass_spec (s : State) (hlen : s.cells.length = s.dim * s.dim)
    {x y : Nat} (hx : x < s.dim) (hy : y < s.dim) :
    s.fill_green.get_cell x y =
      if s.get_cell x y = Cell.Empty ∧
         (treeNear s x y = false ∨ s.col_tents.getD x 0 = 0 ∨ s.row_tents.getD y 0 = 0)
      then Cell.Grass else s.get_cell x y := by
  have h := fill_green_getD s hlen (x + y * s.dim)
  rw [idx_mod x y hx, idx_div x y hx] at h
  simp only [State.get_cell, fill_green_dim]
  rw [h]
  simp only [hx, hy, true_and, and_true]

/-- A small state exercising the C5 theorem: dimension 2, one tree, one
empty column. -/
def sC5 : State :=
  { dim := 2
    cells := [Cell.Tree, Cell.Empty, Cell.Empty, Cell.Empty]
    col_tents := [1, 0]
    row_tents := [1, 0] }

theorem C5_forced_grass_spec_witness :
    (sC5.cells.length = sC5.dim * sC5.dim ∧ 1 < sC5.dim ∧ 1 < sC5.dim) ∧
      sC5.fill_green.get_cell 1 1 =
        (if sC5.get_cell 1 1 = Cell.Empty ∧
            (treeNear sC5 1 1 = false ∨ sC5.col_tents.getD 1 0 = 0 ∨
              sC5.row_tents.getD 1 0 = 0)
         then Cell.Grass else sC5.get_cell 1 1) :=
  ⟨by decide, C5_forced_grass_spec sC5 (by decide) (by decide) (by decide)⟩

end ClaimC5

section ClaimC9

/-- C9: the forced-grass pass is idempotent — running `fill_green` twice
produces exactly the state one run produces. -/
theorem C9_fill_green_idempotent (s : State) (hlen : s.cells.length = s.dim * s.dim) :
    s.fill_green.fill_green = s.fill_green := by
  have hdim := fill_green_dim s
  have hlen' : s.fill_green.cells.length = s.fill_green.dim * s.fill_green.dim := by
    rw [fill_green_length, hdim, hlen]
  have htn := treeNear_congr hdim (fun j => fill_green_tree s hlen j)
  apply State.ext
  · exact fill_green_dim s.fill_green
  · apply List.ext_getElem
    · rw [fill_green_length]
    · intro j h1 h2
      have hD : ∀ (l : List Cell) (jj : Nat) (hh : jj < l.length),
          l.getD jj Cell.Empty = l[jj] := fun l jj hh => by
        simp [List.getD_eq_getElem?_getD, List.getElem?_eq_getElem hh]
      rw [← hD _ j h1, ← hD _ j h2]
      rw [fill_green_getD s.fill_green hlen' j, hdim, fill_green_col_tents,
        fill_green_row_tents, htn (j % s.dim) (j / s.dim)]
      rw [if_neg]
      rintro ⟨hEmpty, hm, hd, hor⟩
      rw [fill_green_getD s hlen j] at hEmpty
      revert hEmpty
      split
      · intro hEmpty; cases hEmpty
      · rename_i hcond
        intro hEmpty
        exact hcond ⟨hEmpty, hm, hd, hor⟩
  · exact fill_green_col_tents s.fill_green
  · exact fill_green_row_tents s.fill_green

theorem C9_fill_green_idempotent_witness :
    (sC5.cells.length = sC5.dim * sC5.dim) ∧ sC5.fill_green.fill_green = sC5.fill_green :=
  ⟨by decide, C9_fill_green_idempotent sC5 (by decide)⟩

end ClaimC9

section SearchInvariant

/-- The structural invariant of the search engine, relating the frontier,
the trail, the choice-point stack and the cell census to the board. -/
structure Inv (b : Backtrack) : Prop where
  len_cells : b.state.cells.length = b.state.dim * b.state.dim
  len_col : b.state.col_tents.length = b.state.dim
  len_row : b.state.row_tents.length = b.state.dim
  todo_nodup : b.todo.Nodup
  todo_iff : ∀ c, c ∈ b.todo ↔
    (c < b.state.dim * b.state.dim ∧ b.state.cells.getD c Cell.Empty = Cell.Empty)
  cords_nodup : b.cords_stack.Nodup
  cords_lt : ∀ c ∈ b.cords_stack, c < b.state.dim * b.state.dim
  cords_cells : ∀ q, q < b.cords_stack.length →
    b.state.cells.getD (b.cords_stack.getD q 0) Cell.Empty =
      (if q + 1 ∈ b.backtrack_stack then Cell.Tent else Cell.Grass)
  bt_sorted : b.backtrack_stack.Sorted (· < ·)
  bt_bounds : ∀ i ∈ b.backtrack_stack, 1 ≤ i ∧ i ≤ b.cords_stack.length
  tent_eq : b.tent_count = b.state.cells.countP (fun c => decide (c = Cell.Tent))
  tree_eq : b.tree_count = b.state.cells.countP (fun c => decide (c = Cell.Tree))

theorem inv_todo_cords_disjoint {b : Backtrack} (h : Inv b) :
    ∀ c ∈ b.todo, c ∉ b.cords_stack := by
  intro c hc hcs
  obtain ⟨q, hq, rfl⟩ := List.getElem_of_mem hcs
  have h1 := (h.todo_iff _).1 hc
  have h2 := h.cords_cells q hq
  have hge : b.cords_stack.getD q 0 = b.cords_stack[q] := by
    simp [List.getD_eq_getElem?_getD, List.getElem?_eq_getElem hq]
  rw [hge] at h2
  rw [h1.2] at h2
  split at h2 <;> cases h2

theorem inv_mem_cords_getD {b : Backtrack} {c : Nat} (hcs : c ∈ b.cords_stack) :
    ∃ q, q < b.cords_stack.length ∧ b.cords_stack.getD q 0 = c := by
  obtain ⟨q, hq, rfl⟩ := List.getElem_of_mem hcs
  exact ⟨q, hq, by simp [List.getD_eq_getElem?_getD, List.getElem?_eq_getElem hq]⟩

section MarkGreen

variable (b : Backtrack) (x y : Nat)

theorem mg_dim : (b.mark_green x y).state.dim = b.state.dim := by
  simp only [Backtrack.mark_green]; split <;> rfl

theorem mg_col_tents : (b.mark_green x y).state.col_tents = b.state.col_tents := by
  simp only [Backtrack.mark_green]; split <;> rfl

theorem mg_row_tents : (b.mark_green x y).state.row_tents = b.state.row_tents := by
  simp only [Backtrack.mark_green]; split <;> rfl

theorem mg_bt : (b.mark_green x y).backtrack_stack = b.backtrack_stack := by
  simp only [Backtrack.mark_green]; split <;> rfl

theorem mg_tent_count : (b.mark_green x y).tent_count = b.tent_count := by
  simp only [Backtrack.mark_green]; split <;> rfl

theorem mg_tree_count : (b.mark_green x y).tree_count = b.tree_count := by
  simp only [Backtrack.mark_green]; split <;> rfl

theorem mg_cells_length :
    (b.mark_green x y).state.cells.length = b.state.cells.length := by
  simp only [Backtrack.mark_green]; split <;> simp

theorem mg_cords :
    (b.mark_green x y).cords_stack =
      if x + y * b.state.dim ∈ b.todo then b.cords_stack ++ [x + y * b.state.dim]
      else b.cords_stack := by
  simp only [Backtrack.mark_green]
  split <;> simp_all

theorem mg_todo :
    (b.mark_green x y).todo =
      if x + y * b.state.dim ∈ b.todo then b.todo.erase (x + y * b.state.dim)
      else b.todo := by
  simp only [Backtrack.mark_green]
  split <;> simp_all

theorem mg_cells_getD (c : Nat) :
    (b.mark_green x y).state.cells.getD c Cell.Empty =
      if x + y * b.state.dim ∈ b.todo ∧ c = x + y * b.state.dim ∧ c < b.state.cells.length
      then Cell.Grass else b.state.cells.getD c Cell.Empty := by
  simp only [Backtrack.mark_green]
  split
  · rename_i hm
    show (b.state.cells.set _ _).getD c Cell.Empty = _
    rw [getD_set]
    by_cases hc : x + y * b.state.dim = c
    · by_cases hl : x + y * b.state.dim < b.state.cells.length
      · rw [if_pos ⟨hc, hl⟩, if_pos ⟨hm, hc.symm, hc ▸ hl⟩]
      · have hL : ¬ (x + y * b.state.dim = c ∧
            x + y * b.state.dim < b.state.cells.length) := fun h => hl h.2
        have hR : ¬ (x + y * b.state.dim ∈ b.todo ∧ c = x + y * b.state.dim ∧
            c < b.state.cells.length) := fun h => hl (h.2.1 ▸ h.2.2)
        rw [if_neg hL, if_neg hR]
    · have hL : ¬ (x + y * b.state.dim = c ∧
          x + y * b.state.dim < b.state.cells.length) := fun h => hc h.1
      have hR : ¬ (x + y * b.state.dim ∈ b.todo ∧ c = x + y * b.state.dim ∧
          c < b.state.cells.length) := fun h => hc h.2.1.symm
      rw [if_neg hL, if_neg hR]
  · rename_i hm
    have hR : ¬ (x + y * b.state.dim ∈ b.todo ∧ c = x + y * b.state.dim ∧
        c < b.state.cells.length) := fun h => hm h.1
    rw [if_neg hR]

/-- Marking never creates an `Empty` cell. -/
theorem mg_no_new_empty (c : Nat)
    (h : b.state.cells.getD c Cell.Empty ≠ Cell.Empty) :
    (b.mark_green x y).state.cells.getD c Cell.Empty ≠ Cell.Empty := by
  rw [mg_cells_getD]
  split
  · intro hh; cases hh
  · exact h

theorem mg_inv (h : Inv b) : Inv (b.mark_green x y) := by
  simp only [Backtrack.mark_green]
  split
  · rename_i hm
    set c0 := x + y * b.state.dim with hc0
    have hc0N : c0 < b.state.dim * b.state.dim ∧ b.state.cells.getD c0 Cell.Empty = Cell.Empty :=
      (h.todo_iff c0).1 hm
    have hc0len : c0 < b.state.cells.length := by rw [h.len_cells]; exact hc0N.1
    have hc0cords : c0 ∉ b.cords_stack := inv_todo_cords_disjoint h c0 hm
    refine ⟨?_, h.len_col, h.len_row, ?_, ?_, ?_, ?_, ?_, h.bt_sorted, ?_, ?_, ?_⟩
    · simpa using h.len_cells
    · exact h.todo_nodup.erase c0
    · intro c
      show c ∈ b.todo.erase c0 ↔ _ ∧ (b.state.cells.set c0 Cell.Grass).getD c Cell.Empty = _
      rw [h.todo_nodup.mem_erase_iff, h.todo_iff c, getD_set]
      constructor
      · rintro ⟨hne, hlt, he⟩
        refine ⟨hlt, ?_⟩
        rw [if_neg (fun hh => hne hh.1.symm)]
        exact he
      · rintro ⟨hlt, he⟩
        by_cases hc : c = c0
        · rw [if_pos ⟨hc.symm, hc ▸ hc0len⟩] at he
          cases he
        · rw [if_neg (fun hh => hc hh.1.symm)] at he
          exact ⟨hc, hlt, he⟩
    · show (b.cords_stack ++ [c0]).Nodup
      rw [List.nodup_append]
      exact ⟨h.cords_nodup, List.nodup_singleton c0,
        by simpa [List.disjoint_singleton] using hc0cords⟩
    · intro c hc
      rcases List.mem_append.1 hc with hc | hc
      · exact h.cords_lt c hc
      · rw [List.mem_singleton.1 hc]; exact hc0N.1
    · intro q hq
      show (b.state.cells.set c0 Cell.Grass).getD ((b.cords_stack ++ [c0]).getD q 0)
          Cell.Empty = _
      rw [List.length_append, List.length_singleton] at hq
      rcases Nat.lt_or_ge q b.cords_stack.length with hql | hqg
      · rw [getD_append_left hql]
        have hmemq : b.cords_stack.getD q 0 ∈ b.cords_stack := by
          rw [List.getD_eq_getElem?_getD, List.getElem?_eq_getElem hql, Option.getD_some]
          exact List.getElem_mem hql
        have hne : c0 ≠ b.cords_stack.getD q 0 := fun hh => hc0cords (hh ▸ hmemq)
        rw [getD_set_ne _ hne]
        exact h.cords_cells q hql
      · have hq1 : q = b.cords_stack.length := by omega
        rw [hq1, getD_append_self, getD_set_self _ _ _ _ hc0len]
        rw [if_neg]
        intro hmem
        have := (h.bt_bounds _ hmem).2
        omega
    · intro i hi
      refine ⟨(h.bt_bounds i hi).1, ?_⟩
      have := (h.bt_bounds i hi).2
      simp only [List.length_append, List.length_singleton]
      omega
    · show b.tent_count = (b.state.cells.set c0 Cell.Grass).countP _
      rw [List.countP_set _ _ _ _ hc0len, h.tent_eq]
      have hg : b.state.cells[c0] = Cell.Empty := by
        have := hc0N.2
        rwa [List.getD_eq_getElem?_getD, List.getElem?_eq_getElem hc0len,
          Option.getD_some] at this
      rw [hg]
      simp
    · show b.tree_count = (b.state.cells.set c0 Cell.Grass).countP _
      rw [List.countP_set _ _ _ _ hc0len, h.tree_eq]
      have hg : b.state.cells[c0] = Cell.Empty := by
        have := hc0N.2
        rwa [List.getD_eq_getElem?_getD, List.getElem?_eq_getElem hc0len,
          Option.getD_some] at this
      rw [hg]
      simp
  · exact h

end MarkGreen

section MarkList

/-- Number of active choice points whose tentative tent sits in column `x`. -/
def activeColCount (b : Backtrack) (x : Nat) : Nat :=
  b.backtrack_stack.countP
    (fun i => decide (b.cords_stack.getD (i - 1) 0 % b.state.dim = x))

/-- Number of active choice points whose tentative tent sits in row `y`. -/
def activeRowCount (b : Backtrack) (y : Nat) : Nat :=
  b.backtrack_stack.countP
    (fun i => decide (b.cords_stack.getD (i - 1) 0 / b.state.dim = y))

variable (b : Backtrack) (l : List (Nat × Nat))

theorem markList_cons (p : Nat × Nat) :
    b.markList (p :: l) = (b.mark_green p.1 p.2).markList l := rfl

theorem ml_dim : (b.markList l).state.dim = b.state.dim :=
  foldl_preserve _ (fun t => t.state.dim) l b (fun t p => mg_dim t p.1 p.2)

theorem ml_col_tents : (b.markList l).state.col_tents = b.state.col_tents :=
  foldl_preserve _ (fun t => t.state.col_tents) l b (fun t p => mg_col_tents t p.1 p.2)

theorem ml_row_tents : (b.markList l).state.row_tents = b.state.row_tents :=
  foldl_preserve _ (fun t => t.state.row_tents) l b (fun t p => mg_row_tents t p.1 p.2)

theorem ml_bt : (b.markList l).backtrack_stack = b.backtrack_stack :=
  foldl_preserve _ (fun t => t.backtrack_stack) l b (fun t p => mg_bt t p.1 p.2)

theorem ml_tent_count : (b.markList l).tent_count = b.tent_count :=
  foldl_preserve _ (fun t => t.tent_count) l b (fun t p => mg_tent_count t p.1 p.2)

theorem ml_tree_count : (b.markList l).tree_count = b.tree_count :=
  foldl_preserve _ (fun t => t.tree_count) l b (fun t p => mg_tree_count t p.1 p.2)

theorem ml_cells_length : (b.markList l).state.cells.length = b.state.cells.length :=
  foldl_preserve _ (fun t => t.state.cells.length) l b (fun t p => mg_cells_length t p.1 p.2)

theorem ml_inv (h : Inv b) : Inv (b.markList l) := by
  induction l generalizing b with
  | nil => exact h
  | cons p l ih => exact ih _ (mg_inv _ p.1 p.2 h)

theorem ml_no_new_empty (c : Nat) (h : b.state.cells.getD c Cell.Empty ≠ Cell.Empty) :
    (b.markList l).state.cells.getD c Cell.Empty ≠ Cell.Empty := by
  induction l generalizing b with
  | nil => exact h
  | cons p l ih => exact ih _ (mg_no_new_empty _ p.1 p.2 c h)

theorem mg_empty_mono (x y : Nat) (c : Nat)
    (h : (b.mark_green x y).state.cells.getD c Cell.Empty = Cell.Empty) :
    b.state.cells.getD c Cell.Empty = Cell.Empty := by
  rw [mg_cells_getD] at h
  revert h
  split
  · intro h; cases h
  · exact id

theorem ml_empty_mono (c : Nat)
    (h : (b.markList l).state.cells.getD c Cell.Empty = Cell.Empty) :
    b.state.cells.getD c Cell.Empty = Cell.Empty := by
  induction l generalizing b with
  | nil => exact h
  | cons p l ih => exact mg_empty_mono _ p.1 p.2 c (ih _ h)

theorem ml_cords_append (h : Inv b) :
    ∃ ms, (b.markList l).cords_stack = b.cords_stack ++ ms ∧
      ∀ e ∈ ms, b.state.cells.getD e Cell.Empty = Cell.Empty := by
  induction l generalizing b with
  | nil => exact ⟨[], by simp [Backtrack.markList]⟩
  | cons p l ih =>
    obtain ⟨ms, hms, hemp⟩ := ih (b.mark_green p.1 p.2) (mg_inv _ p.1 p.2 h)
    have hml : (b.markList (p :: l)).cords_stack =
        (b.mark_green p.1 p.2).cords_stack ++ ms := hms
    rw [mg_cords] at hml
    by_cases hm : p.1 + p.2 * b.state.dim ∈ b.todo
    · rw [if_pos hm] at hml
      refine ⟨[p.1 + p.2 * b.state.dim] ++ ms, by simpa using hml, ?_⟩
      intro e he
      rcases List.mem_append.1 he with he | he
      · rw [List.mem_singleton.1 he]
        exact ((h.todo_iff _).1 hm).2
      · exact mg_empty_mono _ p.1 p.2 e (hemp e he)
    · rw [if_neg hm] at hml
      exact ⟨ms, hml, fun e he => mg_empty_mono _ p.1 p.2 e (hemp e he)⟩

theorem ml_cords_getD (h : Inv b) (q : Nat) (hq : q < b.cords_stack.length) :
    (b.markList l).cords_stack.getD q 0 = b.cords_stack.getD q 0 := by
  obtain ⟨ms, hms, -⟩ := ml_cords_append b l h
  rw [hms, getD_append_left hq]

theorem ml_cords_length_ge (h : Inv b) :
    b.cords_stack.length ≤ (b.markList l).cords_stack.length := by
  obtain ⟨ms, hms, -⟩ := ml_cords_append b l h
  rw [hms]
  simp

theorem mg_todo_length (x y : Nat) :
    (b.mark_green x y).todo.length ≤ b.todo.length := by
  rw [mg_todo]
  split
  · exact le_trans (List.length_erase_le _ _) le_rfl
  · exact le_rfl

theorem ml_todo_length : (b.markList l).todo.length ≤ b.todo.length := by
  induction l generalizing b with
  | nil => exact le_rfl
  | cons p l ih => exact le_trans (ih _) (mg_todo_length _ p.1 p.2)

/-- After marking a whole list of coordinates, every coordinate of the
list whose flat index is on the board reads non-`Empty`. -/
theorem ml_covers (h : Inv b) :
    ∀ p ∈ l, p.1 + p.2 * b.state.dim < b.state.dim * b.state.dim →
      (b.markList l).state.cells.getD (p.1 + p.2 * b.state.dim) Cell.Empty ≠ Cell.Empty := by
  induction l generalizing b with
  | nil => intro p hp; cases hp
  | cons p0 l ih =>
    intro p hp hpN
    rcases List.mem_cons.1 hp with rfl | hp
    · show (Backtrack.markList _ l).state.cells.getD _ Cell.Empty ≠ Cell.Empty
      have hne : (b.mark_green p.1 p.2).state.cells.getD (p.1 + p.2 * b.state.dim)
          Cell.Empty ≠ Cell.Empty := by
        rw [mg_cells_getD]
        split
        · intro hh; cases hh
        · rename_i hcond
          intro hh
          have := (h.todo_iff (p.1 + p.2 * b.state.dim)).2 ⟨hpN, hh⟩
          exact hcond ⟨this, rfl, by rw [h.len_cells]; exact hpN⟩
      exact ml_no_new_empty _ l _ hne
    · have hdim : (b.mark_green p0.1 p0.2).state.dim = b.state.dim := mg_dim _ _ _
      have := ih (b.mark_green p0.1 p0.2) (mg_inv _ p0.1 p0.2 h) p hp
      rw [hdim] at this
      exact this hpN

theorem mg_activeCol (x0 y0 : Nat) (h : Inv b) (x : Nat) :
    activeColCount (b.mark_green x0 y0) x = activeColCount b x := by
  unfold activeColCount
  rw [mg_bt, mg_dim]
  apply List.countP_congr
  intro i hi
  have hb := h.bt_bounds i hi
  have hq : i - 1 < b.cords_stack.length := by omega
  rw [mg_cords]
  split
  · rw [getD_append_left hq]
  · rfl

theorem ml_activeCol (h : Inv b) (x : Nat) :
    activeColCount (b.markList l) x = activeColCount b x := by
  induction l generalizing b with
  | nil => rfl
  | cons p l ih =>
    rw [markList_cons, ih _ (mg_inv _ p.1 p.2 h), mg_activeCol _ p.1 p.2 h]

theorem mg_activeRow (x0 y0 : Nat) (h : Inv b) (y : Nat) :
    activeRowCount (b.mark_green x0 y0) y = activeRowCount b y := by
  unfold activeRowCount
  rw [mg_bt, mg_dim]
  apply List.countP_congr
  intro i hi
  have hb := h.bt_bounds i hi
  have hq : i - 1 < b.cords_stack.length := by omega
  rw [mg_cords]
  split
  · rw [getD_append_left hq]
  · rfl

theorem ml_activeRow (h : Inv b) (y : Nat) :
    activeRowCount (b.markList l) y = activeRowCount b y := by
  induction l generalizing b with
  | nil => rfl
  | cons p l ih =>
    rw [markList_cons, ih _ (mg_inv _ p.1 p.2 h), mg_activeRow _ p.1 p.2 h]

end MarkList

section ZeroInvariant

/-- What holds of a column whose remaining count is zero: no `Empty` cell
in the column, and the column's trail entries are protected — either the
trail holds no entry of the column at all, or some active choice point
`i` placed a tent there and every later choice point sits strictly above
every entry of the column. -/
def ColZeroAt (b : Backtrack) (x : Nat) : Prop :=
  (∀ y, y < b.state.dim →
    b.state.cells.getD (x + y * b.state.dim) Cell.Empty ≠ Cell.Empty) ∧
  ((∀ q, q < b.cords_stack.length → b.cords_stack.getD q 0 % b.state.dim ≠ x) ∨
   (∃ i ∈ b.backtrack_stack, b.cords_stack.getD (i - 1) 0 % b.state.dim = x ∧
     ∀ o ∈ b.backtrack_stack, i < o → ∀ q, q < b.cords_stack.length →
       b.cords_stack.getD q 0 % b.state.dim = x → q < o - 1))

/-- The row mirror of `ColZeroAt`. -/
def RowZeroAt (b : Backtrack) (y : Nat) : Prop :=
  (∀ x, x < b.state.dim →
    b.state.cells.getD (x + y * b.state.dim) Cell.Empty ≠ Cell.Empty) ∧
  ((∀ q, q < b.cords_stack.length → b.cords_stack.getD q 0 / b.state.dim ≠ y) ∨
   (∃ i ∈ b.backtrack_stack, b.cords_stack.getD (i - 1) 0 / b.state.dim = y ∧
     ∀ o ∈ b.backtrack_stack, i < o → ∀ q, q < b.cords_stack.length →
       b.cords_stack.getD q 0 / b.state.dim = y → q < o - 1))

/-- The counter invariant of the search: remaining counts plus active
tents per line stay below the u8 range, and any line whose remaining
count is zero is fully decided and trail-protected. -/
structure ZInv (b : Backtrack) : Prop where
  col_bound : ∀ x, x < b.state.dim →
    b.state.col_tents.getD x 0 + activeColCount b x < 256
  row_bound : ∀ y, y < b.state.dim →
    b.state.row_tents.getD y 0 + activeRowCount b y < 256
  col_zero : ∀ x, x < b.state.dim → b.state.col_tents.getD x 0 = 0 → ColZeroAt b x
  row_zero : ∀ y, y < b.state.dim → b.state.row_tents.getD y 0 = 0 → RowZeroAt b y

theorem mg_colZeroAt (b : Backtrack) (x0 y0 x : Nat) (h : Inv b)
    (hA : ColZeroAt b x) : ColZeroAt (b.mark_green x0 y0) x := by
  obtain ⟨hA1, hA2⟩ := hA
  constructor
  · intro y hy
    rw [mg_dim] at hy
    have := hA1 y hy
    rw [mg_dim]
    exact mg_no_new_empty b x0 y0 _ this
  · rw [mg_cords, mg_bt, mg_dim]
    split
    · rename_i hm
      set e := x0 + y0 * b.state.dim with he
      have heE : e < b.state.dim * b.state.dim ∧ b.state.cells.getD e Cell.Empty = Cell.Empty :=
        (h.todo_iff e).1 hm
      have hn : 0 < b.state.dim := by
        rcases Nat.eq_zero_or_pos b.state.dim with h0 | h0
        · rw [h0] at heE; omega
        · exact h0
      have henx : e % b.state.dim ≠ x := by
        intro hex
        have hyd : e / b.state.dim < b.state.dim := div_lt_of_lt_sq heE.1
        have := hA1 (e / b.state.dim) hyd
        rw [← hex, idx_recompose] at this
        exact this heE.2
      rcases hA2 with hL | ⟨i, hi, hie, hcond⟩
      · left
        intro q hq
        rw [List.length_append, List.length_singleton] at hq
        rcases Nat.lt_or_ge q b.cords_stack.length with hql | hqg
        · rw [getD_append_left hql]; exact hL q hql
        · have : q = b.cords_stack.length := by omega
          rw [this, getD_append_self]
          exact henx
      · right
        have hiq : i - 1 < b.cords_stack.length := by
          have := h.bt_bounds i hi; omega
        refine ⟨i, hi, by rw [getD_append_left hiq]; exact hie, ?_⟩
        intro o ho hio q hq hqx
        rw [List.length_append, List.length_singleton] at hq
        rcases Nat.lt_or_ge q b.cords_stack.length with hql | hqg
        · rw [getD_append_left hql] at hqx
          exact hcond o ho hio q hql hqx
        · have hq' : q = b.cords_stack.length := by omega
          rw [hq', getD_append_self] at hqx
          exact absurd hqx henx
    · exact hA2

theorem ml_colZeroAt (b : Backtrack) (l : List (Nat × Nat)) (x : Nat) (h : Inv b)
    (hA : ColZeroAt b x) : ColZeroAt (b.markList l) x := by
  induction l generalizing b with
  | nil => exact hA
  | cons p l ih =>
    rw [markList_cons]
    exact ih _ (mg_inv _ p.1 p.2 h) (mg_colZeroAt _ p.1 p.2 x h hA)

theorem mg_rowZeroAt (b : Backtrack) (x0 y0 y : Nat) (h : Inv b)
    (hA : RowZeroAt b y) : RowZeroAt (b.mark_green x0 y0) y := by
  obtain ⟨hA1, hA2⟩ := hA
  constructor
  · intro x hx
    rw [mg_dim] at hx
    have := hA1 x hx
    rw [mg_dim]
    exact mg_no_new_empty b x0 y0 _ this
  · rw [mg_cords, mg_bt, mg_dim]
    split
    · rename_i hm
      set e := x0 + y0 * b.state.dim with he
      have heE : e < b.state.dim * b.state.dim ∧ b.state.cells.getD e Cell.Empty = Cell.Empty :=
        (h.todo_iff e).1 hm
      have hn : 0 < b.state.dim := by
        rcases Nat.eq_zero_or_pos b.state.dim with h0 | h0
        · rw [h0] at heE; omega
        · exact h0
      have heny : e / b.state.dim ≠ y := by
        intro hey
        have hxd : e % b.state.dim < b.state.dim := Nat.mod_lt _ hn
        have := hA1 (e % b.state.dim) hxd
        rw [← hey, idx_recompose] at this
        exact this heE.2
      rcases hA2 with hL | ⟨i, hi, hie, hcond⟩
      · left
        intro q hq
        rw [List.length_append, List.length_singleton] at hq
        rcases Nat.lt_or_ge q b.cords_stack.length with hql | hqg
        · rw [getD_append_left hql]; exact hL q hql
        · have : q = b.cords_stack.length := by omega
          rw [this, getD_append_self]
          exact heny
      · right
        have hiq : i - 1 < b.cords_stack.length := by
          have := h.bt_bounds i hi; omega
        refine ⟨i, hi, by rw [getD_append_left hiq]; exact hie, ?_⟩
        intro o ho hio q hq hqy
        rw [List.length_append, List.length_singleton] at hq
        rcases Nat.lt_or_ge q b.cords_stack.length with hql | hqg
        · rw [getD_append_left hql] at hqy
          exact hcond o ho hio q hql hqy
        · have hq' : q = b.cords_stack.length := by omega
          rw [hq', getD_append_self] at hqy
          exact absurd hqy heny
    · exact hA2

theorem ml_rowZeroAt (b : Backtrack) (l : List (Nat × Nat)) (y : Nat) (h : Inv b)
    (hA : RowZeroAt b y) : RowZeroAt (b.markList l) y := by
  induction l generalizing b with
  | nil => exact hA
  | cons p l ih =>
    rw [markList_cons]
    exact ih _ (mg_inv _ p.1 p.2 h) (mg_rowZeroAt _ p.1 p.2 y h hA)

end ZeroInvariant

section PickStep

variable (b : Backtrack) (cord : Nat)

theorem ps_dim : (b.pickStep cord).state.dim = b.state.dim := rfl

theorem ps_col_tents : (b.pickStep cord).state.col_tents = b.state.col_tents := rfl

theorem ps_row_tents : (b.pickStep cord).state.row_tents = b.state.row_tents := rfl

theorem ps_bt : (b.pickStep cord).backtrack_stack =
    b.backtrack_stack ++ [b.cords_stack.length + 1] := rfl

theorem ps_cords : (b.pickStep cord).cords_stack = b.cords_stack ++ [cord] := rfl

theorem ps_todo : (b.pickStep cord).todo = b.todo.erase cord := rfl

theorem ps_tent : (b.pickStep cord).tent_count = b.tent_count + 1 := rfl

theorem ps_tree : (b.pickStep cord).tree_count = b.tree_count := rfl

theorem ps_cells_length : (b.pickStep cord).state.cells.length = b.state.cells.length := by
  show (b.state.cells.set cord Cell.Tent).length = _
  simp

theorem ps_cells_getD (c : Nat) :
    (b.pickStep cord).state.cells.getD c Cell.Empty =
      if cord = c ∧ cord < b.state.cells.length then Cell.Tent
      else b.state.cells.getD c Cell.Empty := by
  show (b.state.cells.set cord Cell.Tent).getD c Cell.Empty = _
  exact getD_set _ _ _ _ _

theorem pickStep_inv (h : Inv b) (hc : cord ∈ b.todo) : Inv (b.pickStep cord) := by
  have hcN : cord < b.state.dim * b.state.dim ∧
      b.state.cells.getD cord Cell.Empty = Cell.Empty := (h.todo_iff cord).1 hc
  have hclen : cord < b.state.cells.length := by rw [h.len_cells]; exact hcN.1
  have hccords : cord ∉ b.cords_stack := inv_todo_cords_disjoint h cord hc
  refine ⟨?_, h.len_col, h.len_row, ?_, ?_, ?_, ?_, ?_, ?_, ?_, ?_, ?_⟩
  · rw [ps_cells_length, h.len_cells, ps_dim]
  · exact h.todo_nodup.erase cord
  · intro c
    rw [ps_todo, ps_dim, ps_cells_getD, h.todo_nodup.mem_erase_iff, h.todo_iff c]
    constructor
    · rintro ⟨hne, hlt, he⟩
      refine ⟨hlt, ?_⟩
      rw [if_neg (fun hh => hne hh.1.symm)]
      exact he
    · rintro ⟨hlt, he⟩
      by_cases hcc : c = cord
      · rw [if_pos ⟨hcc.symm, hcc ▸ hclen⟩] at he
        cases he
      · rw [if_neg (fun hh => hcc hh.1.symm)] at he
        exact ⟨hcc, hlt, he⟩
  · rw [ps_cords, List.nodup_append]
    exact ⟨h.cords_nodup, List.nodup_singleton cord,
      by simpa [List.disjoint_singleton] using hccords⟩
  · intro c hcm
    rw [ps_cords] at hcm
    rw [ps_dim]
    rcases List.mem_append.1 hcm with hcm | hcm
    · exact h.cords_lt c hcm
    · rw [List.mem_singleton.1 hcm]; exact hcN.1
  · intro q hq
    rw [ps_cords, List.length_append, List.length_singleton] at hq
    rw [ps_cords, ps_bt, ps_cells_getD]
    rcases Nat.lt_or_ge q b.cords_stack.length with hql | hqg
    · rw [getD_append_left hql]
      have hmemq : b.cords_stack.getD q 0 ∈ b.cords_stack := by
        rw [List.getD_eq_getElem?_getD, List.getElem?_eq_getElem hql, Option.getD_some]
        exact List.getElem_mem hql
      have hne : ¬ (cord = b.cords_stack.getD q 0 ∧ cord < b.state.cells.length) :=
        fun hh => hccords (hh.1 ▸ hmemq)
      rw [if_neg hne]
      have hmem : q + 1 ∈ b.backtrack_stack ++ [b.cords_stack.length + 1] ↔
          q + 1 ∈ b.backtrack_stack := by
        rw [List.mem_append, List.mem_singleton]
        constructor
        · rintro (hh | hh)
          · exact hh
          · omega
        · exact Or.inl
      rw [if_congr hmem rfl rfl]
      exact h.cords_cells q hql
    · have hq' : q = b.cords_stack.length := by omega
      rw [hq', getD_append_self, if_pos ⟨rfl, hclen⟩, if_pos]
      rw [List.mem_append, List.mem_singleton]
      right
      rfl
  · rw [ps_bt]
    rw [List.Sorted, List.pairwise_append]
    refine ⟨h.bt_sorted, List.pairwise_singleton _ _, ?_⟩
    intro a ha a' ha'
    rw [List.mem_singleton.1 ha']
    have := (h.bt_bounds a ha).2
    omega
  · intro i hi
    rw [ps_bt] at hi
    rw [ps_cords, List.length_append, List.length_singleton]
    rcases List.mem_append.1 hi with hi | hi
    · have := h.bt_bounds i hi
      omega
    · rw [List.mem_singleton.1 hi]
      omega
  · show b.tent_count + 1 = (b.state.cells.set cord Cell.Tent).countP _
    rw [List.countP_set _ _ _ _ hclen, h.tent_eq]
    have hg : b.state.cells[cord] = Cell.Empty := by
      have := hcN.2
      rwa [List.getD_eq_getElem?_getD, List.getElem?_eq_getElem hclen,
        Option.getD_some] at this
    rw [hg]
    simp
  · show b.tree_count = (b.state.cells.set cord Cell.Tent).countP _
    rw [List.countP_set _ _ _ _ hclen, h.tree_eq]
    have hg : b.state.cells[cord] = Cell.Empty := by
      have := hcN.2
      rwa [List.getD_eq_getElem?_getD, List.getElem?_eq_getElem hclen,
        Option.getD_some] at this
    rw [hg]
    simp

end PickStep

section TentStable

theorem mg_tent_stable (b : Backtrack) (x y c : Nat) (h : Inv b) :
    ((b.mark_green x y).state.cells.getD c Cell.Empty = Cell.Tent) ↔
      (b.state.cells.getD c Cell.Empty = Cell.Tent) := by
  rw [mg_cells_getD]
  split
  · rename_i hcond
    have hold : b.state.cells.getD c Cell.Empty = Cell.Empty := by
      rw [hcond.2.1]
      exact ((h.todo_iff _).1 hcond.1).2
    constructor
    · intro hh; cases hh
    · intro ht
      rw [hold] at ht; cases ht
  · exact Iff.rfl

theorem ml_tent_stable (b : Backtrack) (l : List (Nat × Nat)) (c : Nat) (h : Inv b) :
    ((b.markList l).state.cells.getD c Cell.Empty = Cell.Tent) ↔
      (b.state.cells.getD c Cell.Empty = Cell.Tent) := by
  induction l generalizing b with
  | nil => exact Iff.rfl
  | cons p l ih =>
    rw [markList_cons]
    rw [ih _ (mg_inv _ p.1 p.2 h)]
    exact mg_tent_stable b p.1 p.2 c h

end TentStable

section ColPhaseLemmas

variable (b : Backtrack) (x : Nat)

theorem cd_inv (hI : Inv b) : Inv (b.colDec x) := by
  refine ⟨hI.len_cells, ?_, hI.len_row, hI.todo_nodup, hI.todo_iff, hI.cords_nodup,
    hI.cords_lt, hI.cords_cells, hI.bt_sorted, hI.bt_bounds, hI.tent_eq, hI.tree_eq⟩
  show (b.state.col_tents.set _ _).length = b.state.dim
  rw [List.length_set]
  exact hI.len_col

theorem cd_count_self (hI : Inv b) (hx : x < b.state.dim) :
    (b.colDec x).state.col_tents.getD x 0 =
      (b.state.col_tents.getD x 0 + 255) % 256 := by
  show (b.state.col_tents.set x _).getD x 0 = _
  exact getD_set_self _ _ _ _ (by rw [hI.len_col]; exact hx)

theorem cd_count_other {x' : Nat} (hx' : x' ≠ x) :
    (b.colDec x).state.col_tents.getD x' 0 = b.state.col_tents.getD x' 0 := by
  show (b.state.col_tents.set x _).getD x' 0 = _
  exact getD_set_ne _ (Ne.symm hx') _ _

theorem cp_dim : (b.colPhase x).state.dim = b.state.dim := by
  unfold Backtrack.colPhase
  split
  · rw [ml_dim]
    rfl
  · rfl

theorem cp_row_tents : (b.colPhase x).state.row_tents = b.state.row_tents := by
  unfold Backtrack.colPhase
  split
  · rw [ml_row_tents]
    rfl
  · rfl

theorem cp_bt : (b.colPhase x).backtrack_stack = b.backtrack_stack := by
  unfold Backtrack.colPhase
  split
  · rw [ml_bt]
    rfl
  · rfl

theorem cp_cords_stack_eq : (b.colPhase x).cords_stack =
    ((b.colDec x).markList ((List.range (b.colDec x).state.dim).map
      (fun y2 => (x, y2)))).cords_stack ∨ (b.colPhase x).cords_stack = b.cords_stack := by
  unfold Backtrack.colPhase
  split
  · exact Or.inl rfl
  · exact Or.inr rfl

theorem cp_tent : (b.colPhase x).tent_count = b.tent_count := by
  unfold Backtrack.colPhase
  split
  · rw [ml_tent_count]
    rfl
  · rfl

theorem cp_tree : (b.colPhase x).tree_count = b.tree_count := by
  unfold Backtrack.colPhase
  split
  · rw [ml_tree_count]
    rfl
  · rfl

theorem cp_cells_length : (b.colPhase x).state.cells.length = b.state.cells.length := by
  unfold Backtrack.colPhase
  split
  · rw [ml_cells_length]
    rfl
  · rfl

theorem cp_col_tents : (b.colPhase x).state.col_tents = (b.colDec x).state.col_tents := by
  unfold Backtrack.colPhase
  split
  · rw [ml_col_tents]
  · rfl

theorem cp_count_self (hI : Inv b) (hx : x < b.state.dim)
    (hc1 : 1 ≤ b.state.col_tents.getD x 0) (hc255 : b.state.col_tents.getD x 0 ≤ 255) :
    (b.colPhase x).state.col_tents.getD x 0 = b.state.col_tents.getD x 0 - 1 := by
  rw [cp_col_tents, cd_count_self b x hI hx]
  omega

theorem cp_count_other {x' : Nat} (hx' : x' ≠ x) :
    (b.colPhase x).state.col_tents.getD x' 0 = b.state.col_tents.getD x' 0 := by
  rw [cp_col_tents, cd_count_other b x hx']

theorem cp_inv (hI : Inv b) : Inv (b.colPhase x) := by
  unfold Backtrack.colPhase
  split
  · exact ml_inv _ _ (cd_inv b x hI)
  · exact cd_inv b x hI

theorem cp_no_new_empty (c : Nat) (h : b.state.cells.getD c Cell.Empty ≠ Cell.Empty) :
    (b.colPhase x).state.cells.getD c Cell.Empty ≠ Cell.Empty := by
  unfold Backtrack.colPhase
  split
  · exact ml_no_new_empty (b.colDec x) _ c h
  · exact h

theorem cp_empty_mono (c : Nat)
    (h : (b.colPhase x).state.cells.getD c Cell.Empty = Cell.Empty) :
    b.state.cells.getD c Cell.Empty = Cell.Empty := by
  unfold Backtrack.colPhase at h
  split at h
  · exact ml_empty_mono (b.colDec x) _ c h
  · exact h

theorem cp_tent_stable (hI : Inv b) (c : Nat) :
    ((b.colPhase x).state.cells.getD c Cell.Empty = Cell.Tent) ↔
      (b.state.cells.getD c Cell.Empty = Cell.Tent) := by
  unfold Backtrack.colPhase
  split
  · exact ml_tent_stable (b.colDec x) _ c (cd_inv b x hI)
  · exact Iff.rfl

theorem cp_cords_append (hI : Inv b) :
    ∃ ms, (b.colPhase x).cords_stack = b.cords_stack ++ ms ∧
      ∀ e ∈ ms, b.state.cells.getD e Cell.Empty = Cell.Empty := by
  unfold Backtrack.colPhase
  split
  · exact ml_cords_append (b.colDec x) _ (cd_inv b x hI)
  · exact ⟨[], by simp [Backtrack.colDec], fun e he => absurd he (List.not_mem_nil e)⟩

theorem cp_cords_getD (hI : Inv b) (q : Nat) (hq : q < b.cords_stack.length) :
    (b.colPhase x).cords_stack.getD q 0 = b.cords_stack.getD q 0 := by
  obtain ⟨ms, hms, -⟩ := cp_cords_append b x hI
  rw [hms, getD_append_left hq]

theorem cp_cords_len_ge (hI : Inv b) :
    b.cords_stack.length ≤ (b.colPhase x).cords_stack.length := by
  obtain ⟨ms, hms, -⟩ := cp_cords_append b x hI
  rw [hms]
  simp

theorem cp_todo_len : (b.colPhase x).todo.length ≤ b.todo.length := by
  unfold Backtrack.colPhase
  split
  · exact ml_todo_length (b.colDec x) _
  · exact le_rfl

theorem cp_activeCol (hI : Inv b) (x' : Nat) :
    activeColCount (b.colPhase x) x' = activeColCount b x' := by
  unfold Backtrack.colPhase
  split
  · exact ml_activeCol (b.colDec x) _ (cd_inv b x hI) x'
  · rfl

theorem cp_activeRow (hI : Inv b) (y : Nat) :
    activeRowCount (b.colPhase x) y = activeRowCount b y := by
  unfold Backtrack.colPhase
  split
  · exact ml_activeRow (b.colDec x) _ (cd_inv b x hI) y
  · rfl

theorem cp_colZeroAt (hI : Inv b) (x' : Nat) (hA : ColZeroAt b x') :
    ColZeroAt (b.colPhase x) x' := by
  unfold Backtrack.colPhase
  split
  · exact ml_colZeroAt (b.colDec x) _ x' (cd_inv b x hI) hA
  · exact hA

theorem cp_rowZeroAt (hI : Inv b) (y : Nat) (hA : RowZeroAt b y) :
    RowZeroAt (b.colPhase x) y := by
  unfold Backtrack.colPhase
  split
  · exact ml_rowZeroAt (b.colDec x) _ y (cd_inv b x hI) hA
  · exact hA

theorem cp_colZero_self (hI : Inv b) (hx : x < b.state.dim)
    (hwit : ∃ i ∈ b.backtrack_stack, b.cords_stack.getD (i - 1) 0 % b.state.dim = x ∧
      ∀ o ∈ b.backtrack_stack, ¬ i < o)
    (hzero : (b.colDec x).state.col_tents.getD x 0 = 0) :
    ColZeroAt (b.colPhase x) x := by
  unfold Backtrack.colPhase
  rw [if_pos hzero]
  constructor
  · intro y hy
    rw [ml_dim] at hy
    have hyb : y < b.state.dim := hy
    have hp : (x, y) ∈ (List.range (b.colDec x).state.dim).map (fun y2 => (x, y2)) := by
      rw [List.mem_map]
      exact ⟨y, List.mem_range.2 hyb, rfl⟩
    have := ml_covers (b.colDec x) _ (cd_inv b x hI) (x, y) hp
      (by show x + y * b.state.dim < b.state.dim * b.state.dim; exact idx_lt x y hx hyb)
    rw [ml_dim]
    exact this
  · right
    obtain ⟨i, hi, hie, hmax⟩ := hwit
    have hiq : i - 1 < b.cords_stack.length := by
      have := hI.bt_bounds i hi; omega
    refine ⟨i, by rw [ml_bt]; exact hi, ?_, ?_⟩
    · rw [ml_dim, ml_cords_getD _ _ (cd_inv b x hI) _ hiq]
      exact hie
    · intro o ho hio
      rw [ml_bt] at ho
      exact absurd hio (hmax o ho)

end ColPhaseLemmas

section RowPhaseLemmas

variable (b : Backtrack) (y : Nat)

theorem rd_inv (hI : Inv b) : Inv (b.rowDec y) := by
  refine ⟨hI.len_cells, hI.len_col, ?_, hI.todo_nodup, hI.todo_iff, hI.cords_nodup,
    hI.cords_lt, hI.cords_cells, hI.bt_sorted, hI.bt_bounds, hI.tent_eq, hI.tree_eq⟩
  show (b.state.row_tents.set _ _).length = b.state.dim
  rw [List.length_set]
  exact hI.len_row

theorem rd_count_self (hI : Inv b) (hy : y < b.state.dim) :
    (b.rowDec y).state.row_tents.getD y 0 =
      (b.state.row_tents.getD y 0 + 255) % 256 := by
  show (b.state.row_tents.set y _).getD y 0 = _
  exact getD_set_self _ _ _ _ (by rw [hI.len_row]; exact hy)

theorem rd_count_other {y' : Nat} (hy' : y' ≠ y) :
    (b.rowDec y).state.row_tents.getD y' 0 = b.state.row_tents.getD y' 0 := by
  show (b.state.row_tents.set y _).getD y' 0 = _
  exact getD_set_ne _ (Ne.symm hy') _ _

theorem rp_dim : (b.rowPhase y).state.dim = b.state.dim := by
  unfold Backtrack.rowPhase
  split
  · rw [ml_dim]
    rfl
  · rfl

theorem rp_col_tents : (b.rowPhase y).state.col_tents = b.state.col_tents := by
  unfold Backtrack.rowPhase
  split
  · rw [ml_col_tents]
    rfl
  · rfl

theorem rp_bt : (b.rowPhase y).backtrack_stack = b.backtrack_stack := by
  unfold Backtrack.rowPhase
  split
  · rw [ml_bt]
    rfl
  · rfl

theorem rp_tent : (b.rowPhase y).tent_count = b.tent_count := by
  unfold Backtrack.rowPhase
  split
  · rw [ml_tent_count]
    rfl
  · rfl

theorem rp_tree : (b.rowPhase y).tree_count = b.tree_count := by
  unfold Backtrack.rowPhase
  split
  · rw [ml_tree_count]
    rfl
  · rfl

theorem rp_cells_length : (b.rowPhase y).state.cells.length = b.state.cells.length := by
  unfold Backtrack.rowPhase
  split
  · rw [ml_cells_length]
    rfl
  · rfl

theorem rp_row_tents : (b.rowPhase y).state.row_tents = (b.rowDec y).state.row_tents := by
  unfold Backtrack.rowPhase
  split
  · rw [ml_row_tents]
  · rfl

theorem rp_count_self (hI : Inv b) (hy : y < b.state.dim)
    (hc1 : 1 ≤ b.state.row_tents.getD y 0) (hc255 : b.state.row_tents.getD y 0 ≤ 255) :
    (b.rowPhase y).state.row_tents.getD y 0 = b.state.row_tents.getD y 0 - 1 := by
  rw [rp_row_tents, rd_count_self b y hI hy]
  omega

theorem rp_count_other {y' : Nat} (hy' : y' ≠ y) :
    (b.rowPhase y).state.row_tents.getD y' 0 = b.state.row_tents.getD y' 0 := by
  rw [rp_row_tents, rd_count_other b y hy']

theorem rp_inv (hI : Inv b) : Inv (b.rowPhase y) := by
  unfold Backtrack.rowPhase
  split
  · exact ml_inv _ _ (rd_inv b y hI)
  · exact rd_inv b y hI

theorem rp_no_new_empty (c : Nat) (h : b.state.cells.getD c Cell.Empty ≠ Cell.Empty) :
    (b.rowPhase y).state.cells.getD c Cell.Empty ≠ Cell.Empty := by
  unfold Backtrack.rowPhase
  split
  · exact ml_no_new_empty (b.rowDec y) _ c h
  · exact h

theorem rp_empty_mono (c : Nat)
    (h : (b.rowPhase y).state.cells.getD c Cell.Empty = Cell.Empty) :
    b.state.cells.getD c Cell.Empty = Cell.Empty := by
  unfold Backtrack.rowPhase at h
  split at h
  · exact ml_empty_mono (b.rowDec y) _ c h
  · exact h

theorem rp_tent_stable (hI : Inv b) (c : Nat) :
    ((b.rowPhase y).state.cells.getD c Cell.Empty = Cell.Tent) ↔
      (b.state.cells.getD c Cell.Empty = Cell.Tent) := by
  unfold Backtrack.rowPhase
  split
  · exact ml_tent_stable (b.rowDec y) _ c (rd_inv b y hI)
  · exact Iff.rfl

theorem rp_cords_append (hI : Inv b) :
    ∃ ms, (b.rowPhase y).cords_stack = b.cords_stack ++ ms ∧
      ∀ e ∈ ms, b.state.cells.getD e Cell.Empty = Cell.Empty := by
  unfold Backtrack.rowPhase
  split
  · exact ml_cords_append (b.rowDec y) _ (rd_inv b y hI)
  · exact ⟨[], by simp [Backtrack.rowDec], fun e he => absurd he (List.not_mem_nil e)⟩

theorem rp_cords_getD (hI : Inv b) (q : Nat) (hq : q < b.cords_stack.length) :
    (b.rowPhase y).cords_stack.getD q 0 = b.cords_stack.getD q 0 := by
  obtain ⟨ms, hms, -⟩ := rp_cords_append b y hI
  rw [hms, getD_append_left hq]

theorem rp_cords_len_ge (hI : Inv b) :
    b.cords_stack.length ≤ (b.rowPhase y).cords_stack.length := by
  obtain ⟨ms, hms, -⟩ := rp_cords_append b y hI
  rw [hms]
  simp

theorem rp_todo_len : (b.rowPhase y).todo.length ≤ b.todo.length := by
  unfold Backtrack.rowPhase
  split
  · exact ml_todo_length (b.rowDec y) _
  · exact le_rfl

theorem rp_activeCol (hI : Inv b) (x : Nat) :
    activeColCount (b.rowPhase y) x = activeColCount b x := by
  unfold Backtrack.rowPhase
  split
  · exact ml_activeCol (b.rowDec y) _ (rd_inv b y hI) x
  · rfl

theorem rp_activeRow (hI : Inv b) (y' : Nat) :
    activeRowCount (b.rowPhase y) y' = activeRowCount b y' := by
  unfold Backtrack.rowPhase
  split
  · exact ml_activeRow (b.rowDec y) _ (rd_inv b y hI) y'
  · rfl

theorem rp_colZeroAt (hI : Inv b) (x : Nat) (hA : ColZeroAt b x) :
    ColZeroAt (b.rowPhase y) x := by
  unfold Backtrack.rowPhase
  split
  · exact ml_colZeroAt (b.rowDec y) _ x (rd_inv b y hI) hA
  · exact hA

theorem rp_rowZeroAt (hI : Inv b) (y' : Nat) (hA : RowZeroAt b y') :
    RowZeroAt (b.rowPhase y) y' := by
  unfold Backtrack.rowPhase
  split
  · exact ml_rowZeroAt (b.rowDec y) _ y' (rd_inv b y hI) hA
  · exact hA

theorem rp_rowZero_self (hI : Inv b) (hy : y < b.state.dim)
    (hwit : ∃ i ∈ b.backtrack_stack, b.cords_stack.getD (i - 1) 0 / b.state.dim = y ∧
      ∀ o ∈ b.backtrack_stack, ¬ i < o)
    (hzero : (b.rowDec y).state.row_tents.getD y 0 = 0) :
    RowZeroAt (b.rowPhase y) y := by
  unfold Backtrack.rowPhase
  rw [if_pos hzero]
  constructor
  · intro x hx
    rw [ml_dim] at hx
    have hxb : x < b.state.dim := hx
    have hp : (x, y) ∈ (List.range (b.rowDec y).state.dim).map (fun x2 => (x2, y)) := by
      rw [List.mem_map]
      exact ⟨x, List.mem_range.2 hxb, rfl⟩
    have := ml_covers (b.rowDec y) _ (rd_inv b y hI) (x, y) hp
      (by show x + y * b.state.dim < b.state.dim * b.state.dim; exact idx_lt x y hxb hy)
    rw [ml_dim]
    exact this
  · right
    obtain ⟨i, hi, hie, hmax⟩ := hwit
    have hiq : i - 1 < b.cords_stack.length := by
      have := hI.bt_bounds i hi; omega
    refine ⟨i, by rw [ml_bt]; exact hi, ?_, ?_⟩
    · rw [ml_dim, ml_cords_getD _ _ (rd_inv b y hI) _ hiq]
      exact hie
    · intro o ho hio
      rw [ml_bt] at ho
      exact absurd hio (hmax o ho)

end RowPhaseLemmas

section PickStepMore

variable (b : Backtrack) (cord : Nat)

theorem ps_no_new_empty (c : Nat) (h : b.state.cells.getD c Cell.Empty ≠ Cell.Empty) :
    (b.pickStep cord).state.cells.getD c Cell.Empty ≠ Cell.Empty := by
  rw [ps_cells_getD]
  split
  · intro hh; cases hh
  · exact h

theorem ps_activeCol (hI : Inv b) (x : Nat) :
    activeColCount (b.pickStep cord) x =
      activeColCount b x + (if cord % b.state.dim = x then 1 else 0) := by
  unfold activeColCount
  rw [ps_bt, ps_cords, ps_dim, List.countP_append]
  congr 1
  · apply List.countP_congr
    intro i hi
    have hb := hI.bt_bounds i hi
    have hq : i - 1 < b.cords_stack.length := by omega
    rw [getD_append_left hq]
  · have : b.cords_stack.length + 1 - 1 = b.cords_stack.length := by omega
    rw [List.countP_singleton, this, getD_append_self]
    split <;> simp_all

theorem ps_activeRow (hI : Inv b) (y : Nat) :
    activeRowCount (b.pickStep cord) y =
      activeRowCount b y + (if cord / b.state.dim = y then 1 else 0) := by
  unfold activeRowCount
  rw [ps_bt, ps_cords, ps_dim, List.countP_append]
  congr 1
  · apply List.countP_congr
    intro i hi
    have hb := hI.bt_bounds i hi
    have hq : i - 1 < b.cords_stack.length := by omega
    rw [getD_append_left hq]
  · have : b.cords_stack.length + 1 - 1 = b.cords_stack.length := by omega
    rw [List.countP_singleton, this, getD_append_self]
    split <;> simp_all

theorem ps_colZeroAt (hI : Inv b) (hc : cord ∈ b.todo) (x : Nat)
    (hA : ColZeroAt b x) : ColZeroAt (b.pickStep cord) x := by
  obtain ⟨hA1, hA2⟩ := hA
  have hcN := (hI.todo_iff cord).1 hc
  have hn : 0 < b.state.dim := by
    rcases Nat.eq_zero_or_pos b.state.dim with h0 | h0
    · rw [h0] at hcN; omega
    · exact h0
  have hcnx : cord % b.state.dim ≠ x := by
    intro hex
    have hyd : cord / b.state.dim < b.state.dim := div_lt_of_lt_sq hcN.1
    have := hA1 (cord / b.state.dim) hyd
    rw [← hex, idx_recompose] at this
    exact this hcN.2
  constructor
  · intro y hy
    rw [ps_dim] at hy
    rw [ps_dim]
    exact ps_no_new_empty b cord _ (hA1 y hy)
  · rw [ps_cords, ps_bt, ps_dim]
    rcases hA2 with hL | ⟨i, hi, hie, hcond⟩
    · left
      intro q hq
      rw [List.length_append, List.length_singleton] at hq
      rcases Nat.lt_or_ge q b.cords_stack.length with hql | hqg
      · rw [getD_append_left hql]; exact hL q hql
      · have : q = b.cords_stack.length := by omega
        rw [this, getD_append_self]
        exact hcnx
    · right
      have hiq : i - 1 < b.cords_stack.length := by
        have := hI.bt_bounds i hi; omega
      refine ⟨i, List.mem_append_left _ hi, by rw [getD_append_left hiq]; exact hie, ?_⟩
      intro o ho hio q hq hqx
      rw [List.length_append, List.length_singleton] at hq
      have hqlt : q < b.cords_stack.length := by
        rcases Nat.lt_or_ge q b.cords_stack.length with hql | hqg
        · exact hql
        · have hq' : q = b.cords_stack.length := by omega
          rw [hq', getD_append_self] at hqx
          exact absurd hqx hcnx
      rw [getD_append_left hqlt] at hqx
      rcases List.mem_append.1 ho with ho | ho
      · exact hcond o ho hio q hqlt hqx
      · rw [List.mem_singleton.1 ho]
        have := (hI.bt_bounds i hi).2
        omega

theorem ps_rowZeroAt (hI : Inv b) (hc : cord ∈ b.todo) (y : Nat)
    (hA : RowZeroAt b y) : RowZeroAt (b.pickStep cord) y := by
  obtain ⟨hA1, hA2⟩ := hA
  have hcN := (hI.todo_iff cord).1 hc
  have hn : 0 < b.state.dim := by
    rcases Nat.eq_zero_or_pos b.state.dim with h0 | h0
    · rw [h0] at hcN; omega
    · exact h0
  have hcny : cord / b.state.dim ≠ y := by
    intro hey
    have hxd : cord % b.state.dim < b.state.dim := Nat.mod_lt _ hn
    have := hA1 (cord % b.state.dim) hxd
    rw [← hey, idx_recompose] at this
    exact this hcN.2
  constructor
  · intro x hx
    rw [ps_dim] at hx
    rw [ps_dim]
    exact ps_no_new_empty b cord _ (hA1 x hx)
  · rw [ps_cords, ps_bt, ps_dim]
    rcases hA2 with hL | ⟨i, hi, hie, hcond⟩
    · left
      intro q hq
      rw [List.length_append, List.length_singleton] at hq
      rcases Nat.lt_or_ge q b.cords_stack.length with hql | hqg
      · rw [getD_append_left hql]; exact hL q hql
      · have : q = b.cords_stack.length := by omega
        rw [this, getD_append_self]
        exact hcny
    · right
      have hiq : i - 1 < b.cords_stack.length := by
        have := hI.bt_bounds i hi; omega
      refine ⟨i, List.mem_append_left _ hi, by rw [getD_append_left hiq]; exact hie, ?_⟩
      intro o ho hio q hq hqy
      rw [List.length_append, List.length_singleton] at hq
      have hqlt : q < b.cords_stack.length := by
        rcases Nat.lt_or_ge q b.cords_stack.length with hql | hqg
        · exact hql
        · have hq' : q = b.cords_stack.length := by omega
          rw [hq', getD_append_self] at hqy
          exact absurd hqy hcny
      rw [getD_append_left hqlt] at hqy
      rcases List.mem_append.1 ho with ho | ho
      · exact hcond o ho hio q hqlt hqy
      · rw [List.mem_singleton.1 ho]
        have := (hI.bt_bounds i hi).2
        omega

end PickStepMore

section PlaceLemmas

variable (b : Backtrack) (cord : Nat)

theorem place_eq :
    b.place cord =
      (((b.pickStep cord).colPhase (cord % b.state.dim)).rowPhase
        (cord / b.state.dim)).markList
          (neighborList b.state.dim (cord % b.state.dim) (cord / b.state.dim)) := rfl

theorem place_dim : (b.place cord).state.dim = b.state.dim := by
  rw [place_eq, ml_dim, rp_dim, cp_dim, ps_dim]

theorem place_bt : (b.place cord).backtrack_stack =
    b.backtrack_stack ++ [b.cords_stack.length + 1] := by
  rw [place_eq, ml_bt, rp_bt, cp_bt, ps_bt]

theorem place_tent : (b.place cord).tent_count = b.tent_count + 1 := by
  rw [place_eq, ml_tent_count, rp_tent, cp_tent, ps_tent]

theorem place_tree : (b.place cord).tree_count = b.tree_count := by
  rw [place_eq, ml_tree_count, rp_tree, cp_tree, ps_tree]

theorem place_cells_length : (b.place cord).state.cells.length = b.state.cells.length := by
  rw [place_eq, ml_cells_length, rp_cells_length, cp_cells_length, ps_cells_length]

theorem place_inv (hI : Inv b) (hc : cord ∈ b.todo) : Inv (b.place cord) := by
  rw [place_eq]
  exact ml_inv _ _ (rp_inv _ _ (cp_inv _ _ (pickStep_inv b cord hI hc)))

theorem place_todo_len (hc : cord ∈ b.todo) :
    (b.place cord).todo.length + 1 ≤ b.todo.length := by
  rw [place_eq]
  have h1 : (b.pickStep cord).todo.length + 1 = b.todo.length := by
    rw [ps_todo, List.length_erase_of_mem hc]
    have : b.todo ≠ [] := fun hh => by rw [hh] at hc; cases hc
    have : 0 < b.todo.length := List.length_pos.2 this
    omega
  calc _ + 1 ≤ (((b.pickStep cord).colPhase (cord % b.state.dim)).rowPhase
        (cord / b.state.dim)).todo.length + 1 := by
        have := ml_todo_length (((b.pickStep cord).colPhase (cord % b.state.dim)).rowPhase
          (cord / b.state.dim)) (neighborList b.state.dim (cord % b.state.dim)
            (cord / b.state.dim))
        omega
    _ ≤ ((b.pickStep cord).colPhase (cord % b.state.dim)).todo.length + 1 := by
        have := rp_todo_len ((b.pickStep cord).colPhase (cord % b.state.dim))
          (cord / b.state.dim)
        omega
    _ ≤ (b.pickStep cord).todo.length + 1 := by
        have := cp_todo_len (b.pickStep cord) (cord % b.state.dim)
        omega
    _ = b.todo.length := h1

theorem place_cords_getD (hI : Inv b) (hc : cord ∈ b.todo) (q : Nat)
    (hq : q < b.cords_stack.length + 1) :
    (b.place cord).cords_stack.getD q 0 = (b.cords_stack ++ [cord]).getD q 0 := by
  rw [place_eq]
  have hI1 : Inv (b.pickStep cord) := pickStep_inv b cord hI hc
  have hI2 : Inv ((b.pickStep cord).colPhase (cord % b.state.dim)) := cp_inv _ _ hI1
  have hI3 := rp_inv ((b.pickStep cord).colPhase (cord % b.state.dim))
    (cord / b.state.dim) hI2
  have hq1 : q < (b.pickStep cord).cords_stack.length := by
    rw [ps_cords, List.length_append, List.length_singleton]
    omega
  have hq2 : q < ((b.pickStep cord).colPhase (cord % b.state.dim)).cords_stack.length :=
    lt_of_lt_of_le hq1 (cp_cords_len_ge _ _ hI1)
  have hq3 : q < (((b.pickStep cord).colPhase (cord % b.state.dim)).rowPhase
      (cord / b.state.dim)).cords_stack.length :=
    lt_of_lt_of_le hq2 (rp_cords_len_ge _ _ hI2)
  rw [ml_cords_getD _ _ hI3 q hq3, rp_cords_getD _ _ hI2 q hq2,
    cp_cords_getD _ _ hI1 q hq1, ps_cords]

theorem place_cords_len_ge (hI : Inv b) (hc : cord ∈ b.todo) :
    b.cords_stack.length + 1 ≤ (b.place cord).cords_stack.length := by
  rw [place_eq]
  have hI1 : Inv (b.pickStep cord) := pickStep_inv b cord hI hc
  have hI2 : Inv ((b.pickStep cord).colPhase (cord % b.state.dim)) := cp_inv _ _ hI1
  have hI3 := rp_inv ((b.pickStep cord).colPhase (cord % b.state.dim))
    (cord / b.state.dim) hI2
  have h1 : b.cords_stack.length + 1 = (b.pickStep cord).cords_stack.length := by
    rw [ps_cords, List.length_append, List.length_singleton]
  calc b.cords_stack.length + 1
      = (b.pickStep cord).cords_stack.length := h1
    _ ≤ ((b.pickStep cord).colPhase (cord % b.state.dim)).cords_stack.length :=
        cp_cords_len_ge _ _ hI1
    _ ≤ (((b.pickStep cord).colPhase (cord % b.state.dim)).rowPhase
          (cord / b.state.dim)).cords_stack.length := rp_cords_len_ge _ _ hI2
    _ ≤ _ := ml_cords_length_ge _ _ hI3

theorem place_z (hI : Inv b) (hZ : ZInv b) (hc : cord ∈ b.todo) :
    ZInv (b.place cord) := by
  have hcN := (hI.todo_iff cord).1 hc
  have hn : 0 < b.state.dim := by
    rcases Nat.eq_zero_or_pos b.state.dim with h0 | h0
    · rw [h0] at hcN; omega
    · exact h0
  have hxc : cord % b.state.dim < b.state.dim := Nat.mod_lt _ hn
  have hyc : cord / b.state.dim < b.state.dim := div_lt_of_lt_sq hcN.1
  have hrec : cord % b.state.dim + cord / b.state.dim * b.state.dim = cord :=
    idx_recompose _ _
  have hc1 : 1 ≤ b.state.col_tents.getD (cord % b.state.dim) 0 := by
    by_contra hcc
    push_neg at hcc
    have h0 : b.state.col_tents.getD (cord % b.state.dim) 0 = 0 := by omega
    have := (hZ.col_zero _ hxc h0).1 (cord / b.state.dim) hyc
    rw [hrec] at this
    exact this hcN.2
  have hr1 : 1 ≤ b.state.row_tents.getD (cord / b.state.dim) 0 := by
    by_contra hcc
    push_neg at hcc
    have h0 : b.state.row_tents.getD (cord / b.state.dim) 0 = 0 := by omega
    have := (hZ.row_zero _ hyc h0).1 (cord % b.state.dim) hxc
    rw [hrec] at this
    exact this hcN.2
  have hc255 : b.state.col_tents.getD (cord % b.state.dim) 0 ≤ 255 := by
    have := hZ.col_bound _ hxc
    omega
  have hr255 : b.state.row_tents.getD (cord / b.state.dim) 0 ≤ 255 := by
    have := hZ.row_bound _ hyc
    omega
  have hI1 : Inv (b.pickStep cord) := pickStep_inv b cord hI hc
  have hI2 : Inv ((b.pickStep cord).colPhase (cord % b.state.dim)) := cp_inv _ _ hI1
  have hI3 := rp_inv ((b.pickStep cord).colPhase (cord % b.state.dim))
    (cord / b.state.dim) hI2
  set B1 := b.pickStep cord with hB1
  set B2 := B1.colPhase (cord % b.state.dim) with hB2
  set B3 := B2.rowPhase (cord / b.state.dim) with hB3
  -- dimensions of the intermediate states
  have hd1 : B1.state.dim = b.state.dim := ps_dim b cord
  have hd2 : B2.state.dim = b.state.dim := by rw [hB2, cp_dim, hd1]
  have hd3 : B3.state.dim = b.state.dim := by rw [hB3, rp_dim, hd2]
  -- counters after the two phases
  have hcol1 : B1.state.col_tents = b.state.col_tents := ps_col_tents b cord
  have hrow1 : B1.state.row_tents = b.state.row_tents := ps_row_tents b cord
  have hcolB2self : B2.state.col_tents.getD (cord % b.state.dim) 0 =
      b.state.col_tents.getD (cord % b.state.dim) 0 - 1 := by
    rw [hB2, cp_count_self B1 _ hI1 (by rw [hd1]; exact hxc) (by rw [hcol1]; exact hc1)
      (by rw [hcol1]; exact hc255), hcol1]
  have hcolB2other : ∀ x', x' ≠ cord % b.state.dim →
      B2.state.col_tents.getD x' 0 = b.state.col_tents.getD x' 0 := by
    intro x' hx'
    rw [hB2, cp_count_other B1 _ hx', hcol1]
  have hrowB2 : B2.state.row_tents = b.state.row_tents := by
    rw [hB2, cp_row_tents, hrow1]
  have hcolB3 : B3.state.col_tents = B2.state.col_tents := by
    rw [hB3, rp_col_tents]
  have hrowB3self : B3.state.row_tents.getD (cord / b.state.dim) 0 =
      b.state.row_tents.getD (cord / b.state.dim) 0 - 1 := by
    rw [hB3, rp_count_self B2 _ hI2 (by rw [hd2]; exact hyc) (by rw [hrowB2]; exact hr1)
      (by rw [hrowB2]; exact hr255), hrowB2]
  have hrowB3other : ∀ y', y' ≠ cord / b.state.dim →
      B3.state.row_tents.getD y' 0 = b.state.row_tents.getD y' 0 := by
    intro y' hy'
    rw [hB3, rp_count_other B2 _ hy', hrowB2]
  -- active tents per line after the pick
  have hacol1 : ∀ x, activeColCount B1 x =
      activeColCount b x + (if cord % b.state.dim = x then 1 else 0) :=
    fun x => ps_activeCol b cord hI x
  have harow1 : ∀ y, activeRowCount B1 y =
      activeRowCount b y + (if cord / b.state.dim = y then 1 else 0) :=
    fun y => ps_activeRow b cord hI y
  have hacol3 : ∀ x, activeColCount B3 x = activeColCount B1 x := by
    intro x
    rw [hB3, rp_activeCol B2 _ hI2, hB2, cp_activeCol B1 _ hI1]
  have harow3 : ∀ y, activeRowCount B3 y = activeRowCount B1 y := by
    intro y
    rw [hB3, rp_activeRow B2 _ hI2, hB2, cp_activeRow B1 _ hI1]
  -- zero-line facts after the three phases
  have hCZ3 : ∀ x, x < b.state.dim → B3.state.col_tents.getD x 0 = 0 → ColZeroAt B3 x := by
    intro x hx h0
    by_cases hxx : x = cord % b.state.dim
    · subst hxx
      have hwit : ∃ i ∈ (b.pickStep cord).backtrack_stack,
          (b.pickStep cord).cords_stack.getD (i - 1) 0 % (b.pickStep cord).state.dim
            = cord % b.state.dim ∧
          ∀ o ∈ (b.pickStep cord).backtrack_stack, ¬ i < o := by
        refine ⟨b.cords_stack.length + 1, ?_, ?_, ?_⟩
        · rw [ps_bt]
          exact List.mem_append_right _ (List.mem_singleton.2 rfl)
        · have hl : b.cords_stack.length + 1 - 1 = b.cords_stack.length := by omega
          rw [hl, ps_cords, ps_dim, getD_append_self]
        · intro o ho
          rw [ps_bt] at ho
          rcases List.mem_append.1 ho with ho | ho
          · have := (hI.bt_bounds o ho).2
            omega
          · rw [List.mem_singleton.1 ho]
            omega
      have hzeroDec :
          ((b.pickStep cord).colDec (cord % b.state.dim)).state.col_tents.getD
            (cord % b.state.dim) 0 = 0 := by
        have h2 : B2.state.col_tents.getD (cord % b.state.dim) 0 = 0 := by
          rw [← hcolB3]; exact h0
        rw [hB2, hB1, cp_col_tents] at h2
        exact h2
      have hself := cp_colZero_self (b.pickStep cord) (cord % b.state.dim) hI1
        (by rw [ps_dim]; exact hxc) hwit hzeroDec
      exact rp_colZeroAt ((b.pickStep cord).colPhase (cord % b.state.dim))
        (cord / b.state.dim) hI2 (cord % b.state.dim) hself
    · have hb0 : b.state.col_tents.getD x 0 = 0 := by
        rw [← hcolB2other x hxx, ← hcolB3]
        exact h0
      have hA := hZ.col_zero x hx hb0
      exact rp_colZeroAt B2 _ hI2 x
        (cp_colZeroAt B1 _ hI1 x (ps_colZeroAt b cord hI hc x hA))
  have hRZ3 : ∀ y, y < b.state.dim → B3.state.row_tents.getD y 0 = 0 → RowZeroAt B3 y := by
    intro y hy h0
    by_cases hyy : y = cord / b.state.dim
    · subst hyy
      have hwit : ∃ i ∈ ((b.pickStep cord).colPhase (cord % b.state.dim)).backtrack_stack,
          ((b.pickStep cord).colPhase (cord % b.state.dim)).cords_stack.getD (i - 1) 0 /
            ((b.pickStep cord).colPhase (cord % b.state.dim)).state.dim
            = cord / b.state.dim ∧
          ∀ o ∈ ((b.pickStep cord).colPhase (cord % b.state.dim)).backtrack_stack,
            ¬ i < o := by
        refine ⟨b.cords_stack.length + 1, ?_, ?_, ?_⟩
        · rw [cp_bt, ps_bt]
          exact List.mem_append_right _ (List.mem_singleton.2 rfl)
        · have hl : b.cords_stack.length + 1 - 1 = b.cords_stack.length := by omega
          have hq1 : b.cords_stack.length < (b.pickStep cord).cords_stack.length := by
            rw [ps_cords, List.length_append, List.length_singleton]
            omega
          rw [hl, cp_dim, ps_dim,
            cp_cords_getD (b.pickStep cord) (cord % b.state.dim) hI1 _ hq1,
            ps_cords, getD_append_self]
        · intro o ho
          rw [cp_bt, ps_bt] at ho
          rcases List.mem_append.1 ho with ho | ho
          · have := (hI.bt_bounds o ho).2
            omega
          · rw [List.mem_singleton.1 ho]
            omega
      have hzeroDec :
          (((b.pickStep cord).colPhase (cord % b.state.dim)).rowDec
            (cord / b.state.dim)).state.row_tents.getD (cord / b.state.dim) 0 = 0 := by
        have h3 : B3.state.row_tents.getD (cord / b.state.dim) 0 = 0 := h0
        rw [hB3, hB2, hB1, rp_row_tents] at h3
        exact h3
      exact rp_rowZero_self ((b.pickStep cord).colPhase (cord % b.state.dim))
        (cord / b.state.dim) hI2 (by rw [cp_dim, ps_dim]; exact hyc) hwit hzeroDec
    · have hb0 : b.state.row_tents.getD y 0 = 0 := by
        rw [← hrowB3other y hyy]
        exact h0
      have hA := hZ.row_zero y hy hb0
      exact rp_rowZeroAt B2 _ hI2 y
        (cp_rowZeroAt B1 _ hI1 y (ps_rowZeroAt b cord hI hc y hA))
  -- assemble the invariant for the final marking stage
  rw [place_eq, ← hB1, ← hB2, ← hB3]
  have hI3' : Inv B3 := hI3
  constructor
  · intro x hx
    rw [ml_dim, hd3] at hx
    rw [ml_col_tents, ml_activeCol B3 _ hI3' x, hacol3 x, hacol1 x]
    by_cases hxx : cord % b.state.dim = x
    · subst hxx
      rw [hcolB3, hcolB2self, if_pos rfl]
      have := hZ.col_bound _ hxc
      omega
    · rw [hcolB3, hcolB2other x (fun hh => hxx hh.symm), if_neg hxx]
      have := hZ.col_bound x hx
      omega
  · intro y hy
    rw [ml_dim, hd3] at hy
    rw [ml_row_tents, ml_activeRow B3 _ hI3' y, harow3 y, harow1 y]
    by_cases hyy : cord / b.state.dim = y
    · subst hyy
      rw [hrowB3self, if_pos rfl]
      have := hZ.row_bound _ hyc
      omega
    · rw [hrowB3other y (fun hh => hyy hh.symm), if_neg hyy]
      have := hZ.row_bound y hy
      omega
  · intro x hx h0
    rw [ml_dim, hd3] at hx
    rw [ml_col_tents] at h0
    exact ml_colZeroAt B3 _ x hI3' (hCZ3 x hx h0)
  · intro y hy h0
    rw [ml_dim, hd3] at hy
    rw [ml_row_tents] at h0
    exact ml_rowZeroAt B3 _ y hI3' (hRZ3 y hy h0)

end PlaceLemmas

section PopInvariant

/-- A member of a dropped suffix, located by its offset in the full list. -/
theorem mem_drop_getD {l : List Nat} {i c : Nat} (h : c ∈ l.drop i) :
    ∃ q, i ≤ q ∧ q < l.length ∧ l.getD q 0 = c := by
  obtain ⟨j, hj, hjc⟩ := List.getElem_of_mem h
  have hlen : i + j < l.length := by
    rw [List.length_drop] at hj
    omega
  refine ⟨i + j, by omega, hlen, ?_⟩
  calc l.getD (i + j) 0 = l[i + j] := by
        rw [List.getD_eq_getElem?_getD, List.getElem?_eq_getElem hlen, Option.getD_some]
    _ = (l.drop i)[j] := (List.getElem_drop l).symm
    _ = c := hjc

theorem getD_mem {l : List Nat} {q : Nat} (h : q < l.length) : l.getD q 0 ∈ l := by
  rw [List.getD_eq_getElem?_getD, List.getElem?_eq_getElem h, Option.getD_some]
  exact List.getElem_mem h

theorem getD_inj {l : List Nat} (hnd : l.Nodup) {i j : Nat} (hi : i < l.length)
    (hj : j < l.length) (h : l.getD i 0 = l.getD j 0) : i = j := by
  rw [List.getD_eq_getElem?_getD, List.getElem?_eq_getElem hi, Option.getD_some,
    List.getD_eq_getElem?_getD, List.getElem?_eq_getElem hj, Option.getD_some] at h
  exact (List.Nodup.getElem_inj_iff hnd).1 h

/-- The backtrack stack splits off its popped last element. -/
theorem bt_split {b : Backtrack} {o : Nat} (ho : b.backtrack_stack.getLast? = some o) :
    b.backtrack_stack = b.backtrack_stack.dropLast ++ [o] := by
  obtain ⟨l', hl'⟩ := List.getLast?_eq_some_iff.mp ho
  rw [hl', List.dropLast_concat]

/-- Every surviving choice point lies strictly below the popped one. -/
theorem bt_dropLast_lt {b : Backtrack} {o : Nat} (hI : Inv b)
    (ho : b.backtrack_stack.getLast? = some o) :
    ∀ i ∈ b.backtrack_stack.dropLast, i < o := by
  intro i hi
  have hp : List.Pairwise (· < ·) (b.backtrack_stack.dropLast ++ [o]) := by
    rw [← bt_split ho]
    exact hI.bt_sorted
  exact (List.pairwise_append.1 hp).2.2 i hi o (List.mem_singleton.2 rfl)

/-- The popped cell is the trail entry right below the popped offset. -/
theorem pop_c0 {b : Backtrack} {o : Nat} (h1 : 1 ≤ o) (h2 : o ≤ b.cords_stack.length) :
    (b.cords_stack.take o).getLastD 0 = b.cords_stack.getD (o - 1) 0 := by
  rw [List.getLastD_eq_getLast?, List.getLast?_eq_getElem?, List.length_take]
  have hmin : min o b.cords_stack.length = o := by omega
  rw [hmin]
  have hlt : o - 1 < o := by omega
  rw [List.getElem?_take_of_lt hlt, List.getD_eq_getElem?_getD]

theorem pop_cells_length (b : Backtrack) (i : Nat) :
    (b.pop i).state.cells.length = b.state.cells.length := by
  show ((List.foldl _ (b.state.cells, b.todo) _).1.set _ Cell.Grass).length = _
  rw [List.length_set, revFold_fst_length]

theorem pop_todo_nodup (b : Backtrack) (i : Nat) (h : b.todo.Nodup) :
    (b.pop i).todo.Nodup := by
  show (List.foldl _ (b.state.cells, b.todo) _).2.Nodup
  exact revFold_snd_nodup _ (b.state.cells, b.todo) h

/-- The drain fold preserves any cell census that neither the drained
values nor `Empty` satisfy. -/
theorem revFold_fst_countP (P : Cell → Bool) (hpE : P Cell.Empty = false)
    (l : List Nat) (pr : List Cell × List Nat)
    (h : ∀ c ∈ l, P (pr.1.getD c Cell.Empty) = false) :
    (l.foldl (fun (t : List Cell × List Nat) c =>
        (t.1.set c Cell.Empty, if c ∈ t.2 then t.2 else c :: t.2)) pr).1.countP P =
      pr.1.countP P := by
  induction l generalizing pr with
  | nil => rfl
  | cons a l ih =>
    simp only [List.foldl_cons]
    have hstep : ∀ c ∈ l,
        P ((pr.1.set a Cell.Empty).getD c Cell.Empty) = false := by
      intro c hc
      rw [getD_set]
      split
      · exact hpE
      · exact h c (List.mem_cons_of_mem a hc)
    rw [ih (pr.1.set a Cell.Empty, if a ∈ pr.2 then pr.2 else a :: pr.2) hstep]
    show (pr.1.set a Cell.Empty).countP P = pr.1.countP P
    by_cases ha : a < pr.1.length
    · rw [List.countP_set _ _ _ _ ha]
      have hA : P pr.1[a] = false := by
        have hm := h a (List.mem_cons_self a l)
        rwa [List.getD_eq_getElem?_getD, List.getElem?_eq_getElem ha,
          Option.getD_some] at hm
      rw [hA, hpE]
      simp
    · rw [List.set_eq_of_length_le (le_of_not_lt ha)]

/-- Census of the board after a pop, for any cell value that `Empty`
does not satisfy, assuming the drained entries do not satisfy it and the
popped cell is not among the drained ones. -/
theorem pop_countP (b : Backtrack) (o : Nat) (P : Cell → Bool)
    (hpE : P Cell.Empty = false)
    (hnd : (b.cords_stack.take o).getLastD 0 ∉ b.cords_stack.drop o)
    (hdr : ∀ c ∈ b.cords_stack.drop o, P (b.state.cells.getD c Cell.Empty) = false)
    (hlen : (b.cords_stack.take o).getLastD 0 < b.state.cells.length) :
    (b.pop o).state.cells.countP P =
      b.state.cells.countP P
        - (if P (b.state.cells.getD ((b.cords_stack.take o).getLastD 0) Cell.Empty)
            then 1 else 0)
        + (if P Cell.Grass then 1 else 0) := by
  show ((List.foldl _ (b.state.cells, b.todo) _).1.set _ Cell.Grass).countP P = _
  have hrl : ((b.cords_stack.drop o).foldl (fun (t : List Cell × List Nat) c =>
      (t.1.set c Cell.Empty, if c ∈ t.2 then t.2 else c :: t.2))
      (b.state.cells, b.todo)).1.length = b.state.cells.length :=
    revFold_fst_length _ _
  have hlt2 : (b.cords_stack.take o).getLastD 0 <
      ((b.cords_stack.drop o).foldl (fun (t : List Cell × List Nat) c =>
        (t.1.set c Cell.Empty, if c ∈ t.2 then t.2 else c :: t.2))
        (b.state.cells, b.todo)).1.length := by
    rw [hrl]
    exact hlen
  rw [List.countP_set _ _ _ _ hlt2]
  rw [revFold_fst_countP P hpE _ _ hdr]
  have hv : ((b.cords_stack.drop o).foldl (fun (t : List Cell × List Nat) c =>
      (t.1.set c Cell.Empty, if c ∈ t.2 then t.2 else c :: t.2))
      (b.state.cells, b.todo)).1[(b.cords_stack.take o).getLastD 0] =
      b.state.cells.getD ((b.cords_stack.take o).getLastD 0) Cell.Empty := by
    have hg := revFold_fst_getD (b.cords_stack.drop o) (b.state.cells, b.todo)
      ((b.cords_stack.take o).getLastD 0)
    rw [if_neg hnd] at hg
    rw [← hg, List.getD_eq_getElem?_getD, List.getElem?_eq_getElem hlt2,
      Option.getD_some]
  rw [hv]

/-- `Backtrack::pop` preserves the search invariant whenever `run`
actually performs it: the frontier is empty and the popped offset is the
top of the backtrack stack. -/
theorem pop_inv {b : Backtrack} {o : Nat} (hI : Inv b) (ht : b.todo = [])
    (ho : b.backtrack_stack.getLast? = some o) : Inv (b.pop o) := by
  have hoMem : o ∈ b.backtrack_stack := List.mem_of_mem_getLast? ho
  have hob := hI.bt_bounds o hoMem
  have ho1 : 1 ≤ o := hob.1
  have holen : o ≤ b.cords_stack.length := hob.2
  have hsplit := bt_split ho
  have hlt := bt_dropLast_lt hI ho
  have hc0 : (b.cords_stack.take o).getLastD 0 = b.cords_stack.getD (o - 1) 0 :=
    pop_c0 ho1 holen
  have hc0mem : b.cords_stack.getD (o - 1) 0 ∈ b.cords_stack :=
    getD_mem (by omega)
  have hc0lt : b.cords_stack.getD (o - 1) 0 < b.state.dim * b.state.dim :=
    hI.cords_lt _ hc0mem
  have hc0len : b.cords_stack.getD (o - 1) 0 < b.state.cells.length := by
    rw [hI.len_cells]
    exact hc0lt
  have hc0tent : b.state.cells.getD (b.cords_stack.getD (o - 1) 0) Cell.Empty
      = Cell.Tent := by
    have h1 : o - 1 < b.cords_stack.length := by omega
    have hcc := hI.cords_cells (o - 1) h1
    have h2 : o - 1 + 1 = o := by omega
    rw [h2] at hcc
    rw [hcc, if_pos hoMem]
  have hdrain : ∀ c ∈ b.cords_stack.drop o,
      b.state.cells.getD c Cell.Empty = Cell.Grass := by
    intro c hc
    obtain ⟨q, hq1, hq2, hq3⟩ := mem_drop_getD hc
    have hcc := hI.cords_cells q hq2
    rw [hq3] at hcc
    rw [hcc, if_neg]
    intro hmem
    rw [hsplit] at hmem
    rcases List.mem_append.1 hmem with hm | hm
    · have := hlt _ hm
      omega
    · have := List.mem_singleton.1 hm
      omega
  have hdrNe : ∀ c ∈ b.cords_stack.drop o, c ≠ b.cords_stack.getD (o - 1) 0 := by
    intro c hc hceq
    obtain ⟨q, hq1, hq2, hq3⟩ := mem_drop_getD hc
    have h1 : o - 1 < b.cords_stack.length := by omega
    have := getD_inj hI.cords_nodup hq2 h1 (by rw [hq3, hceq])
    omega
  have hndD : (b.cords_stack.take o).getLastD 0 ∉ b.cords_stack.drop o := by
    rw [hc0]
    intro hmem
    exact hdrNe _ hmem rfl
  have hlenD : (b.cords_stack.take o).getLastD 0 < b.state.cells.length := by
    rw [hc0]
    exact hc0len
  constructor
  · rw [pop_cells_length, pop_dim]
    exact hI.len_cells
  · rw [pop_col_tents, List.length_set, pop_dim]
    exact hI.len_col
  · rw [pop_row_tents, List.length_set, pop_dim]
    exact hI.len_row
  · exact pop_todo_nodup b o hI.todo_nodup
  · intro c
    rw [pop_todo_mem, pop_dim, pop_cells_getD, ht, hc0]
    simp only [List.mem_nil_iff, or_false]
    constructor
    · intro hcd
      have hclt : c < b.state.dim * b.state.dim :=
        hI.cords_lt c (List.mem_of_mem_drop hcd)
      refine ⟨hclt, ?_⟩
      have hne1 : ¬ (c = b.cords_stack.getD (o - 1) 0 ∧ c < b.state.cells.length) :=
        fun hh => hdrNe c hcd hh.1
      rw [if_neg hne1, if_pos hcd]
    · rintro ⟨hclt, hcell⟩
      by_cases hcd : c ∈ b.cords_stack.drop o
      · exact hcd
      · exfalso
        by_cases h1 : c = b.cords_stack.getD (o - 1) 0 ∧ c < b.state.cells.length
        · rw [if_pos h1] at hcell
          cases hcell
        · rw [if_neg h1, if_neg hcd] at hcell
          have hmem := (hI.todo_iff c).2 ⟨hclt, hcell⟩
          rw [ht] at hmem
          cases hmem
  · rw [pop_cords]
    exact List.Nodup.sublist (List.take_sublist o b.cords_stack) hI.cords_nodup
  · intro c hc
    rw [pop_cords] at hc
    rw [pop_dim]
    exact hI.cords_lt c (List.mem_of_mem_take hc)
  · intro q hq
    rw [pop_cords, List.length_take] at hq
    have hqo : q < o := by omega
    rw [pop_cords, getD_take hqo, pop_backtrack_stack, pop_cells_getD, hc0]
    by_cases hqe : q = o - 1
    · have hpos : b.cords_stack.getD q 0 = b.cords_stack.getD (o - 1) 0 ∧
          b.cords_stack.getD q 0 < b.state.cells.length := by
        refine ⟨by rw [hqe], ?_⟩
        rw [hI.len_cells]
        exact hI.cords_lt _ (getD_mem (by omega))
      have hno : q + 1 ∉ b.backtrack_stack.dropLast := by
        intro hmem
        have := hlt _ hmem
        omega
      rw [if_pos hpos, if_neg hno]
    · have hne1 : ¬ (b.cords_stack.getD q 0 = b.cords_stack.getD (o - 1) 0 ∧
          b.cords_stack.getD q 0 < b.state.cells.length) := by
        rintro ⟨he, -⟩
        have h1 : o - 1 < b.cords_stack.length := by omega
        have := getD_inj hI.cords_nodup (by omega) h1 he
        exact hqe this
      have hnd2 : b.cords_stack.getD q 0 ∉ b.cords_stack.drop o := by
        intro hmem
        obtain ⟨q', hq1', hq2', hq3'⟩ := mem_drop_getD hmem
        have := getD_inj hI.cords_nodup hq2' (by omega) hq3'
        omega
      rw [if_neg hne1, if_neg hnd2]
      have hcc := hI.cords_cells q (by omega)
      rw [hcc]
      have hiff : (q + 1 ∈ b.backtrack_stack) ↔ (q + 1 ∈ b.backtrack_stack.dropLast) := by
        constructor
        · intro hmem
          rw [hsplit] at hmem
          rcases List.mem_append.1 hmem with hm | hm
          · exact hm
          · have := List.mem_singleton.1 hm
            omega
        · intro hmem
          rw [hsplit]
          exact List.mem_append_left _ hmem
      by_cases hbt : q + 1 ∈ b.backtrack_stack
      · rw [if_pos hbt, if_pos (hiff.1 hbt)]
      · rw [if_neg hbt, if_neg (fun hh => hbt (hiff.2 hh))]
  · rw [pop_backtrack_stack]
    exact List.Pairwise.sublist (List.dropLast_sublist _) hI.bt_sorted
  · intro i hi
    rw [pop_backtrack_stack] at hi
    have hio := hlt i hi
    have hb := hI.bt_bounds i (by rw [hsplit]; exact List.mem_append_left _ hi)
    rw [pop_cords, List.length_take]
    exact ⟨hb.1, by omega⟩
  · rw [pop_tent_count, hI.tent_eq]
    have hdrT : ∀ c ∈ b.cords_stack.drop o,
        (fun c => decide (c = Cell.Tent)) (b.state.cells.getD c Cell.Empty) = false := by
      intro c hc
      rw [hdrain c hc]
      rfl
    rw [pop_countP b o _ (by decide) hndD hdrT hlenD, hc0, hc0tent]
    simp
  · rw [pop_tree_count, hI.tree_eq]
    have hdrT : ∀ c ∈ b.cords_stack.drop o,
        (fun c => decide (c = Cell.Tree)) (b.state.cells.getD c Cell.Empty) = false := by
      intro c hc
      rw [hdrain c hc]
      rfl
    rw [pop_countP b o _ (by decide) hndD hdrT hlenD, hc0, hc0tent]
    simp

/-- `Backtrack::pop` preserves the counter invariant. -/
theorem pop_z {b : Backtrack} {o : Nat} (hI : Inv b) (hZ : ZInv b) (ht : b.todo = [])
    (ho : b.backtrack_stack.getLast? = some o) : ZInv (b.pop o) := by
  have hoMem : o ∈ b.backtrack_stack := List.mem_of_mem_getLast? ho
  have hob := hI.bt_bounds o hoMem
  have ho1 : 1 ≤ o := hob.1
  have holen : o ≤ b.cords_stack.length := hob.2
  have hsplit := bt_split ho
  have hlt := bt_dropLast_lt hI ho
  have hc0 : (b.cords_stack.take o).getLastD 0 = b.cords_stack.getD (o - 1) 0 :=
    pop_c0 ho1 holen
  have hc0lt : b.cords_stack.getD (o - 1) 0 < b.state.dim * b.state.dim :=
    hI.cords_lt _ (getD_mem (by omega))
  have hdim : 0 < b.state.dim := by
    rcases Nat.eq_zero_or_pos b.state.dim with h0 | h0
    · rw [h0] at hc0lt
      omega
    · exact h0
  have hactCol : ∀ x, activeColCount (b.pop o) x =
      b.backtrack_stack.dropLast.countP
        (fun i => decide (b.cords_stack.getD (i - 1) 0 % b.state.dim = x)) := by
    intro x
    show b.backtrack_stack.dropLast.countP
      (fun i => decide ((b.cords_stack.take o).getD (i - 1) 0 % b.state.dim = x)) = _
    refine List.countP_congr ?_
    intro i hi
    have hio := hlt i hi
    have h2 : i - 1 < o := by omega
    rw [getD_take h2]
  have hactRow : ∀ y, activeRowCount (b.pop o) y =
      b.backtrack_stack.dropLast.countP
        (fun i => decide (b.cords_stack.getD (i - 1) 0 / b.state.dim = y)) := by
    intro y
    show b.backtrack_stack.dropLast.countP
      (fun i => decide ((b.cords_stack.take o).getD (i - 1) 0 / b.state.dim = y)) = _
    refine List.countP_congr ?_
    intro i hi
    have hio := hlt i hi
    have h2 : i - 1 < o := by omega
    rw [getD_take h2]
  have hactColPre : ∀ x, activeColCount b x =
      b.backtrack_stack.dropLast.countP
        (fun i => decide (b.cords_stack.getD (i - 1) 0 % b.state.dim = x))
      + (if b.cords_stack.getD (o - 1) 0 % b.state.dim = x then 1 else 0) := by
    intro x
    show b.backtrack_stack.countP _ = _
    nth_rewrite 1 [hsplit]
    rw [List.countP_append, List.countP_singleton]
    simp
  have hactRowPre : ∀ y, activeRowCount b y =
      b.backtrack_stack.dropLast.countP
        (fun i => decide (b.cords_stack.getD (i - 1) 0 / b.state.dim = y))
      + (if b.cords_stack.getD (o - 1) 0 / b.state.dim = y then 1 else 0) := by
    intro y
    show b.backtrack_stack.countP _ = _
    nth_rewrite 1 [hsplit]
    rw [List.countP_append, List.countP_singleton]
    simp
  constructor
  · intro x hx
    rw [pop_dim] at hx
    rw [pop_col_tents, hc0, hactCol, getD_set]
    by_cases hxx : b.cords_stack.getD (o - 1) 0 % b.state.dim = x
    · have hcnd : b.cords_stack.getD (o - 1) 0 % b.state.dim = x ∧
          b.cords_stack.getD (o - 1) 0 % b.state.dim < b.state.col_tents.length := by
        refine ⟨hxx, ?_⟩
        rw [hI.len_col]
        exact Nat.mod_lt _ hdim
      rw [if_pos hcnd]
      have hpre := hZ.col_bound x hx
      rw [hactColPre, if_pos hxx] at hpre
      rw [hxx]
      have hmod : (b.state.col_tents.getD x 0 + 1) % 256
          = b.state.col_tents.getD x 0 + 1 := by
        apply Nat.mod_eq_of_lt
        omega
      rw [hmod]
      omega
    · have hcnd : ¬ (b.cords_stack.getD (o - 1) 0 % b.state.dim = x ∧
          b.cords_stack.getD (o - 1) 0 % b.state.dim < b.state.col_tents.length) :=
        fun hh => hxx hh.1
      rw [if_neg hcnd]
      have hpre := hZ.col_bound x hx
      rw [hactColPre, if_neg hxx] at hpre
      omega
  · intro y hy
    rw [pop_dim] at hy
    rw [pop_row_tents, hc0, hactRow, getD_set]
    by_cases hyy : b.cords_stack.getD (o - 1) 0 / b.state.dim = y
    · have hcnd : b.cords_stack.getD (o - 1) 0 / b.state.dim = y ∧
          b.cords_stack.getD (o - 1) 0 / b.state.dim < b.state.row_tents.length := by
        refine ⟨hyy, ?_⟩
        rw [hI.len_row]
        exact div_lt_of_lt_sq hc0lt
      rw [if_pos hcnd]
      have hpre := hZ.row_bound y hy
      rw [hactRowPre, if_pos hyy] at hpre
      rw [hyy]
      have hmod : (b.state.row_tents.getD y 0 + 1) % 256
          = b.state.row_tents.getD y 0 + 1 := by
        apply Nat.mod_eq_of_lt
        omega
      rw [hmod]
      omega
    · have hcnd : ¬ (b.cords_stack.getD (o - 1) 0 / b.state.dim = y ∧
          b.cords_stack.getD (o - 1) 0 / b.state.dim < b.state.row_tents.length) :=
        fun hh => hyy hh.1
      rw [if_neg hcnd]
      have hpre := hZ.row_bound y hy
      rw [hactRowPre, if_neg hyy] at hpre
      omega
  · intro x hx h0
    rw [pop_dim] at hx
    rw [pop_col_tents, hc0, getD_set] at h0
    by_cases hxx : b.cords_stack.getD (o - 1) 0 % b.state.dim = x
    · exfalso
      have hcnd : b.cords_stack.getD (o - 1) 0 % b.state.dim = x ∧
          b.cords_stack.getD (o - 1) 0 % b.state.dim < b.state.col_tents.length := by
        refine ⟨hxx, ?_⟩
        rw [hI.len_col]
        exact Nat.mod_lt _ hdim
      rw [if_pos hcnd, hxx] at h0
      have hb := hZ.col_bound x hx
      rw [hactColPre, if_pos hxx] at hb
      have hmod : (b.state.col_tents.getD x 0 + 1) % 256
          = b.state.col_tents.getD x 0 + 1 := by
        apply Nat.mod_eq_of_lt
        omega
      rw [hmod] at h0
      omega
    · have hcnd : ¬ (b.cords_stack.getD (o - 1) 0 % b.state.dim = x ∧
          b.cords_stack.getD (o - 1) 0 % b.state.dim < b.state.col_tents.length) :=
        fun hh => hxx hh.1
      rw [if_neg hcnd] at h0
      obtain ⟨hA1, hA2⟩ := hZ.col_zero x hx h0
      constructor
      · intro y hy
        rw [pop_dim] at hy
        rw [pop_dim, pop_cells_getD, hc0]
        by_cases h1 : x + y * b.state.dim = b.cords_stack.getD (o - 1) 0 ∧
            x + y * b.state.dim < b.state.cells.length
        · rw [if_pos h1]
          intro hh
          cases hh
        · rw [if_neg h1]
          have h2 : x + y * b.state.dim ∉ b.cords_stack.drop o := by
            intro hmem
            obtain ⟨q, hq1, hq2, hq3⟩ := mem_drop_getD hmem
            have hqx : b.cords_stack.getD q 0 % b.state.dim = x := by
              rw [hq3, idx_mod x y hx]
            rcases hA2 with hL | ⟨i, hiM, hie, hiC⟩
            · exact hL q hq2 hqx
            · have hio : i ≤ o := by
                have hmem2 := hiM
                rw [hsplit] at hmem2
                rcases List.mem_append.1 hmem2 with hm | hm
                · have := hlt _ hm
                  omega
                · have := List.mem_singleton.1 hm
                  omega
              rcases Nat.lt_or_ge i o with hlt2 | hge
              · have := hiC o hoMem hlt2 q hq2 hqx
                omega
              · have hieo : i = o := by omega
                rw [hieo] at hie
                exact hxx hie
          rw [if_neg h2]
          exact hA1 y hy
      · rcases hA2 with hL | ⟨i, hiM, hie, hiC⟩
        · left
          intro q hq
          rw [pop_cords, List.length_take] at hq
          rw [pop_cords, pop_dim, getD_take (by omega : q < o)]
          exact hL q (by omega)
        · have hio : i ≤ o := by
            have hmem2 := hiM
            rw [hsplit] at hmem2
            rcases List.mem_append.1 hmem2 with hm | hm
            · have := hlt _ hm
              omega
            · have := List.mem_singleton.1 hm
              omega
          rcases Nat.eq_or_lt_of_le hio with heq | hlt2
          · exfalso
            rw [heq] at hie
            exact hxx hie
          · right
            refine ⟨i, ?_, ?_, ?_⟩
            · rw [pop_backtrack_stack]
              have hmem2 := hiM
              rw [hsplit] at hmem2
              rcases List.mem_append.1 hmem2 with hm | hm
              · exact hm
              · have := List.mem_singleton.1 hm
                omega
            · rw [pop_cords, pop_dim, getD_take (by omega : i - 1 < o)]
              exact hie
            · intro o2 ho2 hio2 q hq hqx
              rw [pop_backtrack_stack] at ho2
              rw [pop_cords, List.length_take] at hq
              rw [pop_cords, pop_dim, getD_take (by omega : q < o)] at hqx
              exact hiC o2 (by rw [hsplit]; exact List.mem_append_left _ ho2) hio2
                q (by omega) hqx
  · intro y hy h0
    rw [pop_dim] at hy
    rw [pop_row_tents, hc0, getD_set] at h0
    by_cases hyy : b.cords_stack.getD (o - 1) 0 / b.state.dim = y
    · exfalso
      have hcnd : b.cords_stack.getD (o - 1) 0 / b.state.dim = y ∧
          b.cords_stack.getD (o - 1) 0 / b.state.dim < b.state.row_tents.length := by
        refine ⟨hyy, ?_⟩
        rw [hI.len_row]
        exact div_lt_of_lt_sq hc0lt
      rw [if_pos hcnd, hyy] at h0
      have hb := hZ.row_bound y hy
      rw [hactRowPre, if_pos hyy] at hb
      have hmod : (b.state.row_tents.getD y 0 + 1) % 256
          = b.state.row_tents.getD y 0 + 1 := by
        apply Nat.mod_eq_of_lt
        omega
      rw [hmod] at h0
      omega
    · have hcnd : ¬ (b.cords_stack.getD (o - 1) 0 / b.state.dim = y ∧
          b.cords_stack.getD (o - 1) 0 / b.state.dim < b.state.row_tents.length) :=
        fun hh => hyy hh.1
      rw [if_neg hcnd] at h0
      obtain ⟨hA1, hA2⟩ := hZ.row_zero y hy h0
      constructor
      · intro x hx
        rw [pop_dim] at hx
        rw [pop_dim, pop_cells_getD, hc0]
        by_cases h1 : x + y * b.state.dim = b.cords_stack.getD (o - 1) 0 ∧
            x + y * b.state.dim < b.state.cells.length
        · rw [if_pos h1]
          intro hh
          cases hh
        · rw [if_neg h1]
          have h2 : x + y * b.state.dim ∉ b.cords_stack.drop o := by
            intro hmem
            obtain ⟨q, hq1, hq2, hq3⟩ := mem_drop_getD hmem
            have hqy : b.cords_stack.getD q 0 / b.state.dim = y := by
              rw [hq3, idx_div x y hx]
            rcases hA2 with hL | ⟨i, hiM, hie, hiC⟩
            · exact hL q hq2 hqy
            · have hio : i ≤ o := by
                have hmem2 := hiM
                rw [hsplit] at hmem2
                rcases List.mem_append.1 hmem2 with hm | hm
                · have := hlt _ hm
                  omega
                · have := List.mem_singleton.1 hm
                  omega
              rcases Nat.lt_or_ge i o with hlt2 | hge
              · have := hiC o hoMem hlt2 q hq2 hqy
                omega
              · have hieo : i = o := by omega
                rw [hieo] at hie
                exact hyy hie
          rw [if_neg h2]
          exact hA1 x hx
      · rcases hA2 with hL | ⟨i, hiM, hie, hiC⟩
        · left
          intro q hq
          rw [pop_cords, List.length_take] at hq
          rw [pop_cords, pop_dim, getD_take (by omega : q < o)]
          exact hL q (by omega)
        · have hio : i ≤ o := by
            have hmem2 := hiM
            rw [hsplit] at hmem2
            rcases List.mem_append.1 hmem2 with hm | hm
            · have := hlt _ hm
              omega
            · have := List.mem_singleton.1 hm
              omega
          rcases Nat.eq_or_lt_of_le hio with heq | hlt2
          · exfalso
            rw [heq] at hie
            exact hyy hie
          · right
            refine ⟨i, ?_, ?_, ?_⟩
            · rw [pop_backtrack_stack]
              have hmem2 := hiM
              rw [hsplit] at hmem2
              rcases List.mem_append.1 hmem2 with hm | hm
              · exact hm
              · have := List.mem_singleton.1 hm
                omega
            · rw [pop_cords, pop_dim, getD_take (by omega : i - 1 < o)]
              exact hie
            · intro o2 ho2 hio2 q hq hqy
              rw [pop_backtrack_stack] at ho2
              rw [pop_cords, List.length_take] at hq
              rw [pop_cords, pop_dim, getD_take (by omega : q < o)] at hqy
              exact hiC o2 (by rw [hsplit]; exact List.mem_append_left _ ho2) hio2
                q (by omega) hqy

end PopInvariant

section ReachTransport

theorem reach_trans {a b c : Backtrack} (h1 : Reach a b) (h2 : Reach b c) :
    Reach a c := by
  induction h2 with
  | refl => exact h1
  | place c hR hc ih => exact Reach.place c ih hc
  | pop i hR ht hne ho ih => exact Reach.pop i ih ht hne ho

/-- The search invariant transports along any reachable-states path. -/
theorem reach_inv {b0 b : Backtrack} (h0 : Inv b0) (hR : Reach b0 b) : Inv b := by
  induction hR with
  | refl => exact h0
  | place c hR hc ih => exact place_inv _ _ ih hc
  | pop i hR ht hne ho ih => exact pop_inv ih ht ho

/-- Both search invariants transport along any reachable-states path. -/
theorem reach_inv_z {b0 b : Backtrack} (h0 : Inv b0) (hZ0 : ZInv b0)
    (hR : Reach b0 b) : Inv b ∧ ZInv b := by
  induction hR with
  | refl => exact ⟨h0, hZ0⟩
  | place c hR hc ih => exact ⟨place_inv _ _ ih.1 hc, place_z _ _ ih.1 ih.2 hc⟩
  | pop i hR ht hne ho ih => exact ⟨pop_inv ih.1 ht ho, pop_z ih.1 ih.2 ht ho⟩

theorem pickIdx_mem (ch : Nat → Nat) (t : Nat) (l : List Nat) (h : l ≠ []) :
    pickIdx ch t l ∈ l := by
  unfold pickIdx
  have hlen : 0 < l.length := List.length_pos.2 h
  exact getD_mem (Nat.mod_lt _ hlen)

/-- A normal return of `Backtrack::run` lands on a reachable state whose
frontier is empty and whose tent census equals the tree census. -/
theorem runAux_solved_reach (ch : Nat → Nat) (fuel : Nat) :
    ∀ (t : Nat) (b bf : Backtrack),
      Backtrack.runAux ch fuel t b = RunResult.solved bf →
      Reach b bf ∧ bf.todo = [] ∧ bf.tent_count = bf.tree_count := by
  induction fuel with
  | zero =>
    intro t b bf h
    simp [Backtrack.runAux] at h
  | succ fuel ih =>
    intro t b bf h
    by_cases hT : b.todo = []
    · by_cases hE : b.tent_count = b.tree_count
      · rw [runAux_solved_step ch fuel t b hT hE] at h
        cases h
        exact ⟨Reach.refl b, hT, hE⟩
      · cases hbt : b.backtrack_stack.getLast? with
        | some i =>
          rw [runAux_pop_step ch fuel t b i hT hE hbt] at h
          obtain ⟨hR, h1, h2⟩ := ih (t + 1) (b.pop i) bf h
          exact ⟨reach_trans (Reach.pop i (Reach.refl b) hT hE hbt) hR, h1, h2⟩
        | none =>
          simp [Backtrack.runAux, hT, hE, hbt] at h
    · rw [runAux_place_step ch fuel t b hT] at h
      obtain ⟨hR, h1, h2⟩ := ih (t + 1) _ bf h
      have hstep : Reach b (b.place (pickIdx ch t b.todo)) :=
        Reach.place _ (Reach.refl b) (pickIdx_mem ch t b.todo hT)
      exact ⟨reach_trans hstep hR, h1, h2⟩

end ReachTransport

section InitBase

theorem fill_green_wf {s : State} (hw : Wf s) : Wf s.fill_green := by
  obtain ⟨h1, h2, h3, h4, h5⟩ := hw
  refine ⟨?_, ?_, ?_, ?_, ?_⟩
  · rw [fill_green_length, fill_green_dim, h1]
  · rw [fill_green_col_tents, fill_green_dim, h2]
  · rw [fill_green_row_tents, fill_green_dim, h3]
  · rw [fill_green_col_tents]
    exact h4
  · rw [fill_green_row_tents]
    exact h5

/-- `Backtrack::apply`'s freshly constructed state satisfies the search
invariant, for any well-formed puzzle. -/
theorem init_inv {s : State} (hw : Wf s) : Inv (Backtrack.init s) := by
  obtain ⟨h1, h2, h3, h4, h5⟩ := hw
  constructor
  · exact h1
  · exact h2
  · exact h3
  · exact List.Nodup.filter _ (List.nodup_range _)
  · intro c
    show c ∈ (List.range s.cells.length).filter _ ↔
      c < s.dim * s.dim ∧ s.cells.getD c Cell.Empty = Cell.Empty
    rw [List.mem_filter, List.mem_range]
    constructor
    · rintro ⟨hc, hd⟩
      exact ⟨by rw [← h1]; exact hc, of_decide_eq_true hd⟩
    · rintro ⟨hc, hd⟩
      exact ⟨by rw [h1]; exact hc, decide_eq_true hd⟩
  · exact List.nodup_nil
  · intro c hc
    cases hc
  · intro q hq
    have h0 : (Backtrack.init s).cords_stack.length = 0 := rfl
    omega
  · exact List.sorted_nil
  · intro i hi
    cases hi
  · rfl
  · rfl

/-- After `fill_green`, the freshly constructed search state also
satisfies the counter invariant: counters fit u8 (no tent is active yet),
and a zero line was fully swept by pass 2 / pass 3. -/
theorem init_z {s : State} (hw : Wf s) : ZInv (Backtrack.init s.fill_green) := by
  obtain ⟨h1, h2, h3, h4, h5⟩ := hw
  constructor
  · intro x hx
    have hx' : x < s.dim := lt_of_lt_of_eq hx (fill_green_dim s)
    have ha : activeColCount (Backtrack.init s.fill_green) x = 0 := rfl
    rw [ha]
    show s.fill_green.col_tents.getD x 0 + 0 < 256
    rw [fill_green_col_tents]
    have hmem : s.col_tents.getD x 0 ∈ s.col_tents := getD_mem (by rw [h2]; exact hx')
    have := h4 _ hmem
    omega
  · intro y hy
    have hy' : y < s.dim := lt_of_lt_of_eq hy (fill_green_dim s)
    have ha : activeRowCount (Backtrack.init s.fill_green) y = 0 := rfl
    rw [ha]
    show s.fill_green.row_tents.getD y 0 + 0 < 256
    rw [fill_green_row_tents]
    have hmem : s.row_tents.getD y 0 ∈ s.row_tents := getD_mem (by rw [h3]; exact hy')
    have := h5 _ hmem
    omega
  · intro x hx h0
    have hx' : x < s.dim := lt_of_lt_of_eq hx (fill_green_dim s)
    have h0' : s.col_tents.getD x 0 = 0 := by
      rw [← fill_green_col_tents s]
      exact h0
    constructor
    · intro y hy
      have hy' : y < s.dim :=
        lt_of_lt_of_eq hy (fill_green_dim s)
      show s.fill_green.cells.getD (x + y * (Backtrack.init s.fill_green).state.dim)
        Cell.Empty ≠ Cell.Empty
      have hdeq : (Backtrack.init s.fill_green).state.dim = s.dim := fill_green_dim s
      rw [hdeq]
      rw [fill_green_getD s h1 (x + y * s.dim), idx_mod x y hx', idx_div x y hx']
      by_cases hE : s.cells.getD (x + y * s.dim) Cell.Empty = Cell.Empty
      · have hcond : s.cells.getD (x + y * s.dim) Cell.Empty = Cell.Empty ∧
            x < s.dim ∧ y < s.dim ∧
            (treeNear s x y = false ∨ s.col_tents.getD x 0 = 0 ∨
              s.row_tents.getD y 0 = 0) :=
          ⟨hE, hx', hy', Or.inr (Or.inl h0')⟩
        rw [if_pos hcond]
        intro hh
        cases hh
      · have hcond : ¬ (s.cells.getD (x + y * s.dim) Cell.Empty = Cell.Empty ∧
            x < s.dim ∧ y < s.dim ∧
            (treeNear s x y = false ∨ s.col_tents.getD x 0 = 0 ∨
              s.row_tents.getD y 0 = 0)) := fun hh => hE hh.1
        rw [if_neg hcond]
        exact hE
    · left
      intro q hq
      have h0 : (Backtrack.init s.fill_green).cords_stack.length = 0 := rfl
      omega
  · intro y hy h0
    have hy' : y < s.dim := lt_of_lt_of_eq hy (fill_green_dim s)
    have h0' : s.row_tents.getD y 0 = 0 := by
      rw [← fill_green_row_tents s]
      exact h0
    constructor
    · intro x hx
      have hx' : x < s.dim :=
        lt_of_lt_of_eq hx (fill_green_dim s)
      show s.fill_green.cells.getD (x + y * (Backtrack.init s.fill_green).state.dim)
        Cell.Empty ≠ Cell.Empty
      have hdeq : (Backtrack.init s.fill_green).state.dim = s.dim := fill_green_dim s
      rw [hdeq]
      rw [fill_green_getD s h1 (x + y * s.dim), idx_mod x y hx', idx_div x y hx']
      by_cases hE : s.cells.getD (x + y * s.dim) Cell.Empty = Cell.Empty
      · have hcond : s.cells.getD (x + y * s.dim) Cell.Empty = Cell.Empty ∧
            x < s.dim ∧ y < s.dim ∧
            (treeNear s x y = false ∨ s.col_tents.getD x 0 = 0 ∨
              s.row_tents.getD y 0 = 0) :=
          ⟨hE, hx', hy', Or.inr (Or.inr h0')⟩
        rw [if_pos hcond]
        intro hh
        cases hh
      · have hcond : ¬ (s.cells.getD (x + y * s.dim) Cell.Empty = Cell.Empty ∧
            x < s.dim ∧ y < s.dim ∧
            (treeNear s x y = false ∨ s.col_tents.getD x 0 = 0 ∨
              s.row_tents.getD y 0 = 0)) := fun hh => hE hh.1
        rw [if_neg hcond]
        exact hE
    · left
      intro q hq
      have h0 : (Backtrack.init s.fill_green).cords_stack.length = 0 := rfl
      omega

end InitBase

section AdjacencyInvariant

/-- The marking loop's clipped neighbour list holds exactly the in-range
king-move neighbours. -/
theorem mem_neighborList {n x y a b : Nat} (hx : x < n) (hy : y < n) :
    (a, b) ∈ neighborList n x y ↔
      (a < n ∧ b < n ∧ a ≤ x + 1 ∧ x ≤ a + 1 ∧ b ≤ y + 1 ∧ y ≤ b + 1 ∧
        ¬(a = x ∧ b = y)) := by
  rw [neighborList, List.mem_filterMap]
  constructor
  · rintro ⟨d, hd, hfd⟩
    fin_cases hd <;>
    · dsimp only at hfd
      split at hfd
      · cases hfd
      · rename_i hcond
        push_neg at hcond
        obtain ⟨hc1, hc2, hc3, hc4⟩ := hcond
        injection hfd with hfd
        injection hfd with hfa hfb
        omega
  · rintro ⟨ha, hb, h1, h2, h3, h4, h5⟩
    refine ⟨((a : Int) - x, (b : Int) - y), ?_, ?_⟩
    · simp only [deltas, List.mem_cons, List.mem_singleton, Prod.mk.injEq,
        List.not_mem_nil, or_false]
      omega
    · dsimp only
      have hnx : (x : Int) + ((a : Int) - (x : Int)) = (a : Int) := by omega
      have hny : (y : Int) + ((b : Int) - (y : Int)) = (b : Int) := by omega
      rw [hnx, hny]
      rw [if_neg (by omega)]
      simp

theorem getD_append_right_mem {l ms : List Nat} {q : Nat} (h1 : l.length ≤ q)
    (h2 : q < (l ++ ms).length) : (l ++ ms).getD q 0 ∈ ms := by
  rw [List.getD_eq_getElem?_getD, List.getElem?_append_right h1]
  rw [List.length_append] at h2
  have h3 : q - l.length < ms.length := by omega
  rw [List.getElem?_eq_getElem h3, Option.getD_some]
  exact List.getElem_mem h3

theorem place_no_new_empty (b : Backtrack) (cord c : Nat)
    (h : b.state.cells.getD c Cell.Empty ≠ Cell.Empty) :
    (b.place cord).state.cells.getD c Cell.Empty ≠ Cell.Empty := by
  rw [place_eq]
  exact ml_no_new_empty _ _ _ (rp_no_new_empty _ _ _ (cp_no_new_empty _ _ _
    (ps_no_new_empty b cord c h)))

/-- A cell reads `Tent` after a placement exactly when it is the placed
cell or already read `Tent`. -/
theorem place_tent_iff (b : Backtrack) (cord : Nat) (hI : Inv b) (hc : cord ∈ b.todo)
    (c : Nat) :
    ((b.place cord).state.cells.getD c Cell.Empty = Cell.Tent) ↔
      (c = cord ∨ b.state.cells.getD c Cell.Empty = Cell.Tent) := by
  have hI1 : Inv (b.pickStep cord) := pickStep_inv b cord hI hc
  have hI2 : Inv ((b.pickStep cord).colPhase (cord % b.state.dim)) := cp_inv _ _ hI1
  have hI3 := rp_inv ((b.pickStep cord).colPhase (cord % b.state.dim))
    (cord / b.state.dim) hI2
  have hlen : cord < b.state.cells.length := by
    rw [hI.len_cells]
    exact ((hI.todo_iff cord).1 hc).1
  rw [place_eq, ml_tent_stable _ _ c hI3, rp_tent_stable _ _ hI2 c,
    cp_tent_stable _ _ hI1 c, ps_cells_getD]
  by_cases hcc : cord = c ∧ cord < b.state.cells.length
  · rw [if_pos hcc]
    constructor
    · intro _
      exact Or.inl hcc.1.symm
    · intro _
      rfl
  · rw [if_neg hcc]
    constructor
    · exact Or.inr
    · rintro (rfl | hold)
      · exact absurd ⟨rfl, hlen⟩ hcc
      · exact hold

/-- The trail after a placement: the old trail, then the placed cell,
then marks of cells that were still undecided before the placement. -/
theorem place_cords_append (b : Backtrack) (cord : Nat) (hI : Inv b)
    (hc : cord ∈ b.todo) :
    ∃ ms, (b.place cord).cords_stack = (b.cords_stack ++ [cord]) ++ ms ∧
      ∀ e ∈ ms, b.state.cells.getD e Cell.Empty = Cell.Empty := by
  have hI1 : Inv (b.pickStep cord) := pickStep_inv b cord hI hc
  have hI2 : Inv ((b.pickStep cord).colPhase (cord % b.state.dim)) := cp_inv _ _ hI1
  have hI3 := rp_inv ((b.pickStep cord).colPhase (cord % b.state.dim))
    (cord / b.state.dim) hI2
  obtain ⟨m1, hm1, he1⟩ := cp_cords_append (b.pickStep cord) (cord % b.state.dim) hI1
  obtain ⟨m2, hm2, he2⟩ := rp_cords_append
    ((b.pickStep cord).colPhase (cord % b.state.dim)) (cord / b.state.dim) hI2
  obtain ⟨m3, hm3, he3⟩ := ml_cords_append _
    (neighborList b.state.dim (cord % b.state.dim) (cord / b.state.dim)) hI3
  refine ⟨m1 ++ (m2 ++ m3), ?_, ?_⟩
  · rw [place_eq, hm3, hm2, hm1, ps_cords]
    simp [List.append_assoc]
  · have hB1empty : ∀ e, (b.pickStep cord).state.cells.getD e Cell.Empty = Cell.Empty →
        b.state.cells.getD e Cell.Empty = Cell.Empty := by
      intro e he
      rw [ps_cells_getD] at he
      revert he
      split
      · intro hh
        cases hh
      · exact id
    intro e he
    rcases List.mem_append.1 he with he | he
    · exact hB1empty e (he1 e he)
    · rcases List.mem_append.1 he with he | he
      · exact hB1empty e (cp_empty_mono _ _ e (he2 e he))
      · exact hB1empty e (cp_empty_mono _ _ e (rp_empty_mono _ _ e (he3 e he)))

/-- The adjacency invariant: every active choice tent has all of its
king-move neighbours decided non-`Empty` and non-`Tent`, the deciding
trail entries protected below every later choice point, and every `Tent`
on the board is an active choice tent. -/
structure HInv (b : Backtrack) : Prop where
  hadj : ∀ i ∈ b.backtrack_stack,
    ∀ p ∈ neighborList b.state.dim (b.cords_stack.getD (i - 1) 0 % b.state.dim)
        (b.cords_stack.getD (i - 1) 0 / b.state.dim),
      b.state.cells.getD (p.1 + p.2 * b.state.dim) Cell.Empty ≠ Cell.Empty ∧
      b.state.cells.getD (p.1 + p.2 * b.state.dim) Cell.Empty ≠ Cell.Tent ∧
      (∀ q, q < b.cords_stack.length →
        b.cords_stack.getD q 0 = p.1 + p.2 * b.state.dim →
        ∀ o ∈ b.backtrack_stack, i < o → q < o - 1)
  tnAll : ∀ c, c < b.state.dim * b.state.dim →
      b.state.cells.getD c Cell.Empty = Cell.Tent →
      ∃ i ∈ b.backtrack_stack, i - 1 < b.cords_stack.length ∧
        b.cords_stack.getD (i - 1) 0 = c

theorem place_h (b : Backtrack) (cord : Nat) (hI : Inv b) (hH : HInv b)
    (hc : cord ∈ b.todo) : HInv (b.place cord) := by
  have hcN := (hI.todo_iff cord).1 hc
  have hn : 0 < b.state.dim := by
    rcases Nat.eq_zero_or_pos b.state.dim with h0 | h0
    · rw [h0] at hcN
      omega
    · exact h0
  have hxc : cord % b.state.dim < b.state.dim := Nat.mod_lt _ hn
  have hyc : cord / b.state.dim < b.state.dim := div_lt_of_lt_sq hcN.1
  have hrec : cord % b.state.dim + cord / b.state.dim * b.state.dim = cord :=
    idx_recompose _ _
  obtain ⟨ms, hms, hmse⟩ := place_cords_append b cord hI hc
  have hlen2 : (b.place cord).cords_stack.length =
      b.cords_stack.length + 1 + ms.length := by
    rw [hms, List.length_append, List.length_append, List.length_singleton]
  have hdim : (b.place cord).state.dim = b.state.dim := place_dim b cord
  constructor
  · intro i hi p hp
    rw [place_bt] at hi
    rw [hdim] at hp
    rcases List.mem_append.1 hi with hiOld | hiNew
    · have hib := hI.bt_bounds i hiOld
      have hq0 : i - 1 < b.cords_stack.length := by omega
      have hcord_pres : (b.place cord).cords_stack.getD (i - 1) 0 =
          b.cords_stack.getD (i - 1) 0 := by
        rw [place_cords_getD b cord hI hc (i - 1) (by omega), getD_append_left hq0]
      rw [hcord_pres] at hp
      obtain ⟨hne, hnt, hprot⟩ := hH.hadj i hiOld p hp
      refine ⟨?_, ?_, ?_⟩
      · rw [hdim]
        exact place_no_new_empty b cord _ hne
      · rw [hdim]
        intro hpc0
        rw [place_tent_iff b cord hI hc] at hpc0
        rcases hpc0 with hpc | hpc
        · exact hne (by rw [hpc]; exact hcN.2)
        · exact hnt hpc
      · intro q hq hqe o ho hio
        rw [place_bt] at ho
        rw [hlen2] at hq
        rw [hdim] at hqe
        rcases Nat.lt_or_ge q b.cords_stack.length with hql | hqg
        · have hqe2 : b.cords_stack.getD q 0 = p.1 + p.2 * b.state.dim := by
            rw [← hqe, place_cords_getD b cord hI hc q (by omega),
              getD_append_left hql]
          rcases List.mem_append.1 ho with hoOld | hoNew
          · exact hprot q hql hqe2 o hoOld hio
          · have := List.mem_singleton.1 hoNew
            omega
        · exfalso
          rcases Nat.eq_or_lt_of_le hqg with hqeq | hqgt
          · have hev : (b.place cord).cords_stack.getD q 0 = cord := by
              rw [place_cords_getD b cord hI hc q (by omega), ← hqeq,
                getD_append_self]
            have hcp : cord = p.1 + p.2 * b.state.dim := hev.symm.trans hqe
            exact hne (by rw [← hcp]; exact hcN.2)
          · have hmem : (b.place cord).cords_stack.getD q 0 ∈ ms := by
              rw [hms]
              exact getD_append_right_mem
                (by rw [List.length_append, List.length_singleton]; omega)
                (by rw [List.length_append, List.length_append,
                    List.length_singleton]; omega)
            have hempty := hmse _ hmem
            rw [hqe] at hempty
            exact hne hempty
    · have hiv : i = b.cords_stack.length + 1 := List.mem_singleton.1 hiNew
      have hcv : (b.place cord).cords_stack.getD (i - 1) 0 = cord := by
        rw [hiv]
        have h1 : b.cords_stack.length + 1 - 1 = b.cords_stack.length := by omega
        rw [h1, place_cords_getD b cord hI hc _ (by omega), getD_append_self]
      rw [hcv] at hp
      have hpb := (mem_neighborList hxc hyc).1 hp
      obtain ⟨hpa, hpbb, ha1, ha2, ha3, ha4, hne0⟩ := hpb
      have hpcN : p.1 + p.2 * b.state.dim < b.state.dim * b.state.dim :=
        idx_lt _ _ hpa hpbb
      have hpc_ne_cord : p.1 + p.2 * b.state.dim ≠ cord := by
        intro hh
        apply hne0
        constructor
        · rw [← hh, idx_mod _ _ hpa]
        · rw [← hh, idx_div _ _ hpa]
      have hI3 : Inv (((b.pickStep cord).colPhase (cord % b.state.dim)).rowPhase
          (cord / b.state.dim)) := rp_inv _ _ (cp_inv _ _ (pickStep_inv b cord hI hc))
      have hd3 : (((b.pickStep cord).colPhase (cord % b.state.dim)).rowPhase
          (cord / b.state.dim)).state.dim = b.state.dim := by
        rw [rp_dim, cp_dim, ps_dim]
      refine ⟨?_, ?_, ?_⟩
      · rw [hdim, place_eq]
        have hcover := ml_covers _ (neighborList b.state.dim (cord % b.state.dim)
          (cord / b.state.dim)) hI3 p hp
          (by rw [rp_dim, cp_dim, ps_dim]; exact hpcN)
        have hidx : p.1 + p.2 * (((b.pickStep cord).colPhase
            (cord % b.state.dim)).rowPhase (cord / b.state.dim)).state.dim =
            p.1 + p.2 * b.state.dim := by
          rw [hd3]
        rw [hidx] at hcover
        exact hcover
      · rw [hdim]
        intro hpc0
        rw [place_tent_iff b cord hI hc] at hpc0
        rcases hpc0 with hpc | hpc
        · exact hpc_ne_cord hpc
        · obtain ⟨i2, hi2, hq2, hc2⟩ := hH.tnAll _ hpcN hpc
          have hsym : ((cord % b.state.dim), (cord / b.state.dim)) ∈
              neighborList b.state.dim p.1 p.2 := by
            refine (mem_neighborList hpa hpbb).2 ⟨hxc, hyc, ha2, ha1, ha4, ha3, ?_⟩
            rintro ⟨e1, e2⟩
            apply hpc_ne_cord
            rw [← e1, ← e2]
            exact hrec
          have hadj2 := hH.hadj i2 hi2 ((cord % b.state.dim), (cord / b.state.dim))
            (by rw [hc2, idx_mod _ _ hpa, idx_div _ _ hpa]; exact hsym)
          have h1 := hadj2.1
          dsimp only at h1
          rw [hrec] at h1
          exact h1 hcN.2
      · intro q hq hqe o ho hio
        rw [place_bt] at ho
        rcases List.mem_append.1 ho with hoOld | hoNew
        · have := (hI.bt_bounds o hoOld).2
          omega
        · have := List.mem_singleton.1 hoNew
          omega
  · intro c hcd hct
    rw [hdim] at hcd
    rw [place_tent_iff b cord hI hc] at hct
    rcases hct with hceq | hct
    · refine ⟨b.cords_stack.length + 1, ?_, ?_, ?_⟩
      · rw [place_bt]
        exact List.mem_append_right _ (List.mem_singleton.2 rfl)
      · rw [hlen2]
        omega
      · have h1 : b.cords_stack.length + 1 - 1 = b.cords_stack.length := by omega
        rw [h1, place_cords_getD b cord hI hc _ (by omega), getD_append_self]
        exact hceq.symm
    · obtain ⟨i, hi, hq, he⟩ := hH.tnAll c hcd hct
      refine ⟨i, ?_, ?_, ?_⟩
      · rw [place_bt]
        exact List.mem_append_left _ hi
      · rw [hlen2]
        omega
      · rw [place_cords_getD b cord hI hc _ (by omega), getD_append_left hq]
        exact he

theorem pop_h {b : Backtrack} {o : Nat} (hI : Inv b) (hH : HInv b)
    (ho : b.backtrack_stack.getLast? = some o) : HInv (b.pop o) := by
  have hoMem : o ∈ b.backtrack_stack := List.mem_of_mem_getLast? ho
  have hob := hI.bt_bounds o hoMem
  have ho1 : 1 ≤ o := hob.1
  have holen : o ≤ b.cords_stack.length := hob.2
  have hsplit := bt_split ho
  have hlt := bt_dropLast_lt hI ho
  have hc0 : (b.cords_stack.take o).getLastD 0 = b.cords_stack.getD (o - 1) 0 :=
    pop_c0 ho1 holen
  constructor
  · intro i hi p hp
    rw [pop_backtrack_stack] at hi
    have hio := hlt i hi
    have hibt : i ∈ b.backtrack_stack := by
      rw [hsplit]
      exact List.mem_append_left _ hi
    have hib := hI.bt_bounds i hibt
    have hcord_pres : (b.pop o).cords_stack.getD (i - 1) 0 =
        b.cords_stack.getD (i - 1) 0 := by
      rw [pop_cords, getD_take (by omega : i - 1 < o)]
    rw [pop_dim, hcord_pres] at hp
    obtain ⟨hne, hnt, hprot⟩ := hH.hadj i hibt p hp
    have hval : (b.pop o).state.cells.getD (p.1 + p.2 * b.state.dim) Cell.Empty =
        b.state.cells.getD (p.1 + p.2 * b.state.dim) Cell.Empty ∨
        (b.pop o).state.cells.getD (p.1 + p.2 * b.state.dim) Cell.Empty =
          Cell.Grass := by
      rw [pop_cells_getD, hc0]
      by_cases h1 : p.1 + p.2 * b.state.dim = b.cords_stack.getD (o - 1) 0 ∧
          p.1 + p.2 * b.state.dim < b.state.cells.length
      · rw [if_pos h1]
        exact Or.inr rfl
      · rw [if_neg h1]
        have h2 : p.1 + p.2 * b.state.dim ∉ b.cords_stack.drop o := by
          intro hmem
          obtain ⟨q, hq1, hq2, hq3⟩ := mem_drop_getD hmem
          have := hprot q hq2 hq3 o hoMem hio
          omega
        rw [if_neg h2]
        exact Or.inl rfl
    refine ⟨?_, ?_, ?_⟩
    · rw [pop_dim]
      rcases hval with hv | hv
      · rw [hv]
        exact hne
      · rw [hv]
        intro hh
        cases hh
    · rw [pop_dim]
      rcases hval with hv | hv
      · rw [hv]
        exact hnt
      · rw [hv]
        intro hh
        cases hh
    · intro q hq hqe o2 ho2 hio2
      rw [pop_backtrack_stack] at ho2
      rw [pop_cords, List.length_take] at hq
      rw [pop_cords, pop_dim, getD_take (by omega : q < o)] at hqe
      exact hprot q (by omega) hqe o2
        (by rw [hsplit]; exact List.mem_append_left _ ho2) hio2
  · intro c hcd hct
    rw [pop_dim] at hcd
    rw [pop_cells_getD, hc0] at hct
    have hclen : c < b.state.cells.length := by
      rw [hI.len_cells]
      exact hcd
    by_cases h1 : c = b.cords_stack.getD (o - 1) 0 ∧ c < b.state.cells.length
    · rw [if_pos h1] at hct
      cases hct
    · rw [if_neg h1] at hct
      by_cases h2 : c ∈ b.cords_stack.drop o
      · rw [if_pos h2] at hct
        cases hct
      · rw [if_neg h2] at hct
        obtain ⟨i, hi, hq, he⟩ := hH.tnAll c hcd hct
        have hine : i ≠ o := by
          intro hh
          exact h1 ⟨by rw [← he, hh], hclen⟩
        have hidl : i ∈ b.backtrack_stack.dropLast := by
          rw [hsplit] at hi
          rcases List.mem_append.1 hi with hm | hm
          · exact hm
          · exact absurd (List.mem_singleton.1 hm) hine
        have hio := hlt i hidl
        refine ⟨i, ?_, ?_, ?_⟩
        · rw [pop_backtrack_stack]
          exact hidl
        · rw [pop_cords, List.length_take]
          omega
        · rw [pop_cords, getD_take (by omega : i - 1 < o)]
          exact he

/-- A fresh search state over a tent-free board satisfies the adjacency
invariant vacuously. -/
theorem init_h {s : State} (hnt : ∀ c, s.cells.getD c Cell.Empty ≠ Cell.Tent) :
    HInv (Backtrack.init s) := by
  constructor
  · intro i hi
    cases hi
  · intro c hcd hct
    exact absurd hct (hnt c)

theorem no_tent_getD {l : List Cell}
    (h : l.countP (fun c => decide (c = Cell.Tent)) = 0) :
    ∀ c, l.getD c Cell.Empty ≠ Cell.Tent := by
  intro c
  by_cases hcl : c < l.length
  · rw [List.getD_eq_getElem?_getD, List.getElem?_eq_getElem hcl, Option.getD_some]
    intro hh
    have hmem := List.getElem_mem hcl
    rw [hh] at hmem
    have := (List.countP_eq_zero.1 h) _ hmem
    simp at this
  · rw [List.getD_eq_default _ _ (le_of_not_lt hcl)]
    intro hh
    cases hh

theorem fill_green_no_tent {s : State} (hlen : s.cells.length = s.dim * s.dim)
    (hnt : ∀ c, s.cells.getD c Cell.Empty ≠ Cell.Tent) :
    ∀ c, s.fill_green.cells.getD c Cell.Empty ≠ Cell.Tent := by
  intro c
  rw [fill_green_getD s hlen c]
  split
  · intro hh
    cases hh
  · exact hnt c

/-- The adjacency invariant, with the search invariant, transports along
any reachable-states path. -/
theorem reach_inv_h {b0 b : Backtrack} (h0 : Inv b0) (hH0 : HInv b0)
    (hR : Reach b0 b) : Inv b ∧ HInv b := by
  induction hR with
  | refl => exact ⟨h0, hH0⟩
  | place c hR hc ih => exact ⟨place_inv _ _ ih.1 hc, place_h _ _ ih.1 ih.2 hc⟩
  | pop i hR ht hne ho ih => exact ⟨pop_inv ih.1 ht ho, pop_h ih.1 ih.2 ho⟩

end AdjacencyInvariant

end SearchInvariant

section ClaimC4

/-- A trivially solved puzzle: a single already-grassed cell with zero
counts, so `apply` returns at once. -/
def sC4 : State :=
  { dim := 1, cells := [Cell.Grass], col_tents := [0], row_tents := [0] }

/-- C4: completeness of a normal return.  `Backtrack::run` returns only
when the frontier set is empty, and the frontier holds exactly the
`Empty` cell indices throughout the search, so no cell of the final
board is `Empty` — every cell is `Tree`, `Tent` or `Grass`. -/
theorem C4_no_empty_after_solve (ch : Nat → Nat) (fuel : Nat) (s : State) (hw : Wf s)
    (bf : Backtrack) (h : Backtrack.applyFuel ch fuel s = RunResult.solved bf) :
    bf.todo = [] ∧
    ∀ c, c < bf.state.cells.length →
      bf.state.cells.getD c Cell.Empty ≠ Cell.Empty := by
  obtain ⟨hR, hT, hE⟩ := runAux_solved_reach ch fuel 0 (Backtrack.init s) bf h
  have hInv : Inv bf := reach_inv (init_inv hw) hR
  refine ⟨hT, ?_⟩
  intro c hcl hE2
  have hcd : c < bf.state.dim * bf.state.dim := by
    rw [← hInv.len_cells]
    exact hcl
  have hmem := (hInv.todo_iff c).2 ⟨hcd, hE2⟩
  rw [hT] at hmem
  cases hmem

theorem C4_witness :
    Wf sC4 ∧ ((Backtrack.init sC4).todo = [] ∧
      ∀ c, c < (Backtrack.init sC4).state.cells.length →
        (Backtrack.init sC4).state.cells.getD c Cell.Empty ≠ Cell.Empty) :=
  ⟨by decide,
    C4_no_empty_after_solve ch0 1 sC4 (by decide) (Backtrack.init sC4) (by decide)⟩

end ClaimC4

section ClaimC1Amended

/-- C1 (amended): the only exit test of `Backtrack::run` is
`tent_count == tree_count`, so a normal return guarantees that the tent
census of the final board equals its tree census; the row and column
totals are never compared to the tree count (and `C1_counterexample`
shows an input with inconsistent totals that still returns a board). -/
theorem C1_solved_balance (ch : Nat → Nat) (fuel : Nat) (s : State) (hw : Wf s)
    (bf : Backtrack) (h : State.solveFuel ch fuel s = RunResult.solved bf) :
    cellCount bf.state.cells Cell.Tent = cellCount bf.state.cells Cell.Tree := by
  obtain ⟨hR, hT, hE⟩ := runAux_solved_reach ch fuel 0
    (Backtrack.init s.fill_green) bf h
  have hInv : Inv bf := reach_inv (init_inv (fill_green_wf hw)) hR
  show bf.state.cells.countP (fun c => decide (c = Cell.Tent)) =
    bf.state.cells.countP (fun c => decide (c = Cell.Tree))
  rw [← hInv.tent_eq, ← hInv.tree_eq]
  exact hE

theorem C1_balance_witness :
    Wf cexC1 ∧
      cellCount (Backtrack.init cexC1.fill_green).state.cells Cell.Tent =
        cellCount (Backtrack.init cexC1.fill_green).state.cells Cell.Tree :=
  ⟨by decide,
    C1_solved_balance ch0 1 cexC1 (by decide) (Backtrack.init cexC1.fill_green)
      (by decide)⟩

end ClaimC1Amended

section ClaimC10

/-- C10: the u8 count decrements at tent placement never wrap.  In every
state the search reaches from a well-formed, `fill_green`-prepared
puzzle, any frontier cell's column and row remaining counts are at least
1 — a line whose count reached zero has had all of its `Empty` cells
swept to `Grass`, so no cell of it stays on the frontier. -/
theorem C10_no_underflow (s : State) (hw : Wf s) (b : Backtrack)
    (hR : Reach (Backtrack.init s.fill_green) b) (c : Nat) (hc : c ∈ b.todo) :
    1 ≤ b.state.col_tents.getD (c % b.state.dim) 0 ∧
    1 ≤ b.state.row_tents.getD (c / b.state.dim) 0 := by
  obtain ⟨hI, hZ⟩ := reach_inv_z (init_inv (fill_green_wf hw)) (init_z hw) hR
  have hcN := (hI.todo_iff c).1 hc
  have hn : 0 < b.state.dim := by
    rcases Nat.eq_zero_or_pos b.state.dim with h0 | h0
    · rw [h0] at hcN
      omega
    · exact h0
  have hxc : c % b.state.dim < b.state.dim := Nat.mod_lt _ hn
  have hyc : c / b.state.dim < b.state.dim := div_lt_of_lt_sq hcN.1
  have hrec : c % b.state.dim + c / b.state.dim * b.state.dim = c :=
    idx_recompose _ _
  constructor
  · by_contra hcc
    push_neg at hcc
    have h0 : b.state.col_tents.getD (c % b.state.dim) 0 = 0 := by omega
    have hz := (hZ.col_zero _ hxc h0).1 (c / b.state.dim) hyc
    rw [hrec] at hz
    exact hz hcN.2
  · by_contra hcc
    push_neg at hcc
    have h0 : b.state.row_tents.getD (c / b.state.dim) 0 = 0 := by omega
    have hz := (hZ.row_zero _ hyc h0).1 (c % b.state.dim) hxc
    rw [hrec] at hz
    exact hz hcN.2

theorem C10_witness :
    Wf cexC2 ∧ 1 ∈ (Backtrack.init cexC2.fill_green).todo ∧
      (1 ≤ (Backtrack.init cexC2.fill_green).state.col_tents.getD
          (1 % (Backtrack.init cexC2.fill_green).state.dim) 0 ∧
       1 ≤ (Backtrack.init cexC2.fill_green).state.row_tents.getD
          (1 / (Backtrack.init cexC2.fill_green).state.dim) 0) :=
  ⟨by decide, by decide,
    C10_no_underflow cexC2 (by decide) _ (Reach.refl _) 1 (by decide)⟩

end ClaimC10

section ClaimC3Amended

/-- A tent-free 2×2 puzzle with a unique solution, used to witness the
no-adjacent-tents theorem. -/
def sC3w : State :=
  { dim := 2
    cells := [Cell.Tree, Cell.Empty, Cell.Empty, Cell.Empty]
    col_tents := [0, 1]
    row_tents := [1, 0] }

/-- The board `solve` returns on `sC3w`. -/
def bfC3 : Backtrack := (Backtrack.init sC3w.fill_green).place 1

/-- C3 (amended to tent-free inputs): for every well-formed puzzle whose
input board holds no `Tent` cell — as every parsed puzzle does — a
normal return carries no two mutually king-move-adjacent `Tent` cells.
The restriction is necessary: `C3_counterexample` returns a board with
two adjacent pre-placed tents untouched. -/
theorem C3_no_adjacent_tents (ch : Nat → Nat) (fuel : Nat) (s : State) (hw : Wf s)
    (hnt : cellCount s.cells Cell.Tent = 0) (bf : Backtrack)
    (h : State.solveFuel ch fuel s = RunResult.solved bf)
    (x y x2 y2 : Nat) (hx : x < bf.state.dim) (hy : y < bf.state.dim)
    (hx2 : x2 < bf.state.dim) (hy2 : y2 < bf.state.dim)
    (hax : x2 ≤ x + 1) (hax2 : x ≤ x2 + 1) (hay : y2 ≤ y + 1) (hay2 : y ≤ y2 + 1)
    (hned : ¬(x2 = x ∧ y2 = y)) :
    ¬(bf.state.cells.getD (x + y * bf.state.dim) Cell.Empty = Cell.Tent ∧
      bf.state.cells.getD (x2 + y2 * bf.state.dim) Cell.Empty = Cell.Tent) := by
  rintro ⟨ht1, ht2⟩
  obtain ⟨hR, hT, hE⟩ := runAux_solved_reach ch fuel 0
    (Backtrack.init s.fill_green) bf h
  obtain ⟨hI, hH⟩ := reach_inv_h (init_inv (fill_green_wf hw))
    (init_h (fill_green_no_tent hw.1 (no_tent_getD hnt))) hR
  have hc1N : x + y * bf.state.dim < bf.state.dim * bf.state.dim := idx_lt _ _ hx hy
  obtain ⟨i, hi, hq, he⟩ := hH.tnAll _ hc1N ht1
  have hadj := hH.hadj i hi (x2, y2)
    (by rw [he, idx_mod x y hx, idx_div x y hx]
        exact (mem_neighborList hx hy).2 ⟨hx2, hy2, hax, hax2, hay, hay2, hned⟩)
  exact hadj.2.1 ht2

theorem C3_witness :
    Wf sC3w ∧ cellCount sC3w.cells Cell.Tent = 0 ∧
      State.solveFuel ch0 2 sC3w = RunResult.solved bfC3 ∧
      ¬(bfC3.state.cells.getD (0 + 0 * bfC3.state.dim) Cell.Empty = Cell.Tent ∧
        bfC3.state.cells.getD (1 + 0 * bfC3.state.dim) Cell.Empty = Cell.Tent) :=
  ⟨by decide, by decide, by decide,
    C3_no_adjacent_tents ch0 2 sC3w (by decide) (by decide) bfC3 (by decide)
      0 0 1 0 (by decide) (by decide) (by decide) (by decide)
      (by decide) (by decide) (by decide) (by decide) (by decide)⟩

end ClaimC3Amended

section TerminationMeasure

theorem nodup_lt_length_le {l : List Nat} {n : Nat} (hnd : l.Nodup)
    (hlt : ∀ x ∈ l, x < n) : l.length ≤ n := by
  have hsub : l.toFinset ⊆ Finset.range n := by
    intro x hx
    rw [List.mem_toFinset] at hx
    rw [Finset.mem_range]
    exact hlt x hx
  have hcard := Finset.card_le_card hsub
  rw [List.toFinset_card_of_nodup hnd, Finset.card_range] at hcard
  exact hcard

theorem cords_len_le {b : Backtrack} (hI : Inv b) :
    b.cords_stack.length ≤ b.state.dim * b.state.dim :=
  nodup_lt_length_le hI.cords_nodup hI.cords_lt

theorem todo_len_le {b : Backtrack} (hI : Inv b) :
    b.todo.length ≤ b.state.dim * b.state.dim :=
  nodup_lt_length_le hI.todo_nodup (fun c hc => ((hI.todo_iff c).1 hc).1)

/-- The progress weight of the trail: an open choice point at offset
`q` (no matching backtrack entry) weighs `2^(N-1-q)`, an active one
weighs nothing.  A pop turns offset `o - 1` from active to rejected,
which outweighs every deeper entry it discards. -/
def trailV (b : Backtrack) : Nat :=
  ∑ q in Finset.range b.cords_stack.length,
    (if q + 1 ∈ b.backtrack_stack then 0
     else 2 ^ (b.state.dim * b.state.dim - 1 - q))

/-- The termination measure of the search loop. -/
def searchMeasure (b : Backtrack) : Nat :=
  (2 ^ (b.state.dim * b.state.dim) - trailV b) * (b.state.dim * b.state.dim + 1)
    + b.todo.length

theorem geom_sum (N : Nat) : ∀ len, len ≤ N →
    (∑ q in Finset.range len, 2 ^ (N - 1 - q)) + 2 ^ (N - len) = 2 ^ N := by
  intro len
  induction len with
  | zero => simp
  | succ k ih =>
    intro h
    rw [Finset.sum_range_succ]
    have hk : k ≤ N := by omega
    have hik := ih hk
    have h2 : N - 1 - k = N - (k + 1) := by omega
    rw [h2]
    have h3 : 2 ^ (N - k) = 2 ^ (N - (k + 1)) + 2 ^ (N - (k + 1)) := by
      have h4 : N - k = (N - (k + 1)) + 1 := by omega
      rw [h4, pow_succ]
      ring
    omega

theorem trailV_lt {b : Backtrack} (hI : Inv b) :
    trailV b < 2 ^ (b.state.dim * b.state.dim) := by
  have hlen := cords_len_le hI
  have hg := geom_sum (b.state.dim * b.state.dim) b.cords_stack.length hlen
  have hle : trailV b ≤ ∑ q in Finset.range b.cords_stack.length,
      2 ^ (b.state.dim * b.state.dim - 1 - q) := by
    refine Finset.sum_le_sum ?_
    intro q hq
    split
    · exact Nat.zero_le _
    · exact le_rfl
  have hpos : 0 < 2 ^ (b.state.dim * b.state.dim - b.cords_stack.length) :=
    pow_pos (by omega) _
  omega

theorem measure_place {b : Backtrack} {cord : Nat} (hI : Inv b) (hc : cord ∈ b.todo) :
    searchMeasure (b.place cord) < searchMeasure b := by
  have hdim : (b.place cord).state.dim = b.state.dim := place_dim b cord
  have htodo := place_todo_len b cord hc
  have hVb := trailV_lt hI
  have hIp := place_inv b cord hI hc
  have hVp : trailV (b.place cord) <
      2 ^ ((b.place cord).state.dim * (b.place cord).state.dim) := trailV_lt hIp
  rw [hdim] at hVp
  have hVb_eq : trailV b = ∑ q in Finset.range b.cords_stack.length,
      (if q + 1 ∈ (b.place cord).backtrack_stack then 0
       else 2 ^ ((b.place cord).state.dim * (b.place cord).state.dim - 1 - q)) := by
    show (∑ q in Finset.range b.cords_stack.length,
      (if q + 1 ∈ b.backtrack_stack then 0
       else 2 ^ (b.state.dim * b.state.dim - 1 - q))) = _
    refine Finset.sum_congr rfl ?_
    intro q hq
    rw [Finset.mem_range] at hq
    rw [place_bt, hdim]
    by_cases hmem : q + 1 ∈ b.backtrack_stack
    · rw [if_pos hmem, if_pos (List.mem_append_left _ hmem)]
    · have hnn : q + 1 ∉ b.backtrack_stack ++ [b.cords_stack.length + 1] := by
        intro hmem2
        rcases List.mem_append.1 hmem2 with hm | hm
        · exact hmem hm
        · have := List.mem_singleton.1 hm
          omega
      rw [if_neg hmem, if_neg hnn]
  have hV : trailV b ≤ trailV (b.place cord) := by
    rw [hVb_eq]
    have hsub : Finset.range b.cords_stack.length ⊆
        Finset.range (b.place cord).cords_stack.length := by
      intro q hq
      rw [Finset.mem_range] at hq ⊢
      have := place_cords_len_ge b cord hI hc
      omega
    exact Finset.sum_le_sum_of_subset hsub
  have e1 : searchMeasure (b.place cord) =
      (2 ^ (b.state.dim * b.state.dim) - trailV (b.place cord)) *
        (b.state.dim * b.state.dim + 1) + (b.place cord).todo.length := by
    unfold searchMeasure
    rw [hdim]
  rw [e1]
  show _ < (2 ^ (b.state.dim * b.state.dim) - trailV b) *
      (b.state.dim * b.state.dim + 1) + b.todo.length
  have hstep1 : (2 ^ (b.state.dim * b.state.dim) - trailV (b.place cord)) *
      (b.state.dim * b.state.dim + 1) ≤
      (2 ^ (b.state.dim * b.state.dim) - trailV b) *
        (b.state.dim * b.state.dim + 1) :=
    Nat.mul_le_mul_right _ (by omega)
  calc (2 ^ (b.state.dim * b.state.dim) - trailV (b.place cord)) *
        (b.state.dim * b.state.dim + 1) + (b.place cord).todo.length
      ≤ (2 ^ (b.state.dim * b.state.dim) - trailV b) *
        (b.state.dim * b.state.dim + 1) + (b.place cord).todo.length :=
        Nat.add_le_add_right hstep1 _
    _ < (2 ^ (b.state.dim * b.state.dim) - trailV b) *
        (b.state.dim * b.state.dim + 1) + b.todo.length :=
        Nat.add_lt_add_left (by omega) _

theorem measure_pop {b : Backtrack} {o : Nat} (hI : Inv b) (ht : b.todo = [])
    (ho : b.backtrack_stack.getLast? = some o) :
    searchMeasure (b.pop o) < searchMeasure b := by
  have hoMem : o ∈ b.backtrack_stack := List.mem_of_mem_getLast? ho
  have hob := hI.bt_bounds o hoMem
  have ho1 : 1 ≤ o := hob.1
  have holen : o ≤ b.cords_stack.length := hob.2
  have hsplit := bt_split ho
  have hlt := bt_dropLast_lt hI ho
  have hIp : Inv (b.pop o) := pop_inv hI ht ho
  have hVb := trailV_lt hI
  have hVp : trailV (b.pop o) < 2 ^ (b.state.dim * b.state.dim) := trailV_lt hIp
  have hlenpop : (b.pop o).cords_stack.length = o := by
    rw [pop_cords, List.length_take]
    omega
  have epop0 : trailV (b.pop o) = ∑ q in Finset.range o,
      (if q + 1 ∈ b.backtrack_stack.dropLast then 0
       else 2 ^ (b.state.dim * b.state.dim - 1 - q)) := by
    show (∑ q in Finset.range (b.pop o).cords_stack.length,
      (if q + 1 ∈ (b.pop o).backtrack_stack then 0
       else 2 ^ (b.state.dim * b.state.dim - 1 - q))) = _
    rw [hlenpop]
    refine Finset.sum_congr rfl ?_
    intro q hq
    rw [pop_backtrack_stack]
  have epop : trailV (b.pop o) = (∑ q in Finset.range (o - 1),
      (if q + 1 ∈ b.backtrack_stack.dropLast then 0
       else 2 ^ (b.state.dim * b.state.dim - 1 - q)))
      + 2 ^ (b.state.dim * b.state.dim - o) := by
    rw [epop0]
    have ho2 : o = (o - 1) + 1 := by omega
    have hsucc := Finset.sum_range_succ
      (fun q => (if q + 1 ∈ b.backtrack_stack.dropLast then 0
        else 2 ^ (b.state.dim * b.state.dim - 1 - q))) (o - 1)
    rw [← ho2] at hsucc
    rw [hsucc]
    have hnmem : o ∉ b.backtrack_stack.dropLast := by
      intro hmem
      have := hlt o hmem
      omega
    have hlast : (if o ∈ b.backtrack_stack.dropLast then 0
        else 2 ^ (b.state.dim * b.state.dim - 1 - (o - 1))) =
        2 ^ (b.state.dim * b.state.dim - o) := by
      rw [if_neg hnmem]
      have h3 : b.state.dim * b.state.dim - 1 - (o - 1) =
          b.state.dim * b.state.dim - o := by omega
      rw [h3]
    rw [hlast]
  have hpre : (∑ q in Finset.range (o - 1),
      (if q + 1 ∈ b.backtrack_stack.dropLast then 0
       else 2 ^ (b.state.dim * b.state.dim - 1 - q))) =
      ∑ q in Finset.range (o - 1),
      (if q + 1 ∈ b.backtrack_stack then 0
       else 2 ^ (b.state.dim * b.state.dim - 1 - q)) := by
    refine Finset.sum_congr rfl ?_
    intro q hq
    rw [Finset.mem_range] at hq
    by_cases hmem : q + 1 ∈ b.backtrack_stack.dropLast
    · rw [if_pos hmem, if_pos (by rw [hsplit]; exact List.mem_append_left _ hmem)]
    · have hnn : q + 1 ∉ b.backtrack_stack := by
        intro hmem2
        rw [hsplit] at hmem2
        rcases List.mem_append.1 hmem2 with hm | hm
        · exact hmem hm
        · have := List.mem_singleton.1 hm
          omega
      rw [if_neg hmem, if_neg hnn]
  have hbsplit : trailV b = (∑ q in Finset.range o,
      (if q + 1 ∈ b.backtrack_stack then 0
       else 2 ^ (b.state.dim * b.state.dim - 1 - q)))
      + ∑ q in Finset.Ico o b.cords_stack.length,
      (if q + 1 ∈ b.backtrack_stack then 0
       else 2 ^ (b.state.dim * b.state.dim - 1 - q)) := by
    show (∑ q in Finset.range b.cords_stack.length,
      (if q + 1 ∈ b.backtrack_stack then 0
       else 2 ^ (b.state.dim * b.state.dim - 1 - q))) = _
    rw [Finset.range_eq_Ico, ← Finset.sum_Ico_consecutive _ (Nat.zero_le o) holen,
      ← Finset.range_eq_Ico]
  have hsplit_o : (∑ q in Finset.range o,
      (if q + 1 ∈ b.backtrack_stack then 0
       else 2 ^ (b.state.dim * b.state.dim - 1 - q)))
      = ∑ q in Finset.range (o - 1),
      (if q + 1 ∈ b.backtrack_stack then 0
       else 2 ^ (b.state.dim * b.state.dim - 1 - q)) := by
    have ho2 : o = (o - 1) + 1 := by omega
    have hsucc := Finset.sum_range_succ
      (fun q => (if q + 1 ∈ b.backtrack_stack then 0
        else 2 ^ (b.state.dim * b.state.dim - 1 - q))) (o - 1)
    rw [← ho2] at hsucc
    rw [hsucc, if_pos hoMem, Nat.add_zero]
  have htail : (∑ q in Finset.Ico o b.cords_stack.length,
      (if q + 1 ∈ b.backtrack_stack then 0
       else 2 ^ (b.state.dim * b.state.dim - 1 - q)))
      < 2 ^ (b.state.dim * b.state.dim - o) := by
    have hle : (∑ q in Finset.Ico o b.cords_stack.length,
        (if q + 1 ∈ b.backtrack_stack then 0
         else 2 ^ (b.state.dim * b.state.dim - 1 - q))) ≤
        ∑ q in Finset.Ico o b.cords_stack.length,
          2 ^ (b.state.dim * b.state.dim - 1 - q) := by
      refine Finset.sum_le_sum ?_
      intro q hq
      split
      · exact Nat.zero_le _
      · exact le_rfl
    have hlenN : b.cords_stack.length ≤ b.state.dim * b.state.dim := cords_len_le hI
    have hgeom_len := geom_sum (b.state.dim * b.state.dim) b.cords_stack.length hlenN
    have hgeom_o := geom_sum (b.state.dim * b.state.dim) o (by omega)
    have hcons : (∑ q in Finset.range o, 2 ^ (b.state.dim * b.state.dim - 1 - q)) +
        (∑ q in Finset.Ico o b.cords_stack.length,
          2 ^ (b.state.dim * b.state.dim - 1 - q)) =
        ∑ q in Finset.range b.cords_stack.length,
          2 ^ (b.state.dim * b.state.dim - 1 - q) := by
      have hcons0 := Finset.sum_Ico_consecutive
        (fun q => 2 ^ (b.state.dim * b.state.dim - 1 - q)) (Nat.zero_le o) holen
      rw [← Finset.range_eq_Ico] at hcons0
      exact hcons0
    have hpow : 0 < 2 ^ (b.state.dim * b.state.dim - b.cords_stack.length) :=
      pow_pos (by omega) _
    omega
  have hVinc : trailV b < trailV (b.pop o) := by
    rw [hbsplit, epop, hpre]
    omega
  have htodop : (b.pop o).todo.length ≤ b.state.dim * b.state.dim := todo_len_le hIp
  have e1 : searchMeasure (b.pop o) =
      (2 ^ (b.state.dim * b.state.dim) - trailV (b.pop o)) *
        (b.state.dim * b.state.dim + 1) + (b.pop o).todo.length := rfl
  have e2 : searchMeasure b =
      (2 ^ (b.state.dim * b.state.dim) - trailV b) *
        (b.state.dim * b.state.dim + 1) := by
    unfold searchMeasure
    rw [ht, List.length_nil, Nat.add_zero]
  rw [e1, e2]
  have hstep1 : (2 ^ (b.state.dim * b.state.dim) - trailV (b.pop o)) *
      (b.state.dim * b.state.dim + 1) ≤
      ((2 ^ (b.state.dim * b.state.dim) - trailV b) - 1) *
        (b.state.dim * b.state.dim + 1) :=
    Nat.mul_le_mul_right _ (by omega)
  have hc1 : (2 ^ (b.state.dim * b.state.dim) - trailV b) - 1 + 1 =
      2 ^ (b.state.dim * b.state.dim) - trailV b := by omega
  calc (2 ^ (b.state.dim * b.state.dim) - trailV (b.pop o)) *
        (b.state.dim * b.state.dim + 1) + (b.pop o).todo.length
      ≤ ((2 ^ (b.state.dim * b.state.dim) - trailV b) - 1) *
        (b.state.dim * b.state.dim + 1) + (b.pop o).todo.length :=
        Nat.add_le_add_right hstep1 _
    _ < ((2 ^ (b.state.dim * b.state.dim) - trailV b) - 1) *
        (b.state.dim * b.state.dim + 1) + (b.state.dim * b.state.dim + 1) :=
        Nat.add_lt_add_left (by omega) _
    _ = ((2 ^ (b.state.dim * b.state.dim) - trailV b) - 1 + 1) *
        (b.state.dim * b.state.dim + 1) := by ring
    _ = (2 ^ (b.state.dim * b.state.dim) - trailV b) *
        (b.state.dim * b.state.dim + 1) := by rw [hc1]

/-- Fuel `searchMeasure b + 1` always suffices: the loop body strictly
decreases the measure, so `run` cannot run out. -/
theorem runAux_total (ch : Nat → Nat) :
    ∀ (m t : Nat) (b : Backtrack), Inv b → searchMeasure b ≤ m →
      Backtrack.runAux ch (m + 1) t b ≠ RunResult.outOfFuel := by
  intro m
  induction m with
  | zero =>
    intro t b hI hm
    exfalso
    have hVlt := trailV_lt hI
    unfold searchMeasure at hm
    have hprod : (2 ^ (b.state.dim * b.state.dim) - trailV b) *
        (b.state.dim * b.state.dim + 1) = 0 := by omega
    rcases Nat.mul_eq_zero.1 hprod with h0 | h0
    · omega
    · omega
  | succ m ih =>
    intro t b hI hm
    by_cases hT : b.todo = []
    · by_cases hE : b.tent_count = b.tree_count
      · rw [runAux_solved_step ch (m + 1) t b hT hE]
        intro hh
        cases hh
      · cases hbt : b.backtrack_stack.getLast? with
        | some i =>
          rw [runAux_pop_step ch (m + 1) t b i hT hE hbt]
          refine ih (t + 1) (b.pop i) (pop_inv hI hT hbt) ?_
          have := measure_pop hI hT hbt
          omega
        | none =>
          simp [Backtrack.runAux, hT, hE, hbt]
    · rw [runAux_place_step ch (m + 1) t b hT]
      have hcmem := pickIdx_mem ch t b.todo hT
      refine ih (t + 1) _ (place_inv _ _ hI hcmem) ?_
      have := measure_place hI hcmem
      omega

end TerminationMeasure

section ClaimC8

/-- C8: the search loop always terminates.  For every well-formed input
state and every frontier iteration order, some finite fuel makes
`Backtrack::run` (here `applyFuel`) finish — returning a solved board or
stopping with the fatal `panic!("No solution")` — instead of running out
of fuel, because each loop round strictly decreases `searchMeasure`. -/
theorem C8_terminates (ch : Nat → Nat) (s : State) (hw : Wf s) :
    ∃ fuel, (∃ bf, Backtrack.applyFuel ch fuel s = RunResult.solved bf) ∨
      Backtrack.applyFuel ch fuel s = RunResult.noSolution := by
  refine ⟨searchMeasure (Backtrack.init s) + 1, ?_⟩
  have hne : Backtrack.applyFuel ch (searchMeasure (Backtrack.init s) + 1) s ≠
      RunResult.outOfFuel :=
    runAux_total ch (searchMeasure (Backtrack.init s)) 0 (Backtrack.init s)
      (init_inv hw) le_rfl
  cases hres : Backtrack.applyFuel ch (searchMeasure (Backtrack.init s) + 1) s with
  | solved bf => exact Or.inl ⟨bf, rfl⟩
  | noSolution => exact Or.inr rfl
  | outOfFuel => exact absurd hres hne

theorem C8_witness :
    Wf sC4 ∧ ∃ fuel, (∃ bf, Backtrack.applyFuel ch0 fuel sC4 = RunResult.solved bf) ∨
      Backtrack.applyFuel ch0 fuel sC4 = RunResult.noSolution :=
  ⟨by decide, C8_terminates ch0 sC4 (by decide)⟩

end ClaimC8

end TT
